import Mathlib

/-!
Verification development for the endless_sky_rw repository: a shallow
embedding of its arena allocator (src/arena.rs), data model (src/data.rs),
lexer (src/lex.rs), parser (src/parse.rs) and the line/column location
logic of the diagnostic renderer (src/reporting.rs), together with
theorems about the behaviour claimed in the specification.

Source text is modelled as `List Char`; byte positions are explicit
(`lenUtf8` mirrors Rust's `char::len_utf8`), so spans are genuine byte
ranges exactly as in the Rust code.
-/

set_option linter.unusedVariables false

namespace EndlessSkyRW

/-! ## Byte-level model of `str` -/

/-- UTF-8 encoded byte length of a character, as Rust's `char::len_utf8`. -/
def lenUtf8 (c : Char) : Nat :=
  if c.toNat < 0x80 then 1
  else if c.toNat < 0x800 then 2
  else if c.toNat < 0x10000 then 3
  else 4

theorem lenUtf8_pos (c : Char) : 0 < lenUtf8 c := by
  unfold lenUtf8; split <;> [decide; split <;> [decide; (split <;> decide)]]

/-- Byte length of a string (Rust `str::len`). -/
def utf8Len (s : List Char) : Nat := (s.map lenUtf8).sum

theorem utf8Len_nil : utf8Len [] = 0 := rfl

theorem utf8Len_cons (c : Char) (s : List Char) :
    utf8Len (c :: s) = lenUtf8 c + utf8Len s := rfl

theorem utf8Len_append (s t : List Char) :
    utf8Len (s ++ t) = utf8Len s + utf8Len t := by
  induction s with
  | nil => simp [utf8Len]
  | cons c s ih => simp [utf8Len_cons, ih, Nat.add_assoc]

/-- Drop the first `n` bytes of a string; `none` if `n` is not a character
boundary within the string (Rust `str::get(n..)`). -/
def dropBytes : List Char → Nat → Option (List Char)
  | s, 0 => some s
  | [], _ + 1 => none
  | c :: rest, n + 1 =>
      if lenUtf8 c ≤ n + 1 then dropBytes rest (n + 1 - lenUtf8 c) else none

/-- Take the first `n` bytes of a string; `none` if `n` is not a character
boundary within the string (Rust `str::get(..n)`). -/
def takeBytes : List Char → Nat → Option (List Char)
  | _, 0 => some []
  | [], _ + 1 => none
  | c :: rest, n + 1 =>
      if lenUtf8 c ≤ n + 1 then (takeBytes rest (n + 1 - lenUtf8 c)).map (c :: ·)
      else none

/-- `str::get(a..b)`: the slice of `s` between byte offsets `a` and `b`,
`none` when the range is invalid for `s`. -/
def sliceBytes (s : List Char) (a b : Nat) : Option (List Char) :=
  if a ≤ b then (dropBytes s a).bind (fun t => takeBytes t (b - a)) else none

/-- `char_indices`: each character of `s` paired with the byte offset at
which it starts, offsets starting at `base`. -/
def charIndicesFrom (base : Nat) : List Char → List (Nat × Char)
  | [] => []
  | c :: rest => (base, c) :: charIndicesFrom (base + lenUtf8 c) rest

def charIndices (s : List Char) : List (Nat × Char) := charIndicesFrom 0 s

theorem charIndicesFrom_cons (b : Nat) (c : Char) (rest : List Char) :
    charIndicesFrom b (c :: rest) = (b, c) :: charIndicesFrom (b + lenUtf8 c) rest := rfl

theorem dropBytes_zero (s : List Char) : dropBytes s 0 = some s := by cases s <;> rfl

theorem takeBytes_zero (s : List Char) : takeBytes s 0 = some [] := by cases s <;> rfl

theorem dropBytes_nil_succ (n : Nat) : dropBytes [] (n + 1) = none := rfl

theorem takeBytes_nil_succ (n : Nat) : takeBytes [] (n + 1) = none := rfl

theorem dropBytes_cons_succ (c : Char) (rest : List Char) (n : Nat) :
    dropBytes (c :: rest) (n + 1)
      = if lenUtf8 c ≤ n + 1 then dropBytes rest (n + 1 - lenUtf8 c) else none := rfl

theorem takeBytes_cons_succ (c : Char) (rest : List Char) (n : Nat) :
    takeBytes (c :: rest) (n + 1)
      = if lenUtf8 c ≤ n + 1 then (takeBytes rest (n + 1 - lenUtf8 c)).map (c :: ·)
        else none := rfl

/-! ## Arena (src/arena.rs) -/

/-- `ArenaIndex { generation: u64, index: usize }`. -/
structure ArenaIndex where
  generation : Nat
  index : Nat
deriving DecidableEq, Repr

/-- A slot of the arena: `Entry<T>`. -/
inductive Entry (T : Type) where
  | free
  | occupied (generation : Nat) (value : T)
deriving DecidableEq, Repr

/-- `Arena<T>`.  The Rust `next_free` is a `Vec` used as a stack
(push/pop at the back); we model it as a list with the top at the head,
which is the same stack discipline. -/
structure Arena (T : Type) where
  arena : List (Entry T)
  next_free : List Nat
  generation : Nat
  count : Nat
deriving DecidableEq, Repr

/-- `Arena::default()`. -/
def Arena.default (T : Type) : Arena T :=
  { arena := [], next_free := [], generation := 0, count := 0 }

/-- `Arena::insert`.  Note the faithful modelling of the Rust let-chain:
`next_free.pop()` happens first, and if the popped index is (impossibly,
for reachable states) out of bounds the code still appends, with the pop
already performed. -/
def Arena.insert (a : Arena T) (value : T) : Arena T × ArenaIndex :=
  let count := a.count + 1
  match a.next_free with
  | free_index :: rest =>
      if free_index < a.arena.length then
        ({ arena := a.arena.set free_index (.occupied a.generation value),
           next_free := rest, generation := a.generation, count := count },
         ⟨a.generation, free_index⟩)
      else
        ({ arena := a.arena ++ [.occupied a.generation value],
           next_free := rest, generation := a.generation, count := count },
         ⟨a.generation, a.arena.length⟩)
  | [] =>
      ({ arena := a.arena ++ [.occupied a.generation value],
         next_free := [], generation := a.generation, count := count },
       ⟨a.generation, a.arena.length⟩)

/-- `Arena::get_by_usize`. -/
def Arena.get_by_usize (a : Arena T) (index : Nat) : Option T :=
  match a.arena[index]? with
  | some (.occupied _ v) => some v
  | _ => none

/-- `Arena::get`. -/
def Arena.get (a : Arena T) (idx : ArenaIndex) : Option T :=
  match a.arena[idx.index]? with
  | some (.occupied g _) =>
      if g = idx.generation then a.get_by_usize idx.index else none
  | _ => none

/-- `Arena::remove_by_usize`, returning the new arena and the removed value. -/
def Arena.remove_by_usize (a : Arena T) (index : Nat) : Arena T × Option T :=
  match a.arena[index]? with
  | some (.occupied _ v) =>
      ({ arena := a.arena.set index .free,
         next_free := index :: a.next_free,
         generation := a.generation + 1,
         count := a.count - 1 }, some v)
  | _ => (a, none)

/-- `Arena::remove`. -/
def Arena.remove (a : Arena T) (idx : ArenaIndex) : Arena T × Option T :=
  match a.arena[idx.index]? with
  | some (.occupied g _) =>
      if g = idx.generation then a.remove_by_usize idx.index else (a, none)
  | _ => (a, none)

/-- `Arena::get_mut` followed by writing `value` through the reference:
updates the slot's value, keeping its stamped generation, when `get_mut`
would succeed; otherwise leaves the arena unchanged. -/
def Arena.update (a : Arena T) (idx : ArenaIndex) (value : T) : Arena T :=
  match a.arena[idx.index]? with
  | some (.occupied g _) =>
      if g = idx.generation then
        { a with arena := a.arena.set idx.index (.occupied g value) }
      else a
  | _ => a

/-! ### Arena operation traces -/

/-- A client operation on one arena: `insert` or `remove` (the public,
generation-checked entry points). -/
inductive ArenaOp (T : Type) where
  | insert (v : T)
  | remove (idx : ArenaIndex)

/-- Apply one operation, keeping only the resulting state. -/
def applyOp (a : Arena T) : ArenaOp T → Arena T
  | .insert v => (a.insert v).1
  | .remove idx => (a.remove idx).1

/-- Run a sequence of operations. -/
def runOps (a : Arena T) : List (ArenaOp T) → Arena T
  | [] => a
  | op :: ops => runOps (applyOp a op) ops

/-- Does `op`, applied in state `a`, successfully remove the slot `idx`? -/
def removesIdx (a : Arena T) (idx : ArenaIndex) : ArenaOp T → Bool
  | .remove j => j = idx && ((a.remove j).2).isSome
  | .insert _ => false

/-- No operation of `ops`, run from `a`, is a successful `remove idx`. -/
def noRemoveSince (idx : ArenaIndex) : Arena T → List (ArenaOp T) → Bool
  | _, [] => true
  | a, op :: ops => !(removesIdx a idx op) && noRemoveSince idx (applyOp a op) ops

/-- Invariant of reachable arena states: every free-list entry points at a
`free` slot in bounds, the free list has no duplicates, and every stamped
generation is at most the arena-wide generation counter. -/
structure Arena.Inv (a : Arena T) : Prop where
  free_valid : ∀ i ∈ a.next_free, a.arena[i]? = some Entry.free
  free_nodup : a.next_free.Nodup
  gen_le : ∀ (i g : Nat) (v : T),
    a.arena[i]? = some (Entry.occupied g v) → g ≤ a.generation

theorem Arena.inv_default (T : Type) : (Arena.default T).Inv := by
  refine ⟨?_, ?_, ?_⟩ <;> simp [Arena.default]

theorem lt_of_getElem?_eq_some {α : Type _} {l : List α} {i : Nat} {v : α}
    (h : l[i]? = some v) : i < l.length := (List.getElem?_eq_some.mp h).1

theorem getElem?_concat_cases {α : Type _} {l : List α} {x : α} {i : Nat} {v : α}
    (h : (l ++ [x])[i]? = some v) : l[i]? = some v ∨ (i = l.length ∧ v = x) := by
  by_cases hi : i < l.length
  · left; rwa [List.getElem?_append_left hi] at h
  · right
    by_cases he : i = l.length
    · subst he; rw [List.getElem?_concat_length] at h
      exact ⟨rfl, (Option.some.inj h).symm⟩
    · exfalso
      have := lt_of_getElem?_eq_some h
      simp only [List.length_append, List.length_cons, List.length_nil] at this
      omega

theorem getElem?_set_cases {α : Type _} {l : List α} {j : Nat} {x : α} {i : Nat} {v : α}
    (h : (l.set j x)[i]? = some v) :
    (i ≠ j ∧ l[i]? = some v) ∨ (i = j ∧ v = x ∧ j < l.length) := by
  by_cases he : i = j
  · subst he
    have hi : i < l.length := by
      have := lt_of_getElem?_eq_some h; simpa using this
    rw [List.getElem?_set_eq hi] at h
    exact Or.inr ⟨rfl, (Option.some.inj h).symm, hi⟩
  · left; rw [List.getElem?_set_ne (by omega)] at h; exact ⟨he, h⟩

/-- `get` succeeds with `v` exactly when the slot is occupied with the
index's generation and holds `v`. -/
theorem Arena.get_eq_some_iff {a : Arena T} {idx : ArenaIndex} {v : T} :
    a.get idx = some v ↔ a.arena[idx.index]? = some (Entry.occupied idx.generation v) := by
  unfold Arena.get Arena.get_by_usize
  cases h : a.arena[idx.index]? with
  | none => simp
  | some e =>
    cases e with
    | free => simp
    | occupied g w =>
      by_cases hg : g = idx.generation
      · subst hg; simp [h]
      · simp [hg, Entry.occupied.injEq]

theorem Arena.Inv.insert_inv {a : Arena T} (hInv : a.Inv) (v : T) :
    (a.insert v).1.Inv := by
  obtain ⟨hfv, hnd, hgen⟩ := hInv
  cases hnf : a.next_free with
  | nil =>
    refine ⟨?_, ?_, ?_⟩ <;> simp only [Arena.insert, hnf]
    · intro i hi; simp at hi
    · simp
    · intro i g w h
      rcases getElem?_concat_cases h with h | ⟨_, he⟩
      · exact hgen i g w h
      · cases he; rfl
  | cons fi rest =>
    have hfi : a.arena[fi]? = some Entry.free := hfv fi (by simp [hnf])
    have hlt : fi < a.arena.length := lt_of_getElem?_eq_some hfi
    refine ⟨?_, ?_, ?_⟩ <;> simp only [Arena.insert, hnf, if_pos hlt]
    · intro i hi
      have hmem : i ∈ a.next_free := by simp [hnf, hi]
      have hne : i ≠ fi := by
        intro he; subst he
        exact (List.nodup_cons.mp (hnf ▸ hnd)).1 hi
      rw [List.getElem?_set_ne (by omega)]
      exact hfv i hmem
    · exact (List.nodup_cons.mp (hnf ▸ hnd)).2
    · intro i g w h
      rcases getElem?_set_cases h with ⟨_, h⟩ | ⟨_, he, _⟩
      · exact hgen i g w h
      · cases he; rfl

theorem Arena.insert_get {a : Arena T} (hInv : a.Inv) (v : T) :
    (a.insert v).1.get (a.insert v).2 = some v := by
  rw [Arena.get_eq_some_iff]
  cases hnf : a.next_free with
  | nil => simp only [Arena.insert, hnf]; exact List.getElem?_concat_length _ _
  | cons fi rest =>
    have hfi : a.arena[fi]? = some Entry.free := hInv.free_valid fi (by simp [hnf])
    have hlt : fi < a.arena.length := lt_of_getElem?_eq_some hfi
    simp only [Arena.insert, hnf, if_pos hlt]
    exact List.getElem?_set_eq hlt

/-- An already-resolving index keeps resolving to the same value across any
later `insert`. -/
theorem Arena.get_insert_of_get {a : Arena T} (hInv : a.Inv) {idx : ArenaIndex} {v : T}
    (h : a.get idx = some v) (w : T) : (a.insert w).1.get idx = some v := by
  rw [Arena.get_eq_some_iff] at h ⊢
  cases hnf : a.next_free with
  | nil =>
    simp only [Arena.insert, hnf]
    rw [List.getElem?_append_left (lt_of_getElem?_eq_some h)]; exact h
  | cons fi rest =>
    have hfi : a.arena[fi]? = some Entry.free := hInv.free_valid fi (by simp [hnf])
    have hlt : fi < a.arena.length := lt_of_getElem?_eq_some hfi
    simp only [Arena.insert, hnf, if_pos hlt]
    have hne : idx.index ≠ fi := by
      intro he; rw [he, hfi] at h; cases h
    rw [List.getElem?_set_ne (by omega)]; exact h

theorem Arena.remove_snd_none_fst {a : Arena T} {idx : ArenaIndex}
    (h : (a.remove idx).2 = none) : (a.remove idx).1 = a := by
  unfold Arena.remove Arena.remove_by_usize at *
  cases he : a.arena[idx.index]? with
  | none => simp [he]
  | some e =>
    cases e with
    | free => simp [he]
    | occupied g w =>
      by_cases hg : g = idx.generation
      · rw [he] at h; simp [hg, he] at h
      · simp [he, hg]

theorem Arena.remove_isSome {a : Arena T} {j : ArenaIndex}
    (h : (a.remove j).2.isSome) :
    ∃ v, a.arena[j.index]? = some (Entry.occupied j.generation v) := by
  unfold Arena.remove Arena.remove_by_usize at h
  cases he : a.arena[j.index]? with
  | none => rw [he] at h; simp at h
  | some e =>
    cases e with
    | free => rw [he] at h; simp at h
    | occupied g w =>
      by_cases hg : g = j.generation
      · subst hg; exact ⟨w, rfl⟩
      · rw [he] at h; simp [hg] at h

theorem Arena.remove_spec {a : Arena T} {idx : ArenaIndex} {v : T}
    (h : a.arena[idx.index]? = some (Entry.occupied idx.generation v)) :
    (a.remove idx).1 = { arena := a.arena.set idx.index Entry.free,
                         next_free := idx.index :: a.next_free,
                         generation := a.generation + 1,
                         count := a.count - 1 } ∧ (a.remove idx).2 = some v := by
  unfold Arena.remove Arena.remove_by_usize
  rw [h]; simp

theorem Arena.Inv.remove_inv {a : Arena T} (hInv : a.Inv) (idx : ArenaIndex) :
    (a.remove idx).1.Inv := by
  obtain ⟨hfv, hnd, hgen⟩ := hInv
  cases hs : (a.remove idx).2 with
  | none => rw [Arena.remove_snd_none_fst hs]; exact ⟨hfv, hnd, hgen⟩
  | some v =>
    obtain ⟨w, hocc⟩ := Arena.remove_isSome (a := a) (j := idx) (by rw [hs]; rfl)
    obtain ⟨hfst, _⟩ := Arena.remove_spec hocc
    rw [hfst]
    have hlt : idx.index < a.arena.length := lt_of_getElem?_eq_some hocc
    have hnotmem : idx.index ∉ a.next_free := by
      intro hm; rw [hfv idx.index hm] at hocc; cases hocc
    refine ⟨?_, ?_, ?_⟩
    · intro i hi
      rcases List.mem_cons.mp hi with he | hm
      · subst he; exact List.getElem?_set_eq hlt
      · have hne : i ≠ idx.index := fun he => hnotmem (he ▸ hm)
        rw [List.getElem?_set_ne (by omega)]
        exact hfv i hm
    · exact List.nodup_cons.mpr ⟨hnotmem, hnd⟩
    · intro i g u h
      rcases getElem?_set_cases h with ⟨_, h⟩ | ⟨_, he, _⟩
      · exact Nat.le_succ_of_le (hgen i g u h)
      · cases he

/-- An already-resolving index keeps resolving to the same value across a
`remove` that is not a successful `remove` of that very index. -/
theorem Arena.get_remove_of_get {a : Arena T} {idx j : ArenaIndex} {v : T}
    (h : a.get idx = some v) (hne : removesIdx a idx (.remove j) = false) :
    (a.remove j).1.get idx = some v := by
  cases hs : (a.remove j).2 with
  | none => rw [Arena.remove_snd_none_fst hs]; exact h
  | some w =>
    have hjne : j ≠ idx := by
      intro he
      subst he
      simp [removesIdx, hs] at hne
    obtain ⟨u, hocc⟩ := Arena.remove_isSome (a := a) (j := j) (by rw [hs]; rfl)
    obtain ⟨hfst, _⟩ := Arena.remove_spec hocc
    rw [Arena.get_eq_some_iff] at h
    have hine : j.index ≠ idx.index := by
      intro he
      rw [he, h] at hocc
      have h2 : idx.generation = j.generation ∧ v = u := by
        simpa using hocc
      apply hjne
      obtain ⟨jg, ji⟩ := j
      obtain ⟨ig, ii⟩ := idx
      simp only at h2 he
      rw [h2.1, he]
    rw [Arena.get_eq_some_iff, hfst]
    show (a.arena.set j.index Entry.free)[idx.index]? = _
    rw [List.getElem?_set_ne hine]
    exact h

/-- A permanently stale index: the arena generation has moved strictly past
it, and its slot (if occupied at all) is stamped with a different
generation.  This is exactly the state of an index after its successful
removal, and it is absorbing. -/
def Dead (idx : ArenaIndex) (a : Arena T) : Prop :=
  idx.generation < a.generation ∧
    ∀ (g : Nat) (v : T),
      a.arena[idx.index]? = some (Entry.occupied g v) → g ≠ idx.generation

theorem Dead.get_eq_none {idx : ArenaIndex} {a : Arena T} (h : Dead idx a) :
    a.get idx = none := by
  unfold Arena.get
  cases he : a.arena[idx.index]? with
  | none => rfl
  | some e =>
    cases e with
    | free => rfl
    | occupied g w => simp [h.2 g w he]

theorem Arena.remove_dead {a : Arena T} (hInv : a.Inv) {idx : ArenaIndex}
    (h : (a.remove idx).2.isSome) : Dead idx (a.remove idx).1 := by
  obtain ⟨v, hocc⟩ := Arena.remove_isSome h
  obtain ⟨hfst, _⟩ := Arena.remove_spec hocc
  rw [hfst]
  constructor
  · exact Nat.lt_succ_of_le (hInv.gen_le _ _ _ hocc)
  · intro g w hg
    rcases getElem?_set_cases hg with ⟨hne, _⟩ | ⟨_, he, _⟩
    · exact absurd rfl hne
    · cases he

theorem Dead.step {idx : ArenaIndex} {a : Arena T} (h : Dead idx a)
    (op : ArenaOp T) : Dead idx (applyOp a op) := by
  obtain ⟨hlt, hslot⟩ := h
  cases op with
  | insert v =>
    unfold applyOp Arena.insert
    cases hnf : a.next_free with
    | nil =>
      refine ⟨hlt, ?_⟩
      intro g w hg
      rcases getElem?_concat_cases hg with hg | ⟨_, he⟩
      · exact hslot g w hg
      · cases he; omega
    | cons fi rest =>
      by_cases hlen : fi < a.arena.length <;> simp only [hlen, if_true, if_false]
      · refine ⟨hlt, ?_⟩
        intro g w hg
        rcases getElem?_set_cases hg with ⟨_, hg⟩ | ⟨_, he, _⟩
        · exact hslot g w hg
        · cases he; omega
      · refine ⟨hlt, ?_⟩
        intro g w hg
        rcases getElem?_concat_cases hg with hg | ⟨_, he⟩
        · exact hslot g w hg
        · cases he; omega
  | remove j =>
    show Dead idx (a.remove j).1
    cases hs : (a.remove j).2 with
    | none => rw [Arena.remove_snd_none_fst hs]; exact ⟨hlt, hslot⟩
    | some w =>
      obtain ⟨u, hocc⟩ := Arena.remove_isSome (a := a) (j := j) (by rw [hs]; rfl)
      obtain ⟨hfst, _⟩ := Arena.remove_spec hocc
      rw [hfst]
      refine ⟨Nat.lt_succ_of_lt hlt, ?_⟩
      intro g v hg
      rcases getElem?_set_cases hg with ⟨_, hg⟩ | ⟨_, he, _⟩
      · exact hslot g v hg
      · cases he

theorem Dead.run {idx : ArenaIndex} :
    ∀ (ops : List (ArenaOp T)) {a : Arena T}, Dead idx a → Dead idx (runOps a ops)
  | [], _, h => h
  | op :: ops, a, h => Dead.run ops (h.step op)

theorem Arena.Inv.applyOp_inv {a : Arena T} (h : a.Inv) (op : ArenaOp T) :
    (applyOp a op).Inv := by
  cases op with
  | insert v => exact h.insert_inv v
  | remove idx => exact h.remove_inv idx

theorem Arena.Inv.runOps_inv :
    ∀ (ops : List (ArenaOp T)) {a : Arena T}, a.Inv → (runOps a ops).Inv
  | [], _, h => h
  | op :: ops, a, h => Arena.Inv.runOps_inv ops (h.applyOp_inv op)

/-- Core trace lemma: starting from a state where `idx` resolves to `v`,
it still resolves to `v` after `ops` exactly when no successful
`remove idx` occurred, and otherwise resolves to nothing. -/
theorem get_runOps_iff {idx : ArenaIndex} {v : T} :
    ∀ (ops : List (ArenaOp T)) (a : Arena T), a.Inv → a.get idx = some v →
      ((runOps a ops).get idx = some v ↔ noRemoveSince idx a ops = true) ∧
      (noRemoveSince idx a ops = false → (runOps a ops).get idx = none)
  | [], a, hInv, h => by
    refine ⟨by simp [runOps, noRemoveSince, h], ?_⟩
    intro hc; simp [noRemoveSince] at hc
  | op :: ops, a, hInv, h => by
    by_cases hrem : removesIdx a idx op = true
    · have hdead : Dead idx (applyOp a op) := by
        cases op with
        | insert w => simp [removesIdx] at hrem
        | remove j =>
          simp only [removesIdx, Bool.and_eq_true, decide_eq_true_eq] at hrem
          obtain ⟨he, hsome⟩ := hrem
          subst he
          exact Arena.remove_dead hInv hsome
      have hnone : (runOps (applyOp a op) ops).get idx = none :=
        (Dead.run ops hdead).get_eq_none
      constructor
      · rw [show runOps a (op :: ops) = runOps (applyOp a op) ops from rfl, hnone]
        simp [noRemoveSince, hrem]
      · intro _
        rw [show runOps a (op :: ops) = runOps (applyOp a op) ops from rfl, hnone]
    · have hrem' : removesIdx a idx op = false := by
        cases hb : removesIdx a idx op
        · rfl
        · exact absurd hb hrem
      have hpres : (applyOp a op).get idx = some v := by
        cases op with
        | insert w => exact Arena.get_insert_of_get hInv h w
        | remove j => exact Arena.get_remove_of_get h hrem'
      have ih := get_runOps_iff ops (applyOp a op) (hInv.applyOp_inv op) hpres
      constructor
      · rw [show runOps a (op :: ops) = runOps (applyOp a op) ops from rfl]
        rw [show noRemoveSince idx a (op :: ops)
              = (!(removesIdx a idx op) && noRemoveSince idx (applyOp a op) ops) from rfl]
        rw [hrem']
        simpa using ih.1
      · intro hc
        rw [show noRemoveSince idx a (op :: ops)
              = (!(removesIdx a idx op) && noRemoveSince idx (applyOp a op) ops) from rfl,
            hrem'] at hc
        simp only [Bool.not_false, Bool.true_and] at hc
        exact ih.2 hc

/-- C1: over any arena reached by a sequence of inserts/removes, an index
`idx` returned by an insert of `v` resolves (to `v`) after any further
sequence of operations exactly when none of them was a successful
`remove idx`; otherwise it resolves to nothing, forever. -/
theorem arena_get_iff_no_remove_since {T : Type} (pre ops : List (ArenaOp T)) (v : T)
    (a1 : Arena T) (idx : ArenaIndex)
    (h : (runOps (Arena.default T) pre).insert v = (a1, idx)) :
    ((runOps a1 ops).get idx = some v ↔ noRemoveSince idx a1 ops = true) ∧
    (noRemoveSince idx a1 ops = false → (runOps a1 ops).get idx = none) := by
  have hInv : (runOps (Arena.default T) pre).Inv :=
    Arena.Inv.runOps_inv pre (Arena.inv_default T)
  have hInv1 : a1.Inv := by
    have := hInv.insert_inv v
    rwa [h] at this
  have hget : a1.get idx = some v := by
    have := Arena.insert_get hInv v
    rwa [h] at this
  exact get_runOps_iff ops a1 hInv1 hget

/-- Witness for C1 at a concrete trace: insert `0` into the fresh arena
and then remove it; afterwards `get` yields nothing. -/
theorem arena_get_iff_no_remove_since_witness :
    (runOps ((Arena.default Nat).insert 0).1 [ArenaOp.remove ⟨0, 0⟩]).get ⟨0, 0⟩ = none :=
  (arena_get_iff_no_remove_since [] [ArenaOp.remove ⟨0, 0⟩] 0
    ((Arena.default Nat).insert 0).1 ⟨0, 0⟩ (by decide)).2 (by decide)

/-! ### Distinctness of issued indices (C9) -/

theorem Arena.insert_gen (a : Arena T) (v : T) :
    ((a.insert v).2).generation = a.generation ∧
      (a.insert v).1.generation = a.generation := by
  unfold Arena.insert
  cases a.next_free with
  | nil => exact ⟨rfl, rfl⟩
  | cons fi rest =>
    by_cases hlt : fi < a.arena.length <;> simp [hlt]

theorem Arena.gen_mono_applyOp (a : Arena T) (op : ArenaOp T) :
    a.generation ≤ (applyOp a op).generation := by
  cases op with
  | insert v =>
    show a.generation ≤ (a.insert v).1.generation
    rw [(Arena.insert_gen a v).2]
  | remove j =>
    show a.generation ≤ (a.remove j).1.generation
    cases hs : (a.remove j).2 with
    | none => rw [Arena.remove_snd_none_fst hs]
    | some w =>
      obtain ⟨u, hocc⟩ := Arena.remove_isSome (a := a) (j := j) (by rw [hs]; rfl)
      rw [(Arena.remove_spec hocc).1]
      exact Nat.le_succ _

theorem Arena.gen_mono_runOps :
    ∀ (ops : List (ArenaOp T)) (a : Arena T), a.generation ≤ (runOps a ops).generation
  | [], _ => le_refl _
  | op :: ops, a =>
    le_trans (Arena.gen_mono_applyOp a op) (Arena.gen_mono_runOps ops (applyOp a op))

/-- If a run of operations leaves the generation counter unchanged, any
resolving index still resolves to the same value afterwards (no successful
remove can have occurred, since every successful remove strictly increments
the generation). -/
theorem Arena.get_runOps_of_gen_eq :
    ∀ (ops : List (ArenaOp T)) (a : Arena T), a.Inv →
      ∀ {idx : ArenaIndex} {v : T}, a.get idx = some v →
      (runOps a ops).generation = a.generation → (runOps a ops).get idx = some v
  | [], a, _, _, _, h, _ => h
  | op :: ops, a, hInv, idx, v, h, hg => by
    have hstep : a.generation ≤ (applyOp a op).generation := Arena.gen_mono_applyOp a op
    have hrest : (applyOp a op).generation ≤ (runOps (applyOp a op) ops).generation :=
      Arena.gen_mono_runOps ops (applyOp a op)
    have hgeq : (applyOp a op).generation = a.generation := by
      have : runOps a (op :: ops) = runOps (applyOp a op) ops := rfl
      rw [this] at hg
      omega
    have hpres : (applyOp a op).get idx = some v := by
      cases op with
      | insert w => exact Arena.get_insert_of_get hInv h w
      | remove j =>
        apply Arena.get_remove_of_get h
        cases hs : (a.remove j).2 with
        | none => simp [removesIdx, hs]
        | some w =>
          exfalso
          obtain ⟨u, hocc⟩ := Arena.remove_isSome (a := a) (j := j) (by rw [hs]; rfl)
          have hgx : (applyOp a (ArenaOp.remove j)).generation = a.generation + 1 := by
            show (a.remove j).1.generation = _
            rw [(Arena.remove_spec hocc).1]
          rw [hgx] at hgeq
          omega
    have hg' : (runOps (applyOp a op) ops).generation = (applyOp a op).generation := by
      have : runOps a (op :: ops) = runOps (applyOp a op) ops := rfl
      rw [this] at hg
      omega
    exact Arena.get_runOps_of_gen_eq ops (applyOp a op) (hInv.applyOp_inv op) hpres hg'

/-- Inserting into an arena never hands out the index of a currently
occupied slot. -/
theorem Arena.insert_index_ne_occupied {a : Arena T} (hInv : a.Inv) {j g : Nat} {v : T}
    (h : a.arena[j]? = some (Entry.occupied g v)) (w : T) :
    ((a.insert w).2).index ≠ j := by
  have hjlt : j < a.arena.length := lt_of_getElem?_eq_some h
  cases hnf : a.next_free with
  | nil =>
    simp only [Arena.insert, hnf]
    omega
  | cons fi rest =>
    have hfi : a.arena[fi]? = some Entry.free := hInv.free_valid fi (by simp [hnf])
    have hlt : fi < a.arena.length := lt_of_getElem?_eq_some hfi
    simp only [Arena.insert, hnf, if_pos hlt]
    intro he
    rw [he, h] at hfi
    cases hfi

/-- C9: two distinct inserts (the second possibly after further arbitrary
operations) never return the same `ArenaIndex`. -/
theorem arena_insert_indices_distinct {T : Type} (pre mid : List (ArenaOp T)) (v w : T)
    (a1 : Arena T) (idx1 : ArenaIndex)
    (h1 : (runOps (Arena.default T) pre).insert v = (a1, idx1)) :
    decide (idx1 = ((runOps a1 mid).insert w).2) = false := by
  set a0 := runOps (Arena.default T) pre with ha0
  have hInv0 : a0.Inv := Arena.Inv.runOps_inv pre (Arena.inv_default T)
  have hInv1 : a1.Inv := by
    have := hInv0.insert_inv v
    rwa [h1] at this
  set a2 := runOps a1 mid with ha2
  have hInv2 : a2.Inv := Arena.Inv.runOps_inv mid hInv1
  have hgen1 : idx1.generation = a1.generation := by
    have h := Arena.insert_gen a0 v
    rw [h1] at h
    rw [h.1, h.2]
  have hgen2 : ((a2.insert w).2).generation = a2.generation := (Arena.insert_gen a2 w).1
  apply decide_eq_false
  by_cases hg : a2.generation = a1.generation
  · -- no generation movement: idx1 still resolves, so the new insert
    -- cannot land on its slot
    have hget1 : a1.get idx1 = some v := by
      have := Arena.insert_get hInv0 v
      rwa [h1] at this
    have hget2 : a2.get idx1 = some v :=
      Arena.get_runOps_of_gen_eq mid a1 hInv1 hget1 hg
    have hocc := Arena.get_eq_some_iff.mp hget2
    have hne := Arena.insert_index_ne_occupied hInv2 hocc w
    intro he
    rw [← he] at hne
    exact hne rfl
  · intro he
    rw [← he] at hgen2
    rw [hgen1] at hgen2
    exact hg hgen2.symm

/-- Witness for C9: the first two inserts into a fresh arena get slots 0
and 1 (same generation, different slot). -/
theorem arena_insert_indices_distinct_witness :
    decide ((⟨0, 0⟩ : ArenaIndex) = ((runOps ((Arena.default Nat).insert 0).1 []).insert 1).2)
      = false :=
  arena_insert_indices_distinct [] [] 0 1 ((Arena.default Nat).insert 0).1 ⟨0, 0⟩ (by decide)

/-! ## Tokens and spans (src/lex/token.rs, src/reporting.rs) -/

inductive TokenKind where
  | symbol
  | indent
  | newline
deriving DecidableEq, Repr

/-- `Span { start, end }`, a half-open byte range.  The Rust field `end`
is a reserved word in Lean and is called `stop` here. -/
structure Span where
  start : Nat
  stop : Nat
deriving DecidableEq, Repr

structure Token where
  kind : TokenKind
  span : Span
deriving DecidableEq, Repr

/-- `Token::lexeme`: slice the source at the token's span. -/
def Token.lexeme (t : Token) (source : List Char) : Option (List Char) :=
  sliceBytes source t.span.start t.span.stop

/-! ## Data model (src/data.rs) -/

structure NodeIndex where
  index : ArenaIndex
deriving DecidableEq, Repr

structure SourceIndex where
  index : ArenaIndex
deriving DecidableEq, Repr

/-- `Node`: `Some` (a leaf), `Parent`, or the `Error` sentinel. -/
inductive Node where
  | some (tokens : List Token)
  | parent (tokens : List Token) (children : List NodeIndex)
  | error
deriving DecidableEq, Repr

structure Data where
  nodes : Arena Node
  sources : Arena (List Char)
  root_nodes : List (SourceIndex × NodeIndex)
  error_node : NodeIndex
deriving Repr

/-- `Data::default()`: one arena with the single `Error` node inserted. -/
def Data.default : Data :=
  let r := (Arena.default Node).insert Node.error
  { nodes := r.1
    sources := Arena.default (List Char)
    root_nodes := []
    error_node := ⟨r.2⟩ }

/-- `Data::push_root_node`. -/
def Data.push_root_node (d : Data) (source_index : SourceIndex)
    (node_index : NodeIndex) : Data :=
  { d with root_nodes := d.root_nodes ++ [(source_index, node_index)] }

/-- `Data::insert_node`. -/
def Data.insert_node (d : Data) (node : Node) : Data × NodeIndex :=
  let r := d.nodes.insert node
  ({ d with nodes := r.1 }, ⟨r.2⟩)

/-- `Data::get_node`. -/
def Data.get_node (d : Data) (index : NodeIndex) : Option Node :=
  d.nodes.get index.index

/-- `Data::push_child`.  The Rust leaf case replaces the node by
`Parent { tokens: vec![], children: vec![child] }` via `mem::replace`,
then re-borrows the node and appends the saved token list onto the (empty)
parent token list; both steps are modelled. -/
def Data.push_child (d : Data) (node_index child_index : NodeIndex) : Data :=
  match d.get_node node_index with
  | Option.none => d
  | Option.some Node.error => d
  | Option.some (Node.some tokens) =>
      let d1 := { d with
        nodes := d.nodes.update node_index.index (Node.parent [] [child_index]) }
      match d1.get_node node_index with
      | Option.some (Node.parent parent_tokens children) =>
          { d1 with nodes := (d1.nodes.update node_index.index
              (Node.parent (parent_tokens ++ tokens) children)) }
      | _ => d1   -- unreachable!() in the Rust source
  | Option.some (Node.parent tokens children) =>
      { d with nodes := (d.nodes.update node_index.index
          (Node.parent tokens (children ++ [child_index]))) }

/-- `Data::get_children`. -/
def Data.get_children (d : Data) (node_index : NodeIndex) : Option (List NodeIndex) :=
  match d.get_node node_index with
  | Option.some (Node.parent _ children) => Option.some children
  | _ => Option.none

/-- `Data::push_token`. -/
def Data.push_token (d : Data) (node_index : NodeIndex) (token : Token) : Data :=
  match d.get_node node_index with
  | Option.some (Node.some tokens) =>
      { d with nodes := (d.nodes.update node_index.index
          (Node.some (tokens ++ [token]))) }
  | Option.some (Node.parent tokens children) =>
      { d with nodes := (d.nodes.update node_index.index
          (Node.parent (tokens ++ [token]) children)) }
  | _ => d

/-- `Data::get_tokens`. -/
def Data.get_tokens (d : Data) (node_index : NodeIndex) : Option (List Token) :=
  match d.get_node node_index with
  | Option.some (Node.some tokens) => Option.some tokens
  | Option.some (Node.parent tokens _) => Option.some tokens
  | _ => Option.none

/-- `Data::insert_source`. -/
def Data.insert_source (d : Data) (source : List Char) : Data × SourceIndex :=
  let r := d.sources.insert source
  ({ d with sources := r.1 }, ⟨r.2⟩)

/-- `Data::get_source`. -/
def Data.get_source (d : Data) (index : SourceIndex) : Option (List Char) :=
  d.sources.get index.index

/-- `Data::push_source`: append displayed text to a source, returning the
byte range `[old_len, new_len)` just written.  (`T: Display` is modelled
by taking the displayed text itself as input.) -/
def Data.push_source (d : Data) (index : SourceIndex) (append : List Char) :
    Option (Nat × Nat) × Data :=
  match d.get_source index with
  | Option.some source =>
      (Option.some (utf8Len source, utf8Len (source ++ append)),
       { d with sources := d.sources.update index.index (source ++ append) })
  | Option.none => (Option.none, d)

/-- `Data::get_lexeme`. -/
def Data.get_lexeme (d : Data) (source_index : SourceIndex) (token : Token) :
    Option (List Char) :=
  (d.get_source source_index).bind (fun s => token.lexeme s)

/-! ### push_child (C3) -/

theorem Arena.get_update_of_get {a : Arena T} {idx : ArenaIndex} {w : T}
    (h : a.get idx = some w) (v : T) : (a.update idx v).get idx = some v := by
  rw [Arena.get_eq_some_iff] at h
  have hlt := lt_of_getElem?_eq_some h
  rw [Arena.get_eq_some_iff]
  unfold Arena.update
  rw [h]
  simp only [if_pos rfl]
  show (a.arena.set idx.index (Entry.occupied idx.generation v))[idx.index]? = _
  rw [List.getElem?_set_self]
  simp [hlt]

/-- C3: `push_child` on a Leaf promotes it in place to a Parent carrying the
same token list and exactly `[c]` as children, with the same index still
resolving; it is a no-op on an unresolvable index or the Error node; and it
appends to an existing Parent's children. -/
theorem data_push_child_spec (d : Data) (n c : NodeIndex) :
    (∀ tks, d.get_node n = Option.some (Node.some tks) →
        (d.push_child n c).get_node n = Option.some (Node.parent tks [c])) ∧
    (d.get_node n = Option.none → d.push_child n c = d) ∧
    (d.get_node n = Option.some Node.error → d.push_child n c = d) ∧
    (∀ tks ch, d.get_node n = Option.some (Node.parent tks ch) →
        (d.push_child n c).get_node n = Option.some (Node.parent tks (ch ++ [c]))) := by
  refine ⟨?_, ?_, ?_, ?_⟩
  · intro tks h
    have h' : d.nodes.get n.index = Option.some (Node.some tks) := h
    have h1 : (d.nodes.update n.index (Node.parent [] [c])).get n.index
        = Option.some (Node.parent [] [c]) := Arena.get_update_of_get h' _
    have h2 : ((d.nodes.update n.index (Node.parent [] [c])).update n.index
          (Node.parent ([] ++ tks) [c])).get n.index
        = Option.some (Node.parent ([] ++ tks) [c]) := Arena.get_update_of_get h1 _
    show (d.push_child n c).nodes.get n.index = _
    unfold Data.push_child
    rw [h]
    simp only [Data.get_node, h1]
    simpa using h2
  · intro h
    unfold Data.push_child
    rw [h]
  · intro h
    unfold Data.push_child
    rw [h]
  · intro tks ch h
    have h' : d.nodes.get n.index = Option.some (Node.parent tks ch) := h
    show (d.push_child n c).nodes.get n.index = _
    unfold Data.push_child
    rw [h]
    exact Arena.get_update_of_get h' _

/-- Witness for C3: pushing a child onto a freshly inserted leaf with one
token yields a parent with the same token and that single child. -/
theorem data_push_child_spec_witness :
    (let d0 := Data.default.insert_node (Node.some [⟨TokenKind.symbol, ⟨0, 1⟩⟩])
     (d0.1.push_child d0.2 d0.2).get_node d0.2
       = Option.some (Node.parent [⟨TokenKind.symbol, ⟨0, 1⟩⟩] [d0.2])) :=
  (data_push_child_spec
      (Data.default.insert_node (Node.some [⟨TokenKind.symbol, ⟨0, 1⟩⟩])).1
      (Data.default.insert_node (Node.some [⟨TokenKind.symbol, ⟨0, 1⟩⟩])).2
      (Data.default.insert_node (Node.some [⟨TokenKind.symbol, ⟨0, 1⟩⟩])).2).1
    [⟨TokenKind.symbol, ⟨0, 1⟩⟩] (by decide)

/-! ### Byte-slice stability under append (C8) -/

theorem takeBytes_mono_append (t : List Char) :
    ∀ (s : List Char) (n : Nat) (r : List Char), takeBytes s n = some r →
      takeBytes (s ++ t) n = some r := by
  intro s
  induction s with
  | nil =>
    intro n r h
    cases n with
    | zero => rw [takeBytes_zero] at h ⊢; exact h
    | succ m => rw [takeBytes_nil_succ] at h; cases h
  | cons c s ih =>
    intro n r h
    cases n with
    | zero => rw [takeBytes_zero] at h ⊢; exact h
    | succ m =>
      rw [takeBytes_cons_succ] at h
      rw [List.cons_append, takeBytes_cons_succ]
      by_cases hle : lenUtf8 c ≤ m + 1
      · rw [if_pos hle] at h ⊢
        cases hx : takeBytes s (m + 1 - lenUtf8 c) with
        | none => rw [hx] at h; cases h
        | some r0 =>
          rw [hx] at h
          rw [ih _ _ hx]
          exact h
      · rw [if_neg hle] at h; cases h

theorem dropBytes_mono_append (t : List Char) :
    ∀ (s : List Char) (n : Nat) (r : List Char), dropBytes s n = some r →
      dropBytes (s ++ t) n = some (r ++ t) := by
  intro s
  induction s with
  | nil =>
    intro n r h
    cases n with
    | zero =>
      rw [dropBytes_zero] at h
      cases h
      rw [List.nil_append, dropBytes_zero]
    | succ m => rw [dropBytes_nil_succ] at h; cases h
  | cons c s ih =>
    intro n r h
    cases n with
    | zero =>
      rw [dropBytes_zero] at h
      cases h
      rw [dropBytes_zero]
    | succ m =>
      rw [dropBytes_cons_succ] at h
      rw [List.cons_append, dropBytes_cons_succ]
      by_cases hle : lenUtf8 c ≤ m + 1
      · rw [if_pos hle] at h ⊢
        exact ih _ _ h
      · rw [if_neg hle] at h; cases h

theorem sliceBytes_mono_append {s : List Char} {a b : Nat} {r : List Char}
    (h : sliceBytes s a b = some r) (t : List Char) :
    sliceBytes (s ++ t) a b = some r := by
  unfold sliceBytes at h ⊢
  by_cases hab : a ≤ b
  · rw [if_pos hab] at h ⊢
    cases hd : dropBytes s a with
    | none => rw [hd] at h; cases h
    | some u =>
      rw [hd] at h
      rw [dropBytes_mono_append t s a u hd]
      simp only [Option.some_bind] at h ⊢
      exact takeBytes_mono_append t u (b - a) r h
  · rw [if_neg hab] at h; cases h

theorem takeBytes_append_self (s t : List Char) :
    takeBytes (s ++ t) (utf8Len s) = some s := by
  induction s with
  | nil => rw [List.nil_append, utf8Len_nil, takeBytes_zero]
  | cons c s ih =>
    have hpos := lenUtf8_pos c
    have h1 : utf8Len (c :: s) = (lenUtf8 c + utf8Len s - 1) + 1 := by
      rw [utf8Len_cons]; omega
    rw [h1, List.cons_append, takeBytes_cons_succ, if_pos (by omega)]
    have h2 : lenUtf8 c + utf8Len s - 1 + 1 - lenUtf8 c = utf8Len s := by omega
    rw [h2, ih]
    rfl

theorem dropBytes_append_self (s t : List Char) :
    dropBytes (s ++ t) (utf8Len s) = some t := by
  induction s with
  | nil => rw [List.nil_append, utf8Len_nil, dropBytes_zero]
  | cons c s ih =>
    have hpos := lenUtf8_pos c
    have h1 : utf8Len (c :: s) = (lenUtf8 c + utf8Len s - 1) + 1 := by
      rw [utf8Len_cons]; omega
    rw [h1, List.cons_append, dropBytes_cons_succ, if_pos (by omega)]
    have h2 : lenUtf8 c + utf8Len s - 1 + 1 - lenUtf8 c = utf8Len s := by omega
    rw [h2, ih]

theorem takeBytes_self (s : List Char) : takeBytes s (utf8Len s) = some s := by
  have := takeBytes_append_self s []
  rwa [List.append_nil] at this

theorem sliceBytes_append_range (s t : List Char) :
    sliceBytes (s ++ t) (utf8Len s) (utf8Len s + utf8Len t) = some t := by
  unfold sliceBytes
  rw [if_pos (Nat.le_add_right _ _), dropBytes_append_self]
  simp only [Option.some_bind, Nat.add_sub_cancel_left]
  exact takeBytes_self t

/-- C8: `push_source` on a resolvable source of byte length `L` returns the
range `[L, L + len t)`, afterwards the source is the old text with `t`
appended (so its first `L` bytes are unchanged and every previously valid
lexeme still resolves identically), and the appended range holds exactly
`t`; on an unresolvable index it returns nothing and changes nothing. -/
theorem data_push_source_spec (d : Data) (i : SourceIndex) (t : List Char) :
    (∀ s, d.get_source i = Option.some s →
        (d.push_source i t).1 = Option.some (utf8Len s, utf8Len s + utf8Len t) ∧
        (d.push_source i t).2.get_source i = Option.some (s ++ t) ∧
        takeBytes (s ++ t) (utf8Len s) = Option.some s ∧
        (∀ tok lex, d.get_lexeme i tok = Option.some lex →
            ((d.push_source i t).2).get_lexeme i tok = Option.some lex) ∧
        sliceBytes (s ++ t) (utf8Len s) (utf8Len s + utf8Len t) = Option.some t) ∧
    (d.get_source i = Option.none →
        (d.push_source i t).1 = Option.none ∧ (d.push_source i t).2 = d) := by
  constructor
  · intro s h
    have h' : d.sources.get i.index = Option.some s := h
    have hupd : (d.sources.update i.index (s ++ t)).get i.index
        = Option.some (s ++ t) := Arena.get_update_of_get h' _
    have hfst : (d.push_source i t).1
        = Option.some (utf8Len s, utf8Len (s ++ t)) := by
      unfold Data.push_source
      rw [h]
    have hsnd : (d.push_source i t).2
        = { d with sources := d.sources.update i.index (s ++ t) } := by
      unfold Data.push_source
      rw [h]
    refine ⟨?_, ?_, takeBytes_append_self s t, ?_, sliceBytes_append_range s t⟩
    · rw [hfst, utf8Len_append]
    · rw [hsnd]; exact hupd
    · intro tok lex hl
      unfold Data.get_lexeme at hl ⊢
      rw [h] at hl
      simp only [Option.some_bind] at hl
      rw [hsnd]
      show ((d.sources.update i.index (s ++ t)).get i.index).bind _ = _
      rw [hupd]
      simp only [Option.some_bind]
      exact sliceBytes_mono_append hl t
  · intro h
    unfold Data.push_source
    rw [h]
    exact ⟨rfl, rfl⟩

/-- Witness for C8: appending `"b"` to a source holding `"a"` reports the
byte range `[1, 2)`. -/
theorem data_push_source_spec_witness :
    (((Data.default.insert_source ['a']).1).push_source
        ((Data.default.insert_source ['a']).2) ['b']).1
      = Option.some (utf8Len ['a'], utf8Len ['a'] + utf8Len ['b']) :=
  ((data_push_source_spec ((Data.default.insert_source ['a']).1)
      ((Data.default.insert_source ['a']).2) ['b']).1 ['a'] (by decide)).1

/-! ## Diagnostic location (src/reporting.rs, Reportable::report) -/

/-- `line_number` as computed by `Reportable::report`: the number of
newlines among characters starting strictly before byte `start`, plus 1. -/
def lineNumberOf (source : List Char) (start : Nat) : Nat :=
  (((charIndices source).takeWhile (fun p => decide (p.1 < start))).filter
    (fun p => p.2 == '\n')).length + 1

/-- `line_start` as computed by `Reportable::report`: over
`source[..start]` reversed, take characters while they are not a newline;
the last one's byte index, defaulting to `start`.  (`&source[..start]`
panics in Rust when `start` is not a character boundary; that case is
mapped to the `start` default here and excluded by the theorems'
hypotheses.) -/
def lineStartOf (source : List Char) (start : Nat) : Nat :=
  match takeBytes source start with
  | Option.some pre =>
      match (((charIndices pre).reverse).takeWhile (fun p => p.2 != '\n')).getLast? with
      | Option.some p => p.1
      | Option.none => start
  | Option.none => start

/-- `column` as computed by `Reportable::report`: over
`source[line_start..]`, the byte index of the last character starting
before `start`, plus one; defaulting to 1. -/
def columnOf (source : List Char) (start : Nat) : Nat :=
  match dropBytes source (lineStartOf source start) with
  | Option.some post =>
      match ((charIndices post).takeWhile
          (fun p => decide (lineStartOf source start + p.1 < start))).getLast? with
      | Option.some p => p.1 + 1
      | Option.none => 1
  | Option.none => 1

/-- Modelled from the spec's words ("one plus the number of newline
characters strictly before the span's start byte"), for comparison with
the code's `lineNumberOf`. -/
def specLineNumberOf (source : List Char) (start : Nat) : Nat :=
  ((charIndices source).filter
    (fun p => decide (p.1 < start) && (p.2 == '\n'))).length + 1

/-- Modelled from the spec's words ("the count of characters from the
start of that line up to (not including) the span's start, reported as 1
when that count is zero"), for comparison with the code's `columnOf`. -/
def specColumnOf (source : List Char) (start : Nat) : Nat :=
  match dropBytes source (lineStartOf source start) with
  | Option.some post =>
      let n := ((charIndices post).takeWhile
          (fun p => decide (lineStartOf source start + p.1 < start))).length
      if n = 0 then 1 else n
  | Option.none => 1

theorem charIndicesFrom_ge :
    ∀ (b : Nat) (l : List Char) (p : Nat × Char), p ∈ charIndicesFrom b l → b ≤ p.1 := by
  intro b l
  induction l generalizing b with
  | nil => intro p hp; cases hp
  | cons c l ih =>
    intro p hp
    rcases List.mem_cons.mp hp with he | hm
    · subst he; exact le_refl _
    · have := ih (b + lenUtf8 c) p hm
      omega

theorem charIndicesFrom_takeWhile_lt_eq_filter (start : Nat) :
    ∀ (b : Nat) (l : List Char),
      (charIndicesFrom b l).takeWhile (fun p => decide (p.1 < start))
        = (charIndicesFrom b l).filter (fun p => decide (p.1 < start)) := by
  intro b l
  induction l generalizing b with
  | nil => rfl
  | cons c l ih =>
    show ((b, c) :: charIndicesFrom (b + lenUtf8 c) l).takeWhile _
        = ((b, c) :: charIndicesFrom (b + lenUtf8 c) l).filter _
    rw [List.takeWhile_cons, List.filter_cons]
    by_cases hb : b < start
    · rw [if_pos (by simp [hb]), if_pos (by simp [hb]), ih]
    · have hnone : ∀ p ∈ charIndicesFrom (b + lenUtf8 c) l,
          ¬ (fun p : Nat × Char => decide (p.1 < start)) p = true := by
        intro p hp
        have := charIndicesFrom_ge (b + lenUtf8 c) l p hp
        simp only [decide_eq_true_eq]
        omega
      rw [if_neg (by simp [hb]), if_neg (by simp [hb])]
      exact (List.filter_eq_nil_iff.mpr hnone).symm

/-- The `take_while` prefix of a `char_indices` list is itself the
`char_indices` list of the characters it contains. -/
theorem takeWhile_charIndicesFrom_map (cond : Nat × Char → Bool) :
    ∀ (b : Nat) (l : List Char),
      (charIndicesFrom b l).takeWhile cond
        = charIndicesFrom b (((charIndicesFrom b l).takeWhile cond).map
            (fun p => p.2)) := by
  intro b l
  induction l generalizing b with
  | nil => rfl
  | cons c l ih =>
    rw [charIndicesFrom_cons, List.takeWhile_cons]
    by_cases hc : cond (b, c)
    · rw [if_pos hc, List.map_cons, charIndicesFrom_cons, ← ih]
    · rw [if_neg hc]
      rfl

theorem charIndicesFrom_append (l1 l2 : List Char) :
    ∀ b, charIndicesFrom b (l1 ++ l2)
      = charIndicesFrom b l1 ++ charIndicesFrom (b + utf8Len l1) l2 := by
  induction l1 with
  | nil => intro b; simp [charIndicesFrom, utf8Len]
  | cons c l1 ih =>
    intro b
    show (b, c) :: charIndicesFrom (b + lenUtf8 c) (l1 ++ l2) = _
    rw [ih]
    show _ = (b, c) :: (charIndicesFrom (b + lenUtf8 c) l1
      ++ charIndicesFrom (b + utf8Len (c :: l1)) l2)
    rw [utf8Len_cons]
    have : b + lenUtf8 c + utf8Len l1 = b + (lenUtf8 c + utf8Len l1) := by omega
    rw [this]

theorem charIndicesFrom_concat_getLast (b : Nat) (l : List Char) (c : Char) :
    (charIndicesFrom b (l ++ [c])).getLast? = some (b + utf8Len l, c) := by
  rw [charIndicesFrom_append]
  show (charIndicesFrom b l ++ [(b + utf8Len l, c)]).getLast? = _
  rw [List.getLast?_concat]

theorem charIndicesFrom_length :
    ∀ (b : Nat) (l : List Char), (charIndicesFrom b l).length = l.length := by
  intro b l
  induction l generalizing b with
  | nil => rfl
  | cons c l ih =>
    show (charIndicesFrom (b + lenUtf8 c) l).length + 1 = l.length + 1
    rw [ih]

theorem columnOf_eq {source : List Char} {start : Nat} {post : List Char}
    (hpost : dropBytes source (lineStartOf source start) = Option.some post) :
    columnOf source start
      = (match ((charIndices post).takeWhile
            (fun p => decide (lineStartOf source start + p.1 < start))).getLast? with
        | Option.some p => p.1 + 1
        | Option.none => 1) := by
  unfold columnOf
  rw [hpost]

theorem specColumnOf_eq {source : List Char} {start : Nat} {post : List Char}
    (hpost : dropBytes source (lineStartOf source start) = Option.some post) :
    specColumnOf source start
      = (if ((charIndices post).takeWhile
            (fun p => decide (lineStartOf source start + p.1 < start))).length = 0
        then 1
        else ((charIndices post).takeWhile
            (fun p => decide (lineStartOf source start + p.1 < start))).length) := by
  unfold specColumnOf
  rw [hpost]

/-- C6 (amended): the line number is one plus the number of newlines
strictly before the span start, exactly as claimed; the column is one plus
the byte offset, within the line, at which the last character beginning
strictly before the span start begins (1 when there is none) — and it
agrees with the claimed character count whenever every character of the
line before that last one is ASCII. -/
theorem reporting_line_column_spec (source : List Char) (start : Nat) :
    lineNumberOf source start = specLineNumberOf source start ∧
    (∀ post, dropBytes source (lineStartOf source start) = Option.some post →
      (((charIndices post).takeWhile
            (fun p => decide (lineStartOf source start + p.1 < start))).map
          (fun p => p.2) = [] →
        columnOf source start = 1 ∧ specColumnOf source start = 1) ∧
      (∀ P0 c, ((charIndices post).takeWhile
            (fun p => decide (lineStartOf source start + p.1 < start))).map
          (fun p => p.2) = P0 ++ [c] →
        columnOf source start = utf8Len P0 + 1 ∧
        ((∀ d ∈ P0, lenUtf8 d = 1) →
          columnOf source start = specColumnOf source start))) := by
  constructor
  · unfold lineNumberOf specLineNumberOf
    rw [show charIndices source = charIndicesFrom 0 source from rfl]
    rw [charIndicesFrom_takeWhile_lt_eq_filter]
    rw [List.filter_filter]
    have hsame : ∀ (l : List (Nat × Char)),
        l.filter (fun a => (a.2 == '\n') && decide (a.1 < start))
          = l.filter (fun p => decide (p.1 < start) && (p.2 == '\n')) := by
      intro l
      apply List.filter_congr
      intro a ha
      rw [Bool.and_comm]
    rw [hsame]
  · intro post hpost
    have hL : (charIndices post).takeWhile
          (fun p => decide (lineStartOf source start + p.1 < start))
        = charIndicesFrom 0 (((charIndices post).takeWhile
            (fun p => decide (lineStartOf source start + p.1 < start))).map
          (fun p => p.2)) :=
      takeWhile_charIndicesFrom_map _ 0 post
    constructor
    · intro hP
      rw [hP] at hL
      constructor
      · rw [columnOf_eq hpost, hL]
        rfl
      · rw [specColumnOf_eq hpost, hL]
        rfl
    · intro P0 c hP
      rw [hP] at hL
      have hcol : columnOf source start = utf8Len P0 + 1 := by
        rw [columnOf_eq hpost, hL, charIndicesFrom_concat_getLast]
        simp
      refine ⟨hcol, ?_⟩
      intro hascii
      have hlen : utf8Len P0 = P0.length := by
        clear hcol hL hP
        induction P0 with
        | nil => rfl
        | cons d P0 ih =>
          rw [utf8Len_cons, hascii d (List.mem_cons_self d P0),
            List.length_cons, ih (fun e he => hascii e (List.mem_cons_of_mem d he))]
          omega
      have hspec : specColumnOf source start = P0.length + 1 := by
        rw [specColumnOf_eq hpost]
        simp [hL, charIndicesFrom_length]
      rw [hcol, hspec, hlen]

/-- C6 counterexample: in the source `"éxy"` with the span starting at the
byte of `y` (byte 3, a valid boundary), the code computes column 3 (byte
offset of `x` plus one) while the claimed character count gives column 2. -/
theorem reporting_column_counterexample :
    takeBytes ['é', 'x', 'y'] 3 = Option.some ['é', 'x'] ∧
    lineNumberOf ['é', 'x', 'y'] 3 = 1 ∧
    columnOf ['é', 'x', 'y'] 3 = 3 ∧
    specColumnOf ['é', 'x', 'y'] 3 = 2 ∧
    decide (columnOf ['é', 'x', 'y'] 3 = specColumnOf ['é', 'x', 'y'] 3) = false := by
  decide

/-- Witness for the amended C6 theorem at a concrete ASCII input. -/
theorem reporting_line_column_spec_witness :
    columnOf ['a', 'x', 'y'] 2 = utf8Len ['a'] + 1 :=
  ((((reporting_line_column_spec ['a', 'x', 'y'] 2).2 ['a', 'x', 'y']
      (by decide)).2) ['a'] 'x' (by decide)).1

/-! ## Lexer (src/lex.rs) -/

inductive LexErrorKind where
  | mixedIndentation
  | unclosedString
  | nonAsciiCharacter
deriving DecidableEq, Repr

structure LexError where
  kind : LexErrorKind
  span : Span
deriving DecidableEq, Repr

/-- `LexItem = Result<Token, LexError>`. -/
inductive LexItem where
  | ok (token : Token)
  | err (e : LexError)
deriving DecidableEq, Repr

inductive IndentKind where
  | space
  | tab
  | unknown
  | mixed
deriving DecidableEq, Repr

/-- Lexer state.  The Rust lexer re-slices the source at `byte_offset` on
every loop iteration; since the source text never changes while lexing, we
carry the remaining suffix `rest` directly alongside `byte_offset`. -/
structure Lexer where
  source_index : SourceIndex
  lookahead : Option LexItem
  on_new_line : Bool
  byte_offset : Nat
  rest : List Char
  spaces : IndentKind
deriving DecidableEq, Repr

/-- `Lexer::new` (paired with the text of its source). -/
def Lexer.init (source_index : SourceIndex) (source : List Char) : Lexer :=
  { source_index := source_index, lookahead := none, on_new_line := true,
    byte_offset := 0, rest := source, spaces := IndentKind.unknown }

/-- Rust `char::is_ascii_whitespace`. -/
def isAsciiWhitespace (c : Char) : Bool :=
  c == ' ' || c == '\t' || c == '\n' || c == '\x0d' || c == '\x0c'

/-- Rust `char::is_ascii`. -/
def isAsciiChar (c : Char) : Bool := c.toNat < 128

/-- The `'#'` comment loop: consume characters up to (not including) the
next newline or end of input; bytes consumed and the remainder. -/
def skipLine : List Char → Nat × List Char
  | [] => (0, [])
  | c :: rest =>
      if c == '\n' then (0, c :: rest)
      else
        let r := skipLine rest
        (lenUtf8 c + r.1, r.2)

/-- The quoted-string loop: consume characters up to (not including) the
next newline, the closing quote `q`, or end of input. -/
def scanQuoted (q : Char) : List Char → Nat × List Char
  | [] => (0, [])
  | c :: rest =>
      if c == '\n' || c == q then (0, c :: rest)
      else
        let r := scanQuoted q rest
        (lenUtf8 c + r.1, r.2)

/-- The bareword loop: consume the maximal run of non-whitespace ASCII
characters. -/
def scanSymbol : List Char → Nat × List Char
  | [] => (0, [])
  | c :: rest =>
      if !isAsciiWhitespace c && isAsciiChar c then
        let r := scanSymbol rest
        (lenUtf8 c + r.1, r.2)
      else (0, c :: rest)

theorem skipLine_length : ∀ l : List Char, (skipLine l).2.length ≤ l.length := by
  intro l
  induction l with
  | nil => exact Nat.le_refl _
  | cons c rest ih =>
    show ((if c == '\n' then (0, c :: rest) else _ : Nat × List Char)).2.length ≤ _
    by_cases hc : c == '\n'
    · rw [if_pos hc]
    · rw [if_neg hc]
      exact Nat.le_succ_of_le ih

theorem scanQuoted_length (q : Char) :
    ∀ l : List Char, (scanQuoted q l).2.length ≤ l.length := by
  intro l
  induction l with
  | nil => exact Nat.le_refl _
  | cons c rest ih =>
    show ((if c == '\n' || c == q then (0, c :: rest) else _ : Nat × List Char)).2.length ≤ _
    by_cases hc : c == '\n' || c == q
    · rw [if_pos hc]
    · rw [if_neg hc]
      exact Nat.le_succ_of_le ih

theorem scanSymbol_length :
    ∀ l : List Char, (scanSymbol l).2.length ≤ l.length := by
  intro l
  induction l with
  | nil => exact Nat.le_refl _
  | cons c rest ih =>
    show ((if !isAsciiWhitespace c && isAsciiChar c then _ else (0, c :: rest)
      : Nat × List Char)).2.length ≤ _
    by_cases hc : !isAsciiWhitespace c && isAsciiChar c
    · rw [if_pos hc]
      exact Nat.le_succ_of_le ih
    · rw [if_neg hc]

/-- The body of `Lexer::advance`'s scanning loop, with fuel making the
recursion structural (the two `continue` paths: inline whitespace and
comments).  The fuel argument is an upper bound on loop iterations; the
wrapper `advanceLoop` below always supplies enough. -/
def advanceLoopF (source_index : SourceIndex) :
    Nat → Bool → IndentKind → Nat → List Char → Option (Option LexItem × Lexer)
  | 0, _, _, _, _ => none
  | _ + 1, on_new_line, spaces, byte_offset, [] =>
      some (none, ⟨source_index, none, on_new_line, byte_offset, [], spaces⟩)
  | fuel + 1, on_new_line, spaces, byte_offset, c :: rest =>
      let start := byte_offset
      let off := byte_offset + lenUtf8 c
      if c == '\n' then
        some (some (.ok ⟨.newline, ⟨start, off⟩⟩),
          ⟨source_index, none, true, off, rest, spaces⟩)
      else if c == ' ' && on_new_line then
        let token : Token := ⟨.indent, ⟨start, off⟩⟩
        match spaces with
        | .tab =>
            some (some (.err ⟨.mixedIndentation, ⟨start, off⟩⟩),
              ⟨source_index, some (.ok token), on_new_line, off, rest, .mixed⟩)
        | .unknown =>
            some (some (.ok token),
              ⟨source_index, none, on_new_line, off, rest, .space⟩)
        | sp =>
            some (some (.ok token),
              ⟨source_index, none, on_new_line, off, rest, sp⟩)
      else if c == '\t' && on_new_line then
        let token : Token := ⟨.indent, ⟨start, off⟩⟩
        match spaces with
        | .space =>
            some (some (.err ⟨.mixedIndentation, ⟨start, off⟩⟩),
              ⟨source_index, some (.ok token), on_new_line, off, rest, .mixed⟩)
        | .unknown =>
            some (some (.ok token),
              ⟨source_index, none, on_new_line, off, rest, .tab⟩)
        | sp =>
            some (some (.ok token),
              ⟨source_index, none, on_new_line, off, rest, sp⟩)
      else if c == ' ' || c == '\t' then
        advanceLoopF source_index fuel on_new_line spaces off rest
      else if c == '#' then
        let r := skipLine rest
        advanceLoopF source_index fuel on_new_line spaces (off + r.1) r.2
      else if c == '`' || c == '"' then
        let after_quote := off
        let r := scanQuoted c rest
        let off2 := off + r.1
        let token : Token := ⟨.symbol, ⟨after_quote, off2⟩⟩
        match r.2 with
        | c2 :: rest2 =>
            if c2 == c then
              some (some (.ok token),
                ⟨source_index, none, false, off2 + lenUtf8 c, rest2, spaces⟩)
            else
              some (some (.err ⟨.unclosedString, ⟨start, after_quote⟩⟩),
                ⟨source_index, some (.ok token), false, off2, c2 :: rest2, spaces⟩)
        | [] =>
            some (some (.err ⟨.unclosedString, ⟨start, after_quote⟩⟩),
              ⟨source_index, some (.ok token), false, off2, [], spaces⟩)
      else if isAsciiChar c then
        let r := scanSymbol rest
        some (some (.ok ⟨.symbol, ⟨start, off + r.1⟩⟩),
          ⟨source_index, none, false, off + r.1, r.2, spaces⟩)
      else
        some (some (.err ⟨.nonAsciiCharacter, ⟨start, off⟩⟩),
          ⟨source_index, none, false, off, rest, spaces⟩)

/-- `Lexer::advance`'s scanning loop (see `advanceLoopF`); the canonical
fuel `rest.length + 1` is always sufficient (`advanceLoopF_suff`). -/
def advanceLoop (source_index : SourceIndex) (on_new_line : Bool)
    (spaces : IndentKind) (byte_offset : Nat) (l : List Char) :
    Option LexItem × Lexer :=
  (advanceLoopF source_index (l.length + 1) on_new_line spaces byte_offset l).getD
    (none, ⟨source_index, none, on_new_line, byte_offset, l, spaces⟩)

/-- `Lexer::advance`. -/
def Lexer.advance (lx : Lexer) : Option LexItem × Lexer :=
  match lx.lookahead with
  | some item => (some item, { lx with lookahead := none })
  | none => advanceLoop lx.source_index lx.on_new_line lx.spaces lx.byte_offset lx.rest

/-- `Lexer::next`. -/
def Lexer.next (lx : Lexer) : Option LexItem × Lexer := lx.advance

/-- `Lexer::peek`: note that the Rust code stores `self.advance(data)`
back into `self.lookahead`, overwriting whatever `advance` itself may
have buffered there. -/
def Lexer.peek (lx : Lexer) : Option LexItem × Lexer :=
  match lx.lookahead with
  | some item => (some item, lx)
  | none =>
      let r := lx.advance
      (r.1, { r.2 with lookahead := r.1 })

/-- Progress measure for lexer states: two per remaining character, plus
one for a buffered lookahead item. -/
def lexMeasure (lx : Lexer) : Nat :=
  2 * lx.rest.length + (match lx.lookahead with | some _ => 1 | none => 0)

theorem advanceLoopF_suff (si : SourceIndex) :
    ∀ (fuel : Nat) (o : Bool) (sp : IndentKind) (b : Nat) (l : List Char),
      l.length < fuel → (advanceLoopF si fuel o sp b l).isSome = true := by
  intro fuel
  induction fuel with
  | zero => intro o sp b l h; exact absurd h (Nat.not_lt_zero _)
  | succ fuel ih =>
    intro o sp b l h
    cases l with
    | nil => rfl
    | cons c rest =>
      have hrest : rest.length < fuel := by
        simp only [List.length_cons] at h; omega
      simp only [advanceLoopF]
      split_ifs with h1 h2 h3 h4 h5 h6 h7
      · rfl
      · cases sp <;> rfl
      · cases sp <;> rfl
      · exact ih _ _ _ _ hrest
      · exact ih _ _ _ _ (lt_of_le_of_lt (skipLine_length rest) hrest)
      · cases hr : (scanQuoted c rest).2 with
        | nil => rfl
        | cons c2 rest2 => by_cases hc2 : c2 == c <;> simp [hc2]
      · rfl
      · rfl

theorem advanceLoopF_rest_lt (si : SourceIndex) :
    ∀ (fuel : Nat) (o : Bool) (sp : IndentKind) (b : Nat) (l : List Char)
      (item : LexItem) (lx' : Lexer),
      advanceLoopF si fuel o sp b l = some (some item, lx') →
      lx'.rest.length < l.length := by
  intro fuel
  induction fuel with
  | zero => intro o sp b l item lx' h; cases h
  | succ fuel ih =>
    intro o sp b l item lx' h
    cases l with
    | nil => cases h
    | cons c rest =>
      simp only [advanceLoopF] at h
      split_ifs at h with h1 h2 h3 h4 h5 h6 h7
      · cases h; simp
      · cases sp <;> (cases h; simp)
      · cases sp <;> (cases h; simp)
      · exact Nat.lt_succ_of_lt (ih _ _ _ _ _ _ h)
      · exact Nat.lt_succ_of_lt
          (lt_of_lt_of_le (ih _ _ _ _ _ _ h) (skipLine_length rest))
      · have hq := scanQuoted_length c rest
        cases hr : (scanQuoted c rest).2 with
        | nil => rw [hr] at h; cases h; simp
        | cons c2 rest2 =>
          rw [hr] at h
          simp only [] at h
          rw [hr] at hq
          by_cases hc2 : c2 == c
          · rw [if_pos hc2] at h; cases h
            simp only [List.length_cons] at hq ⊢
            omega
          · rw [if_neg hc2] at h; cases h
            simp only [List.length_cons] at hq ⊢
            omega
      · have hs := scanSymbol_length rest
        cases h
        simp only [List.length_cons]
        omega
      · cases h; simp

theorem advanceLoopF_none (si : SourceIndex) :
    ∀ (fuel : Nat) (o : Bool) (sp : IndentKind) (b : Nat) (l : List Char)
      (lx' : Lexer),
      advanceLoopF si fuel o sp b l = some (none, lx') →
      lx'.lookahead = none ∧ lx'.rest = [] := by
  intro fuel
  induction fuel with
  | zero => intro o sp b l lx' h; cases h
  | succ fuel ih =>
    intro o sp b l lx' h
    cases l with
    | nil => cases h; exact ⟨rfl, rfl⟩
    | cons c rest =>
      simp only [advanceLoopF] at h
      split_ifs at h with h1 h2 h3 h4 h5 h6 h7
      · cases h
      · cases sp <;> cases h
      · cases sp <;> cases h
      · exact ih _ _ _ _ _ h
      · exact ih _ _ _ _ _ h
      · cases hr : (scanQuoted c rest).2 with
        | nil => rw [hr] at h; cases h
        | cons c2 rest2 =>
          rw [hr] at h
          simp only [] at h
          by_cases hc2 : c2 == c
          · rw [if_pos hc2] at h; cases h
          · rw [if_neg hc2] at h; cases h
      · cases h
      · cases h

/-- The lookahead slot only ever buffers `Ok` tokens. -/
theorem advanceLoopF_lookahead_ok (si : SourceIndex) :
    ∀ (fuel : Nat) (o : Bool) (sp : IndentKind) (b : Nat) (l : List Char)
      (r : Option LexItem) (lx' : Lexer),
      advanceLoopF si fuel o sp b l = some (r, lx') →
      ∀ e : LexError, lx'.lookahead ≠ some (.err e) := by
  intro fuel
  induction fuel with
  | zero => intro o sp b l r lx' h; cases h
  | succ fuel ih =>
    intro o sp b l r lx' h
    cases l with
    | nil => cases h; intro e he; cases he
    | cons c rest =>
      simp only [advanceLoopF] at h
      split_ifs at h with h1 h2 h3 h4 h5 h6 h7
      · cases h; intro e he; cases he
      · cases sp <;> (cases h; intro e he; cases he)
      · cases sp <;> (cases h; intro e he; cases he)
      · exact ih _ _ _ _ _ _ h
      · exact ih _ _ _ _ _ _ h
      · cases hr : (scanQuoted c rest).2 with
        | nil => rw [hr] at h; cases h; intro e he; cases he
        | cons c2 rest2 =>
          rw [hr] at h
          simp only [] at h
          by_cases hc2 : c2 == c
          · rw [if_pos hc2] at h; cases h; intro e he; cases he
          · rw [if_neg hc2] at h; cases h; intro e he; cases he
      · cases h; intro e he; cases he
      · cases h; intro e he; cases he

/-- A `MixedIndentation` error is only ever emitted together with moving
the tracker to `Mixed`. -/
theorem advanceLoopF_mixed_emit (si : SourceIndex) :
    ∀ (fuel : Nat) (o : Bool) (sp : IndentKind) (b : Nat) (l : List Char)
      (e : LexError) (lx' : Lexer),
      advanceLoopF si fuel o sp b l = some (some (.err e), lx') →
      e.kind = .mixedIndentation → lx'.spaces = .mixed := by
  intro fuel
  induction fuel with
  | zero => intro o sp b l e lx' h; cases h
  | succ fuel ih =>
    intro o sp b l e lx' h hk
    cases l with
    | nil => cases h
    | cons c rest =>
      simp only [advanceLoopF] at h
      split_ifs at h with h1 h2 h3 h4 h5 h6 h7
      · cases h
      · cases sp <;> cases h <;> rfl
      · cases sp <;> cases h <;> rfl
      · exact ih _ _ _ _ _ _ h hk
      · exact ih _ _ _ _ _ _ h hk
      · cases hr : (scanQuoted c rest).2 with
        | nil =>
          rw [hr] at h; cases h; cases hk
        | cons c2 rest2 =>
          rw [hr] at h
          simp only [] at h
          by_cases hc2 : c2 == c
          · rw [if_pos hc2] at h; cases h
          · rw [if_neg hc2] at h; cases h; cases hk
      · cases h
      · cases h; cases hk

/-- From the `Mixed` state, the tracker stays `Mixed` and no further
`MixedIndentation` error is ever emitted. -/
theorem advanceLoopF_mixed_preserve (si : SourceIndex) :
    ∀ (fuel : Nat) (o : Bool) (b : Nat) (l : List Char)
      (r : Option LexItem) (lx' : Lexer),
      advanceLoopF si fuel o .mixed b l = some (r, lx') →
      lx'.spaces = .mixed ∧
        ∀ e : LexError, r = some (.err e) → e.kind ≠ .mixedIndentation := by
  intro fuel
  induction fuel with
  | zero => intro o b l r lx' h; cases h
  | succ fuel ih =>
    intro o b l r lx' h
    cases l with
    | nil => cases h; exact ⟨rfl, fun e he => by cases he⟩
    | cons c rest =>
      simp only [advanceLoopF] at h
      split_ifs at h with h1 h2 h3 h4 h5 h6 h7
      · cases h; exact ⟨rfl, fun e he => by cases he⟩
      · cases h; exact ⟨rfl, fun e he => by cases he⟩
      · cases h; exact ⟨rfl, fun e he => by cases he⟩
      · exact ih _ _ _ _ _ h
      · exact ih _ _ _ _ _ h
      · cases hr : (scanQuoted c rest).2 with
        | nil =>
          rw [hr] at h; cases h
          exact ⟨rfl, fun e he => by cases he; intro hk; cases hk⟩
        | cons c2 rest2 =>
          rw [hr] at h
          simp only [] at h
          by_cases hc2 : c2 == c
          · rw [if_pos hc2] at h; cases h
            exact ⟨rfl, fun e he => by cases he⟩
          · rw [if_neg hc2] at h; cases h
            exact ⟨rfl, fun e he => by cases he; intro hk; cases hk⟩
      · cases h; exact ⟨rfl, fun e he => by cases he⟩
      · cases h; exact ⟨rfl, fun e he => by cases he; intro hk; cases hk⟩

/-- The lexer's one lookahead slot holds no error (true initially and
preserved by `next`; `peek` can break it, which is the token-loss hazard
the parser claims are about). -/
def lookaheadOk (lx : Lexer) : Prop := ∀ e : LexError, lx.lookahead ≠ some (.err e)

theorem advanceLoop_spec (si : SourceIndex) (o : Bool) (sp : IndentKind) (b : Nat)
    (l : List Char) :
    advanceLoopF si (l.length + 1) o sp b l = some (advanceLoop si o sp b l) := by
  have h := advanceLoopF_suff si (l.length + 1) o sp b l (Nat.lt_succ_self _)
  cases hx : advanceLoopF si (l.length + 1) o sp b l with
  | none => rw [hx] at h; cases h
  | some r => unfold advanceLoop; rw [hx]; rfl

theorem lexMeasure_bounds (lx : Lexer) :
    2 * lx.rest.length ≤ lexMeasure lx ∧ lexMeasure lx ≤ 2 * lx.rest.length + 1 := by
  unfold lexMeasure
  cases lx.lookahead <;> simp

theorem Lexer.advance_measure {lx : Lexer} {item : LexItem} {lx' : Lexer}
    (h : lx.advance = (some item, lx')) : lexMeasure lx' < lexMeasure lx := by
  unfold Lexer.advance at h
  cases hla : lx.lookahead with
  | some it =>
    rw [hla] at h
    simp only [] at h
    cases h
    show lexMeasure { lx with lookahead := none } < lexMeasure lx
    unfold lexMeasure
    rw [hla]
    simp
  | none =>
    rw [hla] at h
    simp only [] at h
    have hs := advanceLoop_spec lx.source_index lx.on_new_line lx.spaces
      lx.byte_offset lx.rest
    rw [h] at hs
    have hlt := advanceLoopF_rest_lt _ _ _ _ _ _ _ _ hs
    have hb := lexMeasure_bounds lx'
    have hm : lexMeasure lx = 2 * lx.rest.length := by
      unfold lexMeasure; rw [hla]; rfl
    omega

theorem Lexer.advance_none {lx : Lexer} {lx' : Lexer}
    (h : lx.advance = (none, lx')) : lx'.lookahead = none ∧ lx'.rest = [] := by
  unfold Lexer.advance at h
  cases hla : lx.lookahead with
  | some it => rw [hla] at h; simp only [] at h; cases h
  | none =>
    rw [hla] at h
    simp only [] at h
    have hs := advanceLoop_spec lx.source_index lx.on_new_line lx.spaces
      lx.byte_offset lx.rest
    rw [h] at hs
    exact advanceLoopF_none _ _ _ _ _ _ _ hs

theorem Lexer.advance_lookahead_ok {lx : Lexer} (hok : lookaheadOk lx)
    {r : Option LexItem} {lx' : Lexer} (h : lx.advance = (r, lx')) :
    lookaheadOk lx' := by
  unfold Lexer.advance at h
  cases hla : lx.lookahead with
  | some it =>
    rw [hla] at h
    simp only [] at h
    cases h
    intro e he
    cases he
  | none =>
    rw [hla] at h
    simp only [] at h
    have hs := advanceLoop_spec lx.source_index lx.on_new_line lx.spaces
      lx.byte_offset lx.rest
    rw [h] at hs
    exact advanceLoopF_lookahead_ok _ _ _ _ _ _ _ _ hs

theorem Lexer.advance_mixed_emit {lx : Lexer} (hok : lookaheadOk lx)
    {e : LexError} {lx' : Lexer} (h : lx.advance = (some (.err e), lx'))
    (hk : e.kind = .mixedIndentation) : lx'.spaces = .mixed := by
  unfold Lexer.advance at h
  cases hla : lx.lookahead with
  | some it =>
    rw [hla] at h
    simp only [] at h
    exfalso
    apply hok e
    rw [hla, (Prod.mk.injEq _ _ _ _ |>.mp h).1.symm]
  | none =>
    rw [hla] at h
    simp only [] at h
    have hs := advanceLoop_spec lx.source_index lx.on_new_line lx.spaces
      lx.byte_offset lx.rest
    rw [h] at hs
    exact advanceLoopF_mixed_emit _ _ _ _ _ _ _ _ hs hk

theorem Lexer.advance_mixed_preserve {lx : Lexer} (hm : lx.spaces = .mixed)
    (hok : lookaheadOk lx) {item : LexItem} {lx' : Lexer}
    (h : lx.advance = (some item, lx')) :
    lx'.spaces = .mixed ∧ ∀ e : LexError, item = .err e → e.kind ≠ .mixedIndentation := by
  unfold Lexer.advance at h
  cases hla : lx.lookahead with
  | some it =>
    rw [hla] at h
    simp only [] at h
    cases h
    constructor
    · show lx.spaces = .mixed; exact hm
    · intro e he
      exfalso
      apply hok e
      rw [hla, he]
  | none =>
    rw [hla] at h
    simp only [] at h
    have hs := advanceLoop_spec lx.source_index lx.on_new_line lx.spaces
      lx.byte_offset lx.rest
    rw [h] at hs
    rw [hm] at hs
    obtain ⟨h1, h2⟩ := advanceLoopF_mixed_preserve _ _ _ _ _ _ _ hs
    exact ⟨h1, fun e he => h2 e (by rw [he])⟩

/-- Draining the lexer: repeatedly call `next` until it yields nothing,
collecting every produced item (tokens and errors) in order. -/
def Lexer.drain (lx : Lexer) : List LexItem :=
  match h : lx.next with
  | (some item, lx') => item :: lx'.drain
  | (none, _) => []
termination_by lexMeasure lx
decreasing_by exact Lexer.advance_measure h

theorem Lexer.drain_unfold (lx : Lexer) :
    lx.drain = (match lx.next with
      | (some item, lx') => item :: lx'.drain
      | (none, _) => []) := by
  rw [Lexer.drain]
  cases hadv : lx.next with
  | mk r lx' => cases r <;> rfl

/-- Is an item a `MixedIndentation` error? -/
def isMixedErr (item : LexItem) : Bool :=
  match item with
  | .err e => e.kind == .mixedIndentation
  | .ok _ => false

/-- Number of `MixedIndentation` errors in a stream of items. -/
def countMixed (items : List LexItem) : Nat := (items.filter isMixedErr).length

theorem countMixed_cons (item : LexItem) (items : List LexItem) :
    countMixed (item :: items)
      = (if isMixedErr item then 1 else 0) + countMixed items := by
  unfold countMixed
  rw [List.filter_cons]
  by_cases hi : isMixedErr item
  · rw [if_pos hi, if_pos hi, List.length_cons]; omega
  · rw [if_neg hi, if_neg hi]; omega

/-- Once the indentation tracker is `Mixed`, draining the rest of the
source produces no further `MixedIndentation` error. -/
theorem drain_mixed_zero :
    ∀ (n : Nat) (lx : Lexer), lexMeasure lx < n → lookaheadOk lx →
      lx.spaces = .mixed → countMixed lx.drain = 0 := by
  intro n
  induction n with
  | zero => intro lx h _ _; exact absurd h (Nat.not_lt_zero _)
  | succ n ih =>
    intro lx h hok hm
    rw [Lexer.drain_unfold]
    cases hadv : lx.next with
    | mk r lx' =>
      cases r with
      | none => rfl
      | some item =>
        simp only []
        rw [countMixed_cons]
        have hms := Lexer.advance_mixed_preserve hm hok hadv
        have hok' := Lexer.advance_lookahead_ok hok hadv
        have hlt := Lexer.advance_measure hadv
        have hnotmix : isMixedErr item = false := by
          cases item with
          | ok t => rfl
          | err e =>
            have hne := hms.2 e rfl
            unfold isMixedErr
            simp only [beq_eq_false_iff_ne, ne_eq]
            exact hne
        rw [hnotmix]
        simp only [Bool.false_eq_true, if_false]
        rw [ih lx' (by omega) hok' hms.1]

/-- Any drain of the lexer contains at most one `MixedIndentation` error. -/
theorem drain_le_one :
    ∀ (n : Nat) (lx : Lexer), lexMeasure lx < n → lookaheadOk lx →
      countMixed lx.drain ≤ 1 := by
  intro n
  induction n with
  | zero => intro lx h _; exact absurd h (Nat.not_lt_zero _)
  | succ n ih =>
    intro lx h hok
    rw [Lexer.drain_unfold]
    cases hadv : lx.next with
    | mk r lx' =>
      cases r with
      | none => exact Nat.zero_le _
      | some item =>
        simp only []
        rw [countMixed_cons]
        have hok' := Lexer.advance_lookahead_ok hok hadv
        have hlt := Lexer.advance_measure hadv
        by_cases hmix : isMixedErr item = true
        · cases item with
          | ok t => cases hmix
          | err e =>
            have hkind : e.kind = .mixedIndentation := by
              unfold isMixedErr at hmix
              exact beq_iff_eq.mp hmix
            have hsp := Lexer.advance_mixed_emit hok hadv hkind
            have h0 := drain_mixed_zero (lexMeasure lx' + 1) lx'
              (Nat.lt_succ_self _) hok' hsp
            rw [hmix, if_pos rfl, h0]
        · have hf : isMixedErr item = false := by
            cases hb : isMixedErr item
            · rfl
            · exact absurd hb hmix
          rw [hf]
          simp only [Bool.false_eq_true, if_false]
          have := ih lx' (by omega) hok'
          omega

/-- C10: over any single source, a lexer instance reports at most one
`MixedIndentation` error in total. -/
theorem lexer_at_most_one_mixed_indentation (si : SourceIndex) (source : List Char) :
    countMixed (Lexer.init si source).drain ≤ 1 :=
  drain_le_one (lexMeasure (Lexer.init si source) + 1) _ (Nat.lt_succ_self _)
    (fun e he => by cases he)

theorem space_head_unknown (si : SourceIndex) (fuel b : Nat) (l : List Char) :
    advanceLoopF si (fuel + 1) true .unknown b (' ' :: l)
      = some (some (.ok ⟨.indent, ⟨b, b + 1⟩⟩),
          ⟨si, none, true, b + 1, l, .space⟩) := by
  simp only [advanceLoopF]
  rw [if_neg (by decide), if_pos (by decide)]
  rfl

theorem tab_head_space (si : SourceIndex) (fuel b : Nat) (l : List Char) :
    advanceLoopF si (fuel + 1) true .space b ('\t' :: l)
      = some (some (.err ⟨.mixedIndentation, ⟨b, b + 1⟩⟩),
          ⟨si, some (.ok ⟨.indent, ⟨b, b + 1⟩⟩), true, b + 1, l, .mixed⟩) := by
  simp only [advanceLoopF]
  rw [if_neg (by decide), if_neg (by decide), if_pos (by decide)]
  rfl

/-- C4: lexing a source that starts with one space then one tab yields, in
order, the space's `Indent` token, exactly one `MixedIndentation` error
spanning exactly the tab's byte `[1, 2)`, and then the tab's own `Indent`
token (recovered from the lookahead slot) — and no `MixedIndentation`
error anywhere later in the stream. -/
theorem lexer_space_tab_mixed_recovery (si : SourceIndex) (rest : List Char) :
    ((Lexer.init si (' ' :: '\t' :: rest)).drain).take 3
        = [.ok ⟨.indent, ⟨0, 1⟩⟩, .err ⟨.mixedIndentation, ⟨1, 2⟩⟩,
           .ok ⟨.indent, ⟨1, 2⟩⟩] ∧
    countMixed ((Lexer.init si (' ' :: '\t' :: rest)).drain) = 1 := by
  have h1 : (Lexer.init si (' ' :: '\t' :: rest)).next
      = (some (.ok ⟨.indent, ⟨0, 1⟩⟩),
         (⟨si, none, true, 1, '\t' :: rest, .space⟩ : Lexer)) := by
    show advanceLoop si true .unknown 0 (' ' :: '\t' :: rest) = _
    unfold advanceLoop
    rw [space_head_unknown]
    rfl
  have h2 : (⟨si, none, true, 1, '\t' :: rest, .space⟩ : Lexer).next
      = (some (.err ⟨.mixedIndentation, ⟨1, 2⟩⟩),
         (⟨si, some (.ok ⟨.indent, ⟨1, 2⟩⟩), true, 2, rest, .mixed⟩ : Lexer)) := by
    show advanceLoop si true .space 1 ('\t' :: rest) = _
    unfold advanceLoop
    rw [tab_head_space]
    rfl
  have h3 : (⟨si, some (.ok ⟨.indent, ⟨1, 2⟩⟩), true, 2, rest, .mixed⟩ : Lexer).next
      = (some (.ok ⟨.indent, ⟨1, 2⟩⟩),
         (⟨si, none, true, 2, rest, .mixed⟩ : Lexer)) := rfl
  have hd : (Lexer.init si (' ' :: '\t' :: rest)).drain
      = .ok ⟨.indent, ⟨0, 1⟩⟩ :: .err ⟨.mixedIndentation, ⟨1, 2⟩⟩
        :: .ok ⟨.indent, ⟨1, 2⟩⟩
        :: (⟨si, none, true, 2, rest, .mixed⟩ : Lexer).drain := by
    rw [Lexer.drain_unfold, h1]
    simp only []
    rw [Lexer.drain_unfold, h2]
    simp only []
    rw [Lexer.drain_unfold, h3]
  have h0 : countMixed (⟨si, none, true, 2, rest, .mixed⟩ : Lexer).drain = 0 :=
    drain_mixed_zero (lexMeasure (⟨si, none, true, 2, rest, .mixed⟩ : Lexer) + 1) _
      (Nat.lt_succ_self _) (fun e he => by cases he) rfl
  rw [hd]
  refine ⟨rfl, ?_⟩
  rw [countMixed_cons, countMixed_cons, countMixed_cons, h0]
  decide

/-! ## Parser (src/parse.rs) -/

inductive ParseErrorKind where
  | lexError (e : LexError)
deriving DecidableEq, Repr

structure ParseError where
  kind : ParseErrorKind
  span : Span
deriving DecidableEq, Repr

structure Parser where
  lexer : Lexer
  errors : List ParseError
  indentation : Nat
deriving DecidableEq, Repr

/-- `Parser::new` (on a source's text). -/
def Parser.init (source_index : SourceIndex) (source : List Char) : Parser :=
  { lexer := Lexer.init source_index source, errors := [], indentation := 0 }

def Parser.source_index (p : Parser) : SourceIndex := p.lexer.source_index

/-- Progress measure of a parser state: its lexer's measure. -/
def pMeasure (p : Parser) : Nat := lexMeasure p.lexer

/-- `Parser::lex_error` (fueled loop body): drain pending lexical errors,
wrapping each as a parse error. -/
def lexErrorLoopF : Nat → Parser → Option Parser
  | 0, _ => none
  | fuel + 1, p =>
      match p.lexer.peek with
      | (some (.err _), lx') =>
          match lx'.next with
          | (some (.err lex_error), lx'') =>
              lexErrorLoopF fuel
                { p with
                  lexer := lx''
                  errors := p.errors ++ [⟨.lexError lex_error, lex_error.span⟩] }
          | (_, lx'') => some { p with lexer := lx'' }  -- unreachable!() in Rust
      | (_, lx') => some { p with lexer := lx' }

/-- `Parser::lex_error`; the canonical fuel is always sufficient
(`lexErrorLoopF_suff`). -/
def Parser.lexErrorLoop (p : Parser) : Parser :=
  (lexErrorLoopF (pMeasure p + 1) p).getD p

/-- `Parser::advance`. -/
def Parser.advanceTok (p : Parser) : Option Token × Parser :=
  let p1 := p.lexErrorLoop
  match p1.lexer.next with
  | (some (.ok token), lx') => (some token, { p1 with lexer := lx' })
  | (_, lx') => (none, { p1 with lexer := lx' })

/-- `Parser::peek`. -/
def Parser.peekTok (p : Parser) : Option Token × Parser :=
  let p1 := p.lexErrorLoop
  match p1.lexer.peek with
  | (some (.ok token), lx') => (some token, { p1 with lexer := lx' })
  | (_, lx') => (none, { p1 with lexer := lx' })

/-- `Parser::indentation` (fueled loop body): count `Indent` tokens into
the depth counter, reset it on `Newline`, stop at a `Symbol` or the end. -/
def indentationLoopF : Nat → Parser → Option Parser
  | 0, _ => none
  | fuel + 1, p =>
      match p.peekTok with
      | (none, p') => some p'
      | (some t, p') =>
          match t.kind with
          | .symbol => some p'
          | .indent =>
              let r := p'.advanceTok
              indentationLoopF fuel { r.2 with indentation := r.2.indentation + 1 }
          | .newline =>
              let r := p'.advanceTok
              indentationLoopF fuel { r.2 with indentation := 0 }

/-- `Parser::indentation`; canonical fuel is always sufficient. -/
def Parser.indentationLoop (p : Parser) : Parser :=
  (indentationLoopF (pMeasure p + 1) p).getD p

/-- The `Symbol`-collecting loop at the top of `Parser::node` (fueled). -/
def symbolsLoopF : Nat → Parser → List Token → Option (List Token × Parser)
  | 0, _, _ => none
  | fuel + 1, p, acc =>
      match p.peekTok with
      | (some t, p') =>
          if t.kind = .symbol then
            match p'.advanceTok with
            | (some token, p'') => symbolsLoopF fuel p'' (acc ++ [token])
            | (none, p'') => some (acc, p'')  -- `.unwrap()` in Rust; unreachable
          else some (acc, p')
      | (none, p') => some (acc, p')

/-- The `Symbol`-collecting loop; canonical fuel is always sufficient. -/
def Parser.symbolsRun (p : Parser) : List Token × Parser :=
  (symbolsLoopF (pMeasure p + 1) p []).getD ([], p)

/-- The `while peek().is_some() && indentation > current` loop inside
`Parser::node`, abstracted over the recursive call to `node` so that the
whole parser is a structural (kernel-computable) recursion on fuel. -/
def childrenLoopGo (node : Parser → Data → Option (NodeIndex × Parser × Data)) :
    Nat → Nat → Parser → Data → List NodeIndex →
    Option (List NodeIndex × Parser × Data)
  | 0, _, _, _, _ => none
  | fuel + 1, current_indentation, p, data, acc =>
      match p.peekTok with
      | (none, p') => some (acc, p', data)
      | (some _, p') =>
          if current_indentation < p'.indentation then
            match node p' data with
            | none => none
            | some (n, p'', data') =>
                let p3 := p''.indentationLoop
                childrenLoopGo node fuel current_indentation p3 data' (acc ++ [n])
          else some (acc, p', data)

def nodeF : Nat → Parser → Data → Option (NodeIndex × Parser × Data)
  | 0, _, _ => none
  | fuel + 1, p, data =>
      let p1 := p.indentationLoop
      let current_indentation := p1.indentation
      let r2 := p1.symbolsRun
      let tokens := r2.1
      let p3 := r2.2.indentationLoop
      match childrenLoopGo (nodeF fuel) (fuel + 1) current_indentation p3 data [] with
      | none => none
      | some (children, p4, data1) =>
          if children ≠ [] then
            let r := data1.insert_node (.parent tokens children)
            some (r.2, p4, r.1)
          else
            let r := data1.insert_node (.some tokens)
            some (r.2, p4, r.1)

/-- `Parser::parse` (fueled): parse root nodes while tokens remain,
registering each in the root registry. -/
def parseF : Nat → Parser → Data → Option (Parser × Data)
  | 0, _, _ => none
  | fuel + 1, p, data =>
      match p.peekTok with
      | (none, p') => some (p', data)
      | (some _, p') =>
          match nodeF fuel p' data with
          | none => none
          | some (n, p'', data') =>
              parseF fuel p'' (data'.push_root_node p''.source_index n)

/-- `Parser::parse`; the canonical fuel `pMeasure p + 1` is always
sufficient (`parseF_suff`), so this total function is the parser. -/
def Parser.parse (p : Parser) (data : Data) : Parser × Data :=
  (parseF (pMeasure p + 1) p data).getD (p, data)

/-! ### Observation helpers for stating parse results -/

/-- The `i`-th root node registered in the `Data`. -/
def rootNodeAt (data : Data) (i : Nat) : Option NodeIndex :=
  (data.root_nodes[i]?).map Prod.snd

/-- The `i`-th child of a node. -/
def childAt (data : Data) (n : Option NodeIndex) (i : Nat) : Option NodeIndex :=
  n.bind (fun n => (data.get_children n).bind (fun l => l[i]?))

/-- The number of children of a node (`none` for a Leaf or Error node,
matching `get_children`). -/
def childCountAt (data : Data) (n : Option NodeIndex) : Option Nat :=
  n.bind (fun n => (data.get_children n).map List.length)

/-- The lexemes of all tokens of a node, against source `si`. -/
def lexemesAt (data : Data) (si : SourceIndex) (n : Option NodeIndex) :
    Option (List (List Char)) :=
  n.bind (fun n => (data.get_tokens n).bind
    (fun ts => ts.mapM (fun t => data.get_lexeme si t)))

/-- C2: parsing `"a\n\tb\n\tc\n\t\td\ne"` registers exactly two root
nodes, in order: a Parent `a` with children Leaf `b` and Parent `c`
(whose single child is Leaf `d`), and a Leaf `e`. -/
theorem parser_parse_example :
    (let source := ['a', '\n', '\t', 'b', '\n', '\t', 'c', '\n', '\t', '\t', 'd', '\n', 'e']
     let d0 := Data.default.insert_source source
     let data := ((Parser.init d0.2 source).parse d0.1).2
     let si := d0.2
     data.root_nodes.map Prod.fst = [si, si] ∧
     data.root_nodes.length = 2 ∧
     lexemesAt data si (rootNodeAt data 0) = Option.some [['a']] ∧
     childCountAt data (rootNodeAt data 0) = Option.some 2 ∧
     lexemesAt data si (childAt data (rootNodeAt data 0) 0) = Option.some [['b']] ∧
     childCountAt data (childAt data (rootNodeAt data 0) 0) = Option.none ∧
     lexemesAt data si (childAt data (rootNodeAt data 0) 1) = Option.some [['c']] ∧
     childCountAt data (childAt data (rootNodeAt data 0) 1) = Option.some 1 ∧
     lexemesAt data si (childAt data (childAt data (rootNodeAt data 0) 1) 0)
       = Option.some [['d']] ∧
     childCountAt data (childAt data (childAt data (rootNodeAt data 0) 1) 0)
       = Option.none ∧
     lexemesAt data si (rootNodeAt data 1) = Option.some [['e']] ∧
     childCountAt data (rootNodeAt data 1) = Option.none) := by
  decide

/-! ### Termination of the parser (C7) -/

theorem Lexer.next_of_lookahead {lx : Lexer} {item : LexItem}
    (h : lx.lookahead = some item) :
    lx.next = (some item, { lx with lookahead := none }) := by
  unfold Lexer.next Lexer.advance
  rw [h]

theorem Lexer.peek_of_lookahead {lx : Lexer} {item : LexItem}
    (h : lx.lookahead = some item) : lx.peek = (some item, lx) := by
  unfold Lexer.peek
  rw [h]

theorem Lexer.peek_exhausted {lx : Lexer} (h1 : lx.lookahead = none)
    (h2 : lx.rest = []) : lx.peek = (none, { lx with lookahead := none }) := by
  unfold Lexer.peek Lexer.advance
  rw [h1]
  simp only []
  unfold advanceLoop
  rw [h2]
  rfl

theorem Lexer.peek_some {lx : Lexer} {item : LexItem} {lx' : Lexer}
    (h : lx.peek = (some item, lx')) :
    lx'.lookahead = some item ∧ lexMeasure lx' ≤ lexMeasure lx ∧
    2 * lx'.rest.length < lexMeasure lx := by
  unfold Lexer.peek at h
  cases hla : lx.lookahead with
  | some it =>
    rw [hla] at h
    simp only [] at h
    cases h
    refine ⟨hla, le_refl _, ?_⟩
    unfold lexMeasure
    rw [hla]
    simp
  | none =>
    rw [hla] at h
    simp only [] at h
    cases hadv : lx.advance with
    | mk res st =>
      rw [hadv] at h
      simp only [] at h
      cases h
      have hm := @Lexer.advance_measure lx item st (by rw [hadv])
      have hb := lexMeasure_bounds st
      refine ⟨rfl, ?_, ?_⟩
      · show 2 * st.rest.length + 1 ≤ lexMeasure lx
        omega
      · show 2 * st.rest.length < lexMeasure lx
        omega

theorem Lexer.peek_none {lx : Lexer} {lx' : Lexer}
    (h : lx.peek = (none, lx')) :
    lx'.lookahead = none ∧ lx'.rest = [] ∧ lexMeasure lx' ≤ lexMeasure lx := by
  unfold Lexer.peek at h
  cases hla : lx.lookahead with
  | some it =>
    rw [hla] at h
    simp only [] at h
    cases h
  | none =>
    rw [hla] at h
    simp only [] at h
    cases hadv : lx.advance with
    | mk res st =>
      rw [hadv] at h
      simp only [] at h
      cases h
      obtain ⟨hl, hr⟩ := Lexer.advance_none (by rw [hadv])
      exact ⟨rfl, hr, by unfold lexMeasure; rw [hr]; simp⟩

/-- After draining lexical errors the lexer is either exhausted or has a
token buffered. -/
def goodPeekState (p : Parser) : Prop :=
  (p.lexer.lookahead = none ∧ p.lexer.rest = []) ∨
    ∃ t : Token, p.lexer.lookahead = some (.ok t)

theorem lexErrorLoopF_suff :
    ∀ (fuel : Nat) (p : Parser), pMeasure p < fuel →
      (lexErrorLoopF fuel p).isSome = true := by
  intro fuel
  induction fuel with
  | zero => intro p h; exact absurd h (Nat.not_lt_zero _)
  | succ fuel ih =>
    intro p h
    simp only [lexErrorLoopF]
    cases hpk : p.lexer.peek with
    | mk res lx' =>
      cases res with
      | none => rfl
      | some item =>
        cases item with
        | ok t => rfl
        | err e =>
          obtain ⟨hla, hle, hlt⟩ := Lexer.peek_some hpk
          simp only []
          rw [Lexer.next_of_lookahead hla]
          simp only []
          apply ih
          show lexMeasure { lx' with lookahead := none } < fuel
          have : lexMeasure { lx' with lookahead := none } = 2 * lx'.rest.length := by
            unfold lexMeasure; rfl
          unfold pMeasure at h
          omega

theorem lexErrorLoopF_post :
    ∀ (fuel : Nat) (p p' : Parser), lexErrorLoopF fuel p = some p' →
      pMeasure p' ≤ pMeasure p ∧ p'.indentation = p.indentation ∧
      goodPeekState p' := by
  intro fuel
  induction fuel with
  | zero => intro p p' h; cases h
  | succ fuel ih =>
    intro p p' h
    simp only [lexErrorLoopF] at h
    cases hpk : p.lexer.peek with
    | mk res lx' =>
      rw [hpk] at h
      cases res with
      | none =>
        simp only [] at h
        cases h
        obtain ⟨hla, hre, hle⟩ := Lexer.peek_none hpk
        exact ⟨hle, rfl, Or.inl ⟨hla, hre⟩⟩
      | some item =>
        cases item with
        | ok t =>
          simp only [] at h
          cases h
          obtain ⟨hla, hle, _⟩ := Lexer.peek_some hpk
          exact ⟨hle, rfl, Or.inr ⟨t, hla⟩⟩
        | err e =>
          obtain ⟨hla, hle, hlt⟩ := Lexer.peek_some hpk
          simp only [] at h
          rw [Lexer.next_of_lookahead hla] at h
          simp only [] at h
          obtain ⟨h1, h2, h3⟩ := ih _ _ h
          refine ⟨?_, h2, h3⟩
          have : pMeasure { p with
              lexer := { lx' with lookahead := none }
              errors := p.errors ++ [⟨.lexError e, e.span⟩] }
              = 2 * lx'.rest.length := by
            unfold pMeasure lexMeasure; rfl
          unfold pMeasure at *
          omega

theorem lexErrorLoop_eq (p : Parser) :
    lexErrorLoopF (pMeasure p + 1) p = some p.lexErrorLoop := by
  have h := lexErrorLoopF_suff (pMeasure p + 1) p (Nat.lt_succ_self _)
  cases hx : lexErrorLoopF (pMeasure p + 1) p with
  | none => rw [hx] at h; cases h
  | some q => unfold Parser.lexErrorLoop; rw [hx]; rfl

theorem lexErrorLoop_post (p : Parser) :
    pMeasure p.lexErrorLoop ≤ pMeasure p ∧
    p.lexErrorLoop.indentation = p.indentation ∧
    goodPeekState p.lexErrorLoop :=
  lexErrorLoopF_post _ _ _ (lexErrorLoop_eq p)

theorem lexErrorLoop_of_ok {p : Parser} {t : Token}
    (h : p.lexer.lookahead = some (.ok t)) : p.lexErrorLoop = p := by
  unfold Parser.lexErrorLoop
  have hF : lexErrorLoopF (pMeasure p + 1) p = some p := by
    simp only [lexErrorLoopF]
    rw [Lexer.peek_of_lookahead h]
  rw [hF]
  rfl

theorem peekTok_none {p p' : Parser} (h : p.peekTok = (none, p')) :
    pMeasure p' ≤ pMeasure p ∧ p'.indentation = p.indentation ∧
    p'.lexer.lookahead = none ∧ p'.lexer.rest = [] := by
  unfold Parser.peekTok at h
  simp only [] at h
  obtain ⟨hm1, hi1, hg⟩ := lexErrorLoop_post p
  rcases hg with ⟨hla, hre⟩ | ⟨t, hla⟩
  · rw [Lexer.peek_exhausted hla hre] at h
    simp only [] at h
    cases h
    refine ⟨?_, hi1, rfl, hre⟩
    have h2 : lexMeasure { p.lexErrorLoop.lexer with lookahead := none }
        = 2 * p.lexErrorLoop.lexer.rest.length := by
      unfold lexMeasure; rfl
    show lexMeasure { p.lexErrorLoop.lexer with lookahead := none } ≤ pMeasure p
    rw [h2]
    have hb := lexMeasure_bounds p.lexErrorLoop.lexer
    unfold pMeasure at hm1
    unfold pMeasure
    omega
  · rw [Lexer.peek_of_lookahead hla] at h
    simp only [] at h
    cases h

theorem peekTok_some {p : Parser} {t : Token} {p' : Parser}
    (h : p.peekTok = (some t, p')) :
    pMeasure p' ≤ pMeasure p ∧ p'.indentation = p.indentation ∧
    p'.lexer.lookahead = some (.ok t) := by
  unfold Parser.peekTok at h
  simp only [] at h
  obtain ⟨hm1, hi1, hg⟩ := lexErrorLoop_post p
  rcases hg with ⟨hla, hre⟩ | ⟨t0, hla⟩
  · rw [Lexer.peek_exhausted hla hre] at h
    simp only [] at h
    cases h
  · rw [Lexer.peek_of_lookahead hla] at h
    simp only [] at h
    cases h
    exact ⟨hm1, hi1, hla⟩

theorem advanceTok_of_ok {p : Parser} {t : Token}
    (h : p.lexer.lookahead = some (.ok t)) :
    p.advanceTok = (some t, { p with lexer := { p.lexer with lookahead := none } }) := by
  unfold Parser.advanceTok
  simp only []
  rw [lexErrorLoop_of_ok h, Lexer.next_of_lookahead h]

theorem pMeasure_pop {p : Parser} {item : LexItem}
    (h : p.lexer.lookahead = some item) :
    pMeasure { p with lexer := { p.lexer with lookahead := none } } + 1
      = pMeasure p := by
  unfold pMeasure lexMeasure
  rw [h]
  simp

theorem pMeasure_indent (p : Parser) (n : Nat) :
    pMeasure { p with indentation := n } = pMeasure p := rfl

theorem pMeasure_mk (lx : Lexer) (e : List ParseError) (i : Nat) :
    pMeasure ⟨lx, e, i⟩ = lexMeasure lx := rfl

theorem peekTok_of_ok {p : Parser} {t : Token}
    (h : p.lexer.lookahead = some (.ok t)) : p.peekTok = (some t, p) := by
  unfold Parser.peekTok
  simp only []
  rw [lexErrorLoop_of_ok h, Lexer.peek_of_lookahead h]

/-- Stop states of the `indentation()` loop: end of input or a buffered
`Symbol` token. -/
def goodStop (p : Parser) : Prop :=
  (p.lexer.lookahead = none ∧ p.lexer.rest = []) ∨
    ∃ t : Token, p.lexer.lookahead = some (.ok t) ∧ t.kind = .symbol

theorem indentationLoopF_suff :
    ∀ (fuel : Nat) (p : Parser), pMeasure p < fuel →
      (indentationLoopF fuel p).isSome = true := by
  intro fuel
  induction fuel with
  | zero => intro p h; exact absurd h (Nat.not_lt_zero _)
  | succ fuel ih =>
    intro p h
    simp only [indentationLoopF]
    cases hpk : p.peekTok with
    | mk res p' =>
      cases res with
      | none => rfl
      | some t =>
        obtain ⟨hm, hi, hla⟩ := peekTok_some hpk
        simp only []
        cases hk : t.kind
        · rfl
        · rw [advanceTok_of_ok hla]
          simp only []
          apply ih
          have hp := pMeasure_pop (p := p') hla
          unfold pMeasure at *
          simp only [] at *
          omega
        · rw [advanceTok_of_ok hla]
          simp only []
          apply ih
          have hp := pMeasure_pop (p := p') hla
          unfold pMeasure at *
          simp only [] at *
          omega

theorem indentationLoopF_post :
    ∀ (fuel : Nat) (p p' : Parser), indentationLoopF fuel p = some p' →
      pMeasure p' ≤ pMeasure p ∧ goodStop p' := by
  intro fuel
  induction fuel with
  | zero => intro p p' h; cases h
  | succ fuel ih =>
    intro p p' h
    simp only [indentationLoopF] at h
    cases hpk : p.peekTok with
    | mk res q =>
      rw [hpk] at h
      cases res with
      | none =>
        simp only [] at h
        cases h
        obtain ⟨hm, _, hla, hre⟩ := peekTok_none hpk
        exact ⟨hm, Or.inl ⟨hla, hre⟩⟩
      | some t =>
        obtain ⟨hm, hi, hla⟩ := peekTok_some hpk
        simp only [] at h
        cases hk : t.kind <;> rw [hk] at h <;> simp only [] at h
        · cases h
          exact ⟨hm, Or.inr ⟨t, hla, hk⟩⟩
        · rw [advanceTok_of_ok hla] at h
          simp only [] at h
          obtain ⟨h1, h2⟩ := ih _ _ h
          refine ⟨?_, h2⟩
          have hp := pMeasure_pop (p := q) hla
          unfold pMeasure at *
          simp only [] at *
          omega
        · rw [advanceTok_of_ok hla] at h
          simp only [] at h
          obtain ⟨h1, h2⟩ := ih _ _ h
          refine ⟨?_, h2⟩
          have hp := pMeasure_pop (p := q) hla
          unfold pMeasure at *
          simp only [] at *
          omega

theorem indentationLoop_eq (p : Parser) :
    indentationLoopF (pMeasure p + 1) p = some p.indentationLoop := by
  have h := indentationLoopF_suff (pMeasure p + 1) p (Nat.lt_succ_self _)
  cases hx : indentationLoopF (pMeasure p + 1) p with
  | none => rw [hx] at h; cases h
  | some q => unfold Parser.indentationLoop; rw [hx]; rfl

theorem indentationLoop_post (p : Parser) :
    pMeasure p.indentationLoop ≤ pMeasure p ∧ goodStop p.indentationLoop :=
  indentationLoopF_post _ _ _ (indentationLoop_eq p)

theorem symbolsLoopF_suff :
    ∀ (fuel : Nat) (p : Parser) (acc : List Token), pMeasure p < fuel →
      (symbolsLoopF fuel p acc).isSome = true := by
  intro fuel
  induction fuel with
  | zero => intro p acc h; exact absurd h (Nat.not_lt_zero _)
  | succ fuel ih =>
    intro p acc h
    simp only [symbolsLoopF]
    cases hpk : p.peekTok with
    | mk res p' =>
      cases res with
      | none => rfl
      | some t =>
        obtain ⟨hm, hi, hla⟩ := peekTok_some hpk
        simp only []
        by_cases hk : t.kind = .symbol
        · rw [if_pos hk, advanceTok_of_ok hla]
          simp only []
          apply ih
          have hp := pMeasure_pop (p := p') hla
          unfold pMeasure at *
          simp only [] at *
          omega
        · rw [if_neg hk]
          rfl

theorem symbolsLoopF_post :
    ∀ (fuel : Nat) (p : Parser) (acc : List Token) (tokens : List Token) (p' : Parser),
      symbolsLoopF fuel p acc = some (tokens, p') → pMeasure p' ≤ pMeasure p := by
  intro fuel
  induction fuel with
  | zero => intro p acc tokens p' h; cases h
  | succ fuel ih =>
    intro p acc tokens p' h
    simp only [symbolsLoopF] at h
    cases hpk : p.peekTok with
    | mk res q =>
      rw [hpk] at h
      cases res with
      | none =>
        simp only [] at h
        cases h
        exact (peekTok_none hpk).1
      | some t =>
        obtain ⟨hm, hi, hla⟩ := peekTok_some hpk
        simp only [] at h
        by_cases hk : t.kind = .symbol
        · rw [if_pos hk, advanceTok_of_ok hla] at h
          simp only [] at h
          have h1 := ih _ _ _ _ h
          have hp := pMeasure_pop (p := q) hla
          unfold pMeasure at *
          simp only [] at *
          omega
        · rw [if_neg hk] at h
          cases h
          exact hm

theorem symbolsRun_eq (p : Parser) :
    symbolsLoopF (pMeasure p + 1) p [] = some p.symbolsRun := by
  have h := symbolsLoopF_suff (pMeasure p + 1) p [] (Nat.lt_succ_self _)
  cases hx : symbolsLoopF (pMeasure p + 1) p [] with
  | none => rw [hx] at h; cases h
  | some r => unfold Parser.symbolsRun; rw [hx]; rfl

theorem symbolsRun_post (p : Parser) : pMeasure (p.symbolsRun).2 ≤ pMeasure p := by
  have h := symbolsRun_eq p
  exact symbolsLoopF_post _ _ _ _ _ (by rw [h])

/-- Entering `node()` with a buffered token, the leading
`indentation()`-and-symbols phase consumes at least one token. -/
theorem front_lt {p : Parser} {t : Token}
    (h : p.lexer.lookahead = some (.ok t)) :
    pMeasure (p.indentationLoop.symbolsRun).2 < pMeasure p := by
  have hpk := peekTok_of_ok h
  have hadv := advanceTok_of_ok h
  have hμ := pMeasure_pop (p := p) h
  cases hk : t.kind
  · -- Symbol: the indentation loop is the identity, the symbol loop pops
    have hid : p.indentationLoop = p := by
      unfold Parser.indentationLoop
      have hF : indentationLoopF (pMeasure p + 1) p = some p := by
        simp only [indentationLoopF]
        rw [hpk]
        simp only []
        rw [hk]
      rw [hF]
      rfl
    rw [hid]
    have hstep : symbolsLoopF (pMeasure p + 1) p []
        = symbolsLoopF (pMeasure p)
            { p with lexer := { p.lexer with lookahead := none } } ([] ++ [t]) := by
      simp only [symbolsLoopF]
      rw [hpk]
      simp only []
      rw [if_pos hk, hadv]
    have hsuf := symbolsLoopF_suff (pMeasure p)
      { p with lexer := { p.lexer with lookahead := none } } ([] ++ [t])
      (by unfold pMeasure at hμ ⊢; simp only [] at hμ ⊢; omega)
    cases hx : symbolsLoopF (pMeasure p)
        { p with lexer := { p.lexer with lookahead := none } } ([] ++ [t]) with
    | none => rw [hx] at hsuf; cases hsuf
    | some r =>
      have hrun : p.symbolsRun = r := by
        unfold Parser.symbolsRun
        rw [hstep, hx]
        rfl
      rw [hrun]
      cases r with
      | mk tokens q =>
        have hpost := symbolsLoopF_post _ _ _ _ _ hx
        unfold pMeasure at *
        simp only [] at *
        omega
  · -- Indent: the indentation loop pops at least this token
    have hstep : indentationLoopF (pMeasure p + 1) p
        = indentationLoopF (pMeasure p)
            { { p with lexer := { p.lexer with lookahead := none } } with
              indentation :=
                ({ p with lexer := { p.lexer with lookahead := none } } : Parser).indentation
                  + 1 } := by
      simp only [indentationLoopF]
      rw [hpk]
      simp only []
      rw [hk]
      simp only []
      rw [hadv]
    have hsuf := indentationLoopF_suff (pMeasure p)
      { { p with lexer := { p.lexer with lookahead := none } } with
        indentation :=
          ({ p with lexer := { p.lexer with lookahead := none } } : Parser).indentation
            + 1 } (by unfold pMeasure at hμ ⊢; simp only [] at hμ ⊢; omega)
    cases hx : indentationLoopF (pMeasure p)
        { { p with lexer := { p.lexer with lookahead := none } } with
          indentation :=
            ({ p with lexer := { p.lexer with lookahead := none } } : Parser).indentation
              + 1 } with
    | none => rw [hx] at hsuf; cases hsuf
    | some q =>
      have hloop : p.indentationLoop = q := by
        unfold Parser.indentationLoop
        rw [hstep, hx]
        rfl
      rw [hloop]
      have h1 := (indentationLoopF_post _ _ _ hx).1
      have h2 := symbolsRun_post q
      unfold pMeasure at *
      simp only [] at *
      omega
  · -- Newline: same as Indent, with the counter reset
    have hstep : indentationLoopF (pMeasure p + 1) p
        = indentationLoopF (pMeasure p)
            { { p with lexer := { p.lexer with lookahead := none } } with
              indentation := 0 } := by
      simp only [indentationLoopF]
      rw [hpk]
      simp only []
      rw [hk]
      simp only []
      rw [hadv]
    have hsuf := indentationLoopF_suff (pMeasure p)
      { { p with lexer := { p.lexer with lookahead := none } } with
        indentation := 0 } (by unfold pMeasure at hμ ⊢; simp only [] at hμ ⊢; omega)
    cases hx : indentationLoopF (pMeasure p)
        { { p with lexer := { p.lexer with lookahead := none } } with
          indentation := 0 } with
    | none => rw [hx] at hsuf; cases hsuf
    | some q =>
      have hloop : p.indentationLoop = q := by
        unfold Parser.indentationLoop
        rw [hstep, hx]
        rfl
      rw [hloop]
      have h1 := (indentationLoopF_post _ _ _ hx).1
      have h2 := symbolsRun_post q
      unfold pMeasure at *
      simp only [] at *
      omega

/-- A lexer holding a buffered token has strictly positive measure. -/
theorem pMeasure_pos_of_lookahead {p : Parser} {item : LexItem}
    (h : p.lexer.lookahead = some item) : 1 ≤ pMeasure p := by
  unfold pMeasure lexMeasure
  rw [h]
  simp only []
  omega

/-- The children loop of `node()` terminates and does not increase the
measure, assuming the recursive `node` calls do so at fuel `g`. -/
theorem childrenLoopGo_suff (g : Nat)
    (Hnode : ∀ (p : Parser) (data : Data) (t : Token),
      p.lexer.lookahead = some (.ok t) → pMeasure p ≤ g →
      ∃ r : NodeIndex × Parser × Data,
        nodeF g p data = some r ∧ pMeasure r.2.1 < pMeasure p) :
    ∀ (gofuel ci : Nat) (q : Parser) (data : Data) (acc : List NodeIndex),
      pMeasure q < gofuel → pMeasure q ≤ g →
      ∃ r : List NodeIndex × Parser × Data,
        childrenLoopGo (nodeF g) gofuel ci q data acc = some r ∧
          pMeasure r.2.1 ≤ pMeasure q := by
  intro gofuel
  induction gofuel with
  | zero => intro ci q data acc h1 h2; exact absurd h1 (Nat.not_lt_zero _)
  | succ gofuel ih =>
    intro ci q data acc h1 h2
    cases hpk : q.peekTok with
    | mk res q0 =>
      cases res with
      | none =>
        refine ⟨(acc, q0, data), ?_, (peekTok_none hpk).1⟩
        simp only [childrenLoopGo]
        rw [hpk]
      | some t =>
        obtain ⟨hm, hi, hla⟩ := peekTok_some hpk
        by_cases hci : ci < q0.indentation
        · obtain ⟨⟨n, q1, data1⟩, hnode, hlt⟩ :=
            Hnode q0 data t hla (le_trans hm h2)
          simp only [] at hlt
          have hp3 := (indentationLoop_post q1).1
          obtain ⟨r, hrec, hr⟩ :=
            ih ci q1.indentationLoop data1 (acc ++ [n])
              (by omega) (by omega)
          refine ⟨r, ?_, by omega⟩
          simp only [childrenLoopGo]
          rw [hpk]
          simp only []
          rw [if_pos hci, hnode]
          simp only []
          exact hrec
        · refine ⟨(acc, q0, data), ?_, hm⟩
          simp only [childrenLoopGo]
          rw [hpk]
          simp only []
          rw [if_neg hci]

/-- Unfolding equation for `nodeF` at positive fuel, with the
intermediate `let`s expanded. -/
theorem nodeF_succ (g : Nat) (p : Parser) (data : Data) :
    nodeF (g + 1) p data =
      match childrenLoopGo (nodeF g) (g + 1) p.indentationLoop.indentation
          (p.indentationLoop.symbolsRun).2.indentationLoop data [] with
      | none => none
      | some (children, p4, data1) =>
          if children ≠ [] then
            some ((data1.insert_node
                (.parent (p.indentationLoop.symbolsRun).1 children)).2, p4,
              (data1.insert_node
                (.parent (p.indentationLoop.symbolsRun).1 children)).1)
          else
            some ((data1.insert_node
                (.some (p.indentationLoop.symbolsRun).1)).2, p4,
              (data1.insert_node
                (.some (p.indentationLoop.symbolsRun).1)).1) := rfl

/-- `node()` terminates at any fuel at least the entry measure, given a
buffered token, and strictly decreases the measure. -/
theorem nodeF_suff :
    ∀ (fuel : Nat) (p : Parser) (data : Data) (t : Token),
      p.lexer.lookahead = some (.ok t) → pMeasure p ≤ fuel →
      ∃ r : NodeIndex × Parser × Data,
        nodeF fuel p data = some r ∧ pMeasure r.2.1 < pMeasure p := by
  intro fuel
  induction fuel with
  | zero =>
    intro p data t hla h
    have := pMeasure_pos_of_lookahead hla
    omega
  | succ g ih =>
    intro p data t hla h
    have hfr := front_lt hla
    have hp3 := (indentationLoop_post (p.indentationLoop.symbolsRun).2).1
    obtain ⟨⟨children, p4, data1⟩, hgo, hr⟩ :=
      childrenLoopGo_suff g ih (g + 1) p.indentationLoop.indentation
        (p.indentationLoop.symbolsRun).2.indentationLoop data []
        (by omega) (by omega)
    simp only [] at hr
    have heq := nodeF_succ g p data
    rw [hgo] at heq
    simp only [] at heq
    by_cases hc : children = []
    · rw [if_neg (fun hne => hne hc)] at heq
      exact ⟨_, heq, by simp only []; omega⟩
    · rw [if_pos hc] at heq
      exact ⟨_, heq, by simp only []; omega⟩

/-- `parse()` terminates at any fuel exceeding the entry measure. -/
theorem parseF_suff :
    ∀ (fuel : Nat) (p : Parser) (data : Data), pMeasure p < fuel →
      (parseF fuel p data).isSome = true := by
  intro fuel
  induction fuel with
  | zero => intro p data h; exact absurd h (Nat.not_lt_zero _)
  | succ g ih =>
    intro p data h
    simp only [parseF]
    cases hpk : p.peekTok with
    | mk res p0 =>
      cases res with
      | none => rfl
      | some t =>
        obtain ⟨hm, hi, hla⟩ := peekTok_some hpk
        simp only []
        obtain ⟨⟨n, p1, data1⟩, hnode, hlt⟩ :=
          nodeF_suff g p0 data t hla (by omega)
        simp only [] at hlt
        rw [hnode]
        simp only []
        apply ih
        omega

/-- C7: for every finite source text (indeed from every parser state),
`Parser::parse` terminates: the fueled mutual recursion between `parse`,
`node` and `indentation` completes within the canonical fuel
`pMeasure p + 1`, because each `node()` call consumes at least one token
before recursing, so `Parser.parse` is the value of a finished run. -/
theorem parser_parse_terminates (p : Parser) (data : Data) :
    ∃ r : Parser × Data,
      parseF (pMeasure p + 1) p data = some r ∧ p.parse data = r := by
  have h := parseF_suff (pMeasure p + 1) p data (Nat.lt_succ_self _)
  cases hx : parseF (pMeasure p + 1) p data with
  | none => rw [hx] at h; cases h
  | some r =>
    refine ⟨r, rfl, ?_⟩
    unfold Parser.parse
    rw [hx]
    rfl

/-! ## Writer (src/data.rs, `Data::write` / `write_recursive`) -/

/-- One written token: its lexeme quoted with double quotes, with
backticks when the lexeme contains a double quote, bare when it contains
both, plus the separating space unless this is the node's last token.
A token whose lexeme does not resolve or is empty is skipped. -/
def writeOneTok (src : List Char) (t : Token) (is_last : Bool) : List Char :=
  match sliceBytes src t.span.start t.span.stop with
  | Option.none => []
  | Option.some lex =>
      if lex = [] then []
      else
        (if '"' ∉ lex then '"' :: lex ++ ['"']
         else if '`' ∉ lex then '`' :: lex ++ ['`']
         else lex) ++ (if is_last then [] else [' '])

/-- The token loop of `write_recursive` (the `i < tokens.len() - 1` test
holds exactly off the last position). -/
def writeToks (src : List Char) : List Token → List Char
  | [] => []
  | [t] => writeOneTok src t true
  | t :: t2 :: ts => writeOneTok src t false ++ writeToks src (t2 :: ts)

/-- `"\t".repeat n`. -/
def tabs (n : Nat) : List Char := List.replicate n '\t'

/-- The child loop of `write_recursive`, abstracted over the recursive
call so that the writer below is structural recursion on fuel. -/
def writeChildrenGo
    (wr : SourceIndex → NodeIndex → Nat → List Char →
      List (SourceIndex × NodeIndex) →
      Option (List Char × List (SourceIndex × NodeIndex))) :
    SourceIndex → List NodeIndex → Nat → List Char →
      List (SourceIndex × NodeIndex) →
      Option (List Char × List (SourceIndex × NodeIndex))
  | _, [], _, out, visited => Option.some (out, visited)
  | si, c :: cs, ind, out, visited =>
      match wr si c ind (out ++ '\n' :: tabs ind) visited with
      | Option.none => Option.none
      | Option.some (out', visited') =>
          writeChildrenGo wr si cs ind out' visited'

/-- `Data::write_recursive`, fueled; the `infinity_prevention` `HashSet`
of already-written pairs is modelled as a list. -/
def writeRecF (data : Data) :
    Nat → SourceIndex → NodeIndex → Nat → List Char →
      List (SourceIndex × NodeIndex) →
      Option (List Char × List (SourceIndex × NodeIndex))
  | 0, _, _, _, _, _ => Option.none
  | fuel + 1, si, n, ind, out, visited =>
      if (si, n) ∈ visited then Option.some (out, visited)
      else
        let visited1 := visited ++ [(si, n)]
        match data.get_node n with
        | Option.some Node.error => Option.some (out, visited1)
        | _ =>
            match data.get_tokens n with
            | Option.none => Option.some (out, visited1)
            | Option.some tokens =>
                let src := (data.get_source si).getD []
                let out1 := out ++ writeToks src tokens
                match data.get_children n with
                | Option.some children =>
                    if children ≠ [] then
                      writeChildrenGo (writeRecF data fuel) si children
                        (ind + 1) out1 visited1
                    else Option.some (out1, visited1)
                | Option.none => Option.some (out1, visited1)

/-- `Data::write`: `write_recursive` from an empty visited set; the fuel
`data.nodes.arena.length + 2` always suffices because every productive
recursive call visits a distinct live node index. -/
def Data.write (data : Data) (si : SourceIndex) (n : NodeIndex)
    (ind : Nat) : Option (List Char) :=
  (writeRecF data (data.nodes.arena.length + 2) si n ind [] []).map Prod.fst

/-! ## Abstract node trees and the round-trip property (C5) -/

/-- Abstract view of a node tree: the lexeme texts of the node's tokens
and the children, parent/child shape only. -/
inductive STree where
  | node (lexs : List (List Char)) (children : List STree)

mutual

/-- `Represents data si n t L`: node `n` of `data` realises the abstract
tree `t` over source `si`, and `L` lists the visited node indices in
preorder.  A `Parent` with no children and a leaf both realise a node
with no children. -/
inductive Represents (data : Data) (si : SourceIndex) :
    NodeIndex → STree → List NodeIndex → Prop where
  | leaf {n : NodeIndex} {toks : List Token} {lexs : List (List Char)}
      (hn : data.get_node n = Option.some (Node.some toks))
      (hlex : List.Forall₂
        (fun tok lex => data.get_lexeme si tok = Option.some lex) toks lexs) :
      Represents data si n (.node lexs []) [n]
  | parent {n : NodeIndex} {toks : List Token} {cs : List NodeIndex}
      {lexs : List (List Char)} {ts : List STree} {Ls : List (List NodeIndex)}
      (hn : data.get_node n = Option.some (Node.parent toks cs))
      (hlex : List.Forall₂
        (fun tok lex => data.get_lexeme si tok = Option.some lex) toks lexs)
      (hch : RepForest data si cs ts Ls) :
      Represents data si n (.node lexs ts) (n :: Ls.join)

/-- The forest form of `Represents`: children, abstract trees and their
preorder index lists in lockstep. -/
inductive RepForest (data : Data) (si : SourceIndex) :
    List NodeIndex → List STree → List (List NodeIndex) → Prop where
  | nil : RepForest data si [] [] []
  | cons {c : NodeIndex} {t : STree} {L : List NodeIndex}
      {cs : List NodeIndex} {ts : List STree} {Ls : List (List NodeIndex)}
      (h : Represents data si c t L) (hs : RepForest data si cs ts Ls) :
      RepForest data si (c :: cs) (t :: ts) (L :: Ls)

end

/-- A lexeme the writer quotes and the lexer rescans intact: nonempty,
newline-free, and not containing both kinds of quote. -/
def cleanLex (l : List Char) : Prop :=
  l ≠ [] ∧ '\n' ∉ l ∧ ('"' ∉ l ∨ '`' ∉ l)

mutual

/-- Every node of the tree carries at least one token, all with clean
lexemes. -/
inductive CleanT : STree → Prop where
  | mk {lexs : List (List Char)} {ts : List STree}
      (hne : lexs ≠ [])
      (hcl : ∀ l ∈ lexs, cleanLex l)
      (hch : CleanF ts) :
      CleanT (.node lexs ts)

/-- `CleanT` on every tree of a forest. -/
inductive CleanF : List STree → Prop where
  | nil : CleanF []
  | cons {t : STree} {ts : List STree}
      (h : CleanT t) (hs : CleanF ts) : CleanF (t :: ts)

end

/-- `quoteLex l`: how the writer quotes a clean lexeme. -/
def quoteLex (l : List Char) : List Char :=
  if '"' ∈ l then '`' :: l ++ ['`'] else '"' :: l ++ ['"']

/-- The written text of a line's lexemes after the first: each preceded
by the separating space. -/
def renderRestLine : List (List Char) → List Char
  | [] => []
  | l :: ls => ' ' :: quoteLex l ++ renderRestLine ls

/-- The written text of one node's line of lexemes. -/
def renderLine : List (List Char) → List Char
  | [] => []
  | l :: ls => quoteLex l ++ renderRestLine ls

mutual

/-- The text `write_recursive` emits for a subtree written at indentation
`d`: the node's own line (unindented, the caller indents), then each
child block on a new line behind `d + 1` tabs. -/
def blockText : Nat → STree → List Char
  | d, .node lexs ts => renderLine lexs ++ blockChildren (d + 1) ts

/-- The text of a forest of child blocks at indentation `d`. -/
def blockChildren : Nat → List STree → List Char
  | _, [] => []
  | d, t :: ts => '\n' :: (tabs d ++ blockText d t) ++ blockChildren d ts

end

/-- C5 fails as stated: a tree that consists of one leaf node with an
empty token list — built with `insert_node` over a single source — is a
genuine one-node tree (third conjunct), yet `write` serialises it to the
empty string (first conjunct), and lexing and parsing the empty string
registers no root node at all (second conjunct), so no tree isomorphic to
the original arises from the round trip. -/
theorem data_write_roundtrip_counterexample :
    (((Data.default.insert_source ['x']).1.insert_node (Node.some [])).1.write
        (Data.default.insert_source ['x']).2
        ((Data.default.insert_source ['x']).1.insert_node (Node.some [])).2 0
      = Option.some []) ∧
    ((Parser.init (Data.default.insert_source []).2 []).parse
        (Data.default.insert_source []).1).2.root_nodes = [] ∧
    (((Data.default.insert_source ['x']).1.insert_node (Node.some [])).1.get_node
        ((Data.default.insert_source ['x']).1.insert_node (Node.some [])).2
      = Option.some (Node.some [])) := by
  decide

/-! ### Lexing the written text: single-step advance lemmas -/

theorem sliceBytes_middle (a b c : List Char) :
    sliceBytes (a ++ b ++ c) (utf8Len a) (utf8Len a + utf8Len b) = some b := by
  unfold sliceBytes
  rw [if_pos (Nat.le_add_right _ _), List.append_assoc, dropBytes_append_self]
  simp only [Option.some_bind, Nat.add_sub_cancel_left]
  exact takeBytes_append_self b c

/-- `scanQuoted` runs to the closing quote when the body has no newline
and no quote of the scanned kind. -/
theorem scanQuoted_run (q : Char) :
    ∀ (lex tail : List Char), '\n' ∉ lex → q ∉ lex →
      scanQuoted q (lex ++ q :: tail) = (utf8Len lex, q :: tail) := by
  intro lex
  induction lex with
  | nil =>
    intro tail h1 h2
    rw [List.nil_append, utf8Len_nil]
    unfold scanQuoted
    rw [if_pos (by simp)]
  | cons c lex ih =>
    intro tail hn hq
    have hc1 : c ≠ '\n' := fun h => hn (h ▸ List.mem_cons_self c lex)
    have hc2 : c ≠ q := fun h => hq (h ▸ List.mem_cons_self c lex)
    rw [List.cons_append]
    unfold scanQuoted
    rw [if_neg (by simp [hc1, hc2])]
    simp only []
    rw [ih tail (fun h => hn (List.mem_cons_of_mem _ h))
      (fun h => hq (List.mem_cons_of_mem _ h)), utf8Len_cons]

/-- `advance` on an exhausted lexer yields no item and leaves the state. -/
theorem advance_exhausted (si : SourceIndex) (nl : Bool) (sp : IndentKind)
    (off : Nat) :
    Lexer.advance ⟨si, none, nl, off, [], sp⟩ =
      (none, ⟨si, none, nl, off, [], sp⟩) := rfl

/-- `advance` at a newline emits the `Newline` token and marks the line
start. -/
theorem advance_newline (si : SourceIndex) (nl : Bool) (sp : IndentKind)
    (off : Nat) (tail : List Char) :
    Lexer.advance ⟨si, none, nl, off, '\n' :: tail, sp⟩ =
      (some (.ok ⟨.newline, ⟨off, off + 1⟩⟩),
        ⟨si, none, true, off + 1, tail, sp⟩) := by
  show advanceLoop si nl sp off ('\n' :: tail) = _
  have hF : advanceLoopF si (('\n' :: tail).length + 1) nl sp off ('\n' :: tail)
      = some (some (.ok ⟨.newline, ⟨off, off + 1⟩⟩),
          ⟨si, none, true, off + 1, tail, sp⟩) := by
    simp only [advanceLoopF]
    rw [if_pos (by decide)]
    simp [(by decide : lenUtf8 '\n' = 1)]
  exact Option.some.inj ((advanceLoop_spec si nl sp off ('\n' :: tail)).symm.trans hF)

/-- `advance` on an inline space (not at line start) skips it. -/
theorem advance_space (si : SourceIndex) (sp : IndentKind) (off : Nat)
    (l : List Char) :
    Lexer.advance ⟨si, none, false, off, ' ' :: l, sp⟩ =
      advanceLoop si false sp (off + 1) l := by
  show advanceLoop si false sp off (' ' :: l) = _
  have hF : advanceLoopF si ((' ' :: l).length + 1) false sp off (' ' :: l)
      = some (advanceLoop si false sp (off + 1) l) := by
    simp only [advanceLoopF]
    rw [if_neg (by decide), if_neg (by simp), if_neg (by simp),
      if_pos (by decide)]
    rw [List.length_cons, (by decide : lenUtf8 ' ' = 1)]
    exact advanceLoop_spec si false sp (off + 1) l
  exact Option.some.inj ((advanceLoop_spec si false sp off (' ' :: l)).symm.trans hF)

/-- `advance` on a tab at line start emits an `Indent` token; from the
`unknown` or `tab` indentation kinds the state moves to (or stays at)
`tab` with no error. -/
theorem advance_tab (si : SourceIndex) (sp : IndentKind) (off : Nat)
    (tail : List Char) (hsp : sp = .unknown ∨ sp = .tab) :
    Lexer.advance ⟨si, none, true, off, '\t' :: tail, sp⟩ =
      (some (.ok ⟨.indent, ⟨off, off + 1⟩⟩),
        ⟨si, none, true, off + 1, tail, .tab⟩) := by
  show advanceLoop si true sp off ('\t' :: tail) = _
  have hF : advanceLoopF si (('\t' :: tail).length + 1) true sp off ('\t' :: tail)
      = some (some (.ok ⟨.indent, ⟨off, off + 1⟩⟩),
          ⟨si, none, true, off + 1, tail, .tab⟩) := by
    simp only [advanceLoopF]
    rw [if_neg (by decide), if_neg (by simp), if_pos (by simp)]
    rcases hsp with rfl | rfl <;>
      simp [(by decide : lenUtf8 '\t' = 1)]
  exact Option.some.inj
    ((advanceLoop_spec si true sp off ('\t' :: tail)).symm.trans hF)

/-- `advance` at an opening quote scans the whole quoted lexeme into one
`Symbol` token whose span excludes the quotes. -/
theorem advance_quoted (si : SourceIndex) (nl : Bool) (sp : IndentKind)
    (off : Nat) (q : Char) (lex tail : List Char)
    (hq : q = '"' ∨ q = '`') (hnl : '\n' ∉ lex) (hqn : q ∉ lex) :
    Lexer.advance ⟨si, none, nl, off, q :: (lex ++ q :: tail), sp⟩ =
      (some (.ok ⟨.symbol, ⟨off + 1, off + 1 + utf8Len lex⟩⟩),
        ⟨si, none, false, off + 1 + utf8Len lex + 1, tail, sp⟩) := by
  have hscan := scanQuoted_run q lex tail hnl hqn
  show advanceLoop si nl sp off (q :: (lex ++ q :: tail)) = _
  have hF : advanceLoopF si ((q :: (lex ++ q :: tail)).length + 1) nl sp off
      (q :: (lex ++ q :: tail))
      = some (some (.ok ⟨.symbol, ⟨off + 1, off + 1 + utf8Len lex⟩⟩),
          ⟨si, none, false, off + 1 + utf8Len lex + 1, tail, sp⟩) := by
    rcases hq with rfl | rfl <;>
    · simp only [advanceLoopF]
      rw [if_neg (by decide), if_neg (by simp), if_neg (by simp),
        if_neg (by decide), if_neg (by decide), if_pos (by decide)]
      rw [hscan]
      simp [(by decide : lenUtf8 '"' = 1), (by decide : lenUtf8 '`' = 1)]
  exact Option.some.inj
    ((advanceLoop_spec si nl sp off (q :: (lex ++ q :: tail))).symm.trans hF)

/-! ### `peek`-level transitions on clean text -/

/-- `Parser::peek` when the lexer must scan and the scan yields a good
token: no error is drained and the token is buffered. -/
theorem peekTok_advance_ok {p : Parser} {t : Token} {lx' : Lexer}
    (hla : p.lexer.lookahead = none)
    (hadv : p.lexer.advance = (some (.ok t), lx')) :
    p.peekTok = (some t, { p with lexer := { lx' with lookahead := some (.ok t) } }) := by
  have hpk : p.lexer.peek
      = (some (.ok t), { lx' with lookahead := some (.ok t) }) := by
    unfold Lexer.peek
    rw [hla]
    simp only []
    rw [hadv]
  have hloop : p.lexErrorLoop
      = { p with lexer := { lx' with lookahead := some (.ok t) } } := by
    unfold Parser.lexErrorLoop
    have h1 : lexErrorLoopF (pMeasure p + 1) p
        = some { p with lexer := { lx' with lookahead := some (.ok t) } } := by
      simp only [lexErrorLoopF]
      rw [hpk]
    rw [h1]
    rfl
  unfold Parser.peekTok
  simp only []
  rw [hloop, Lexer.peek_of_lookahead rfl]

/-- `Parser::peek` when the lexer must scan and the input is exhausted. -/
theorem peekTok_advance_none {p : Parser} {lx' : Lexer}
    (hla : p.lexer.lookahead = none)
    (hadv : p.lexer.advance = (none, lx')) :
    p.peekTok = (none, { p with lexer := lx' }) := by
  obtain ⟨hla', hre'⟩ := Lexer.advance_none hadv
  have hpk : p.lexer.peek = (none, { lx' with lookahead := none }) := by
    unfold Lexer.peek
    rw [hla]
    simp only []
    rw [hadv]
  have heq : ({ lx' with lookahead := none } : Lexer) = lx' := by
    cases lx'
    simp only [] at hla'
    rw [hla']
  rw [heq] at hpk
  have hloop : p.lexErrorLoop = { p with lexer := lx' } := by
    unfold Parser.lexErrorLoop
    have h1 : lexErrorLoopF (pMeasure p + 1) p = some { p with lexer := lx' } := by
      simp only [lexErrorLoopF]
      rw [hpk]
    rw [h1]
    rfl
  have hpk2 : lx'.peek = (none, lx') := by
    unfold Lexer.peek
    rw [hla']
    simp only []
    have : lx'.advance = (none, lx') := by
      unfold Lexer.advance
      rw [hla']
      simp only []
      cases lx' with
      | mk si la nl off rest sp =>
        simp only [] at hre' hla'
        subst hre' hla'
        rfl
    rw [this]
    simp only []
    rw [heq]
  unfold Parser.peekTok
  simp only []
  rw [hloop, hpk2]

/-! ### The written line and its token stream -/

/-- Spans of the `Symbol` tokens the lexer makes of a written rest-of-line
(each lexeme preceded by one space and one opening quote). -/
def lineToks (off : Nat) : List (List Char) → List Token
  | [] => []
  | l :: ls => ⟨.symbol, ⟨off + 1 + 1, off + 1 + 1 + utf8Len l⟩⟩ ::
      lineToks (off + 1 + 1 + utf8Len l + 1) ls

theorem utf8Len_quoteLex (l : List Char) :
    utf8Len (quoteLex l) = utf8Len l + 2 := by
  unfold quoteLex
  split_ifs
  · simp only [utf8Len_append, utf8Len_cons, utf8Len_nil,
      (by decide : lenUtf8 '`' = 1)]
    omega
  · simp only [utf8Len_append, utf8Len_cons, utf8Len_nil,
      (by decide : lenUtf8 '"' = 1)]
    omega

theorem utf8Len_renderRestLine_cons (l : List Char) (ls : List (List Char)) :
    utf8Len (renderRestLine (l :: ls))
      = 3 + utf8Len l + utf8Len (renderRestLine ls) := by
  simp only [renderRestLine, utf8Len_append, utf8Len_cons, utf8Len_quoteLex,
    (by decide : lenUtf8 ' ' = 1)]
  omega

/-- A clean lexeme laid out in its chosen quotes, with what follows. -/
theorem quoteLex_decomp (l : List Char) (x : List Char) (h : cleanLex l) :
    ∃ q : Char, (q = '"' ∨ q = '`') ∧ '\n' ∉ l ∧ q ∉ l ∧
      quoteLex l ++ x = q :: (l ++ q :: x) := by
  obtain ⟨hne, hnl, hq⟩ := h
  unfold quoteLex
  by_cases hdq : '"' ∈ l
  · refine ⟨'`', Or.inr rfl, hnl, ?_, ?_⟩
    · rcases hq with h | h
      · exact absurd hdq h
      · exact h
    · rw [if_pos hdq]
      simp
  · refine ⟨'"', Or.inl rfl, hnl, hdq, ?_⟩
    rw [if_neg hdq]
    simp

theorem quoteLex_length (l : List Char) :
    (quoteLex l).length = l.length + 2 := by
  unfold quoteLex
  split_ifs <;> simp

theorem renderRestLine_length (l : List Char) (ls : List (List Char)) :
    (renderRestLine (l :: ls)).length
      = l.length + 3 + (renderRestLine ls).length := by
  simp only [renderRestLine, List.length_append, List.length_cons,
    quoteLex_length]

/-- `advanceLoop` is `advance` of the lexer with no buffered item. -/
theorem advance_as_loop (si : SourceIndex) (nl : Bool) (sp : IndentKind)
    (off : Nat) (l : List Char) :
    advanceLoop si nl sp off l = Lexer.advance ⟨si, none, nl, off, l, sp⟩ := rfl

/-- The parser state after scanning past the end of a written line:
either the input is exhausted, or the newline starting the next line has
been peeked and buffered. -/
def lineEnd (si : SourceIndex) (E : List ParseError) (ind : Nat)
    (sp : IndentKind) (offEnd : Nat) : List Char → Parser
  | [] => ⟨⟨si, none, false, offEnd, [], sp⟩, E, ind⟩
  | _ :: tl =>
      ⟨⟨si, some (.ok ⟨.newline, ⟨offEnd, offEnd + 1⟩⟩), true, offEnd + 1, tl, sp⟩,
        E, ind⟩

/-- The `Symbol` loop of `node()` scans a written rest-of-line into one
token per lexeme, with the spans of `lineToks`, and stops at the newline
(buffering it) or at the end of input. -/
theorem symbolsLoopF_line (si : SourceIndex) (E : List ParseError) (ind : Nat)
    (sp : IndentKind) :
    ∀ (ls : List (List Char)) (fuel off : Nat) (acc : List Token)
      (after : List Char),
      (∀ l ∈ ls, cleanLex l) →
      (after = [] ∨ ∃ tl, after = '\n' :: tl) →
      2 * (renderRestLine ls ++ after).length < fuel →
      symbolsLoopF fuel
        ⟨⟨si, none, false, off, renderRestLine ls ++ after, sp⟩, E, ind⟩ acc
        = some (acc ++ lineToks off ls,
            lineEnd si E ind sp (off + utf8Len (renderRestLine ls)) after) := by
  intro ls
  induction ls with
  | nil =>
    intro fuel off acc after hcl hafter hb
    cases fuel with
    | zero => exact absurd hb (Nat.not_lt_zero _)
    | succ f =>
      simp only [symbolsLoopF, renderRestLine, List.nil_append]
      rcases hafter with rfl | ⟨tl, rfl⟩
      · rw [peekTok_advance_none rfl (advance_exhausted si false sp off)]
        simp only [lineToks, lineEnd, List.append_nil]
        rfl
      · rw [peekTok_advance_ok rfl (advance_newline si false sp off tl)]
        simp only []
        rw [if_neg (by decide)]
        simp only [lineToks, lineEnd, List.append_nil]
        rfl
  | cons l ls ih =>
    intro fuel off acc after hcl hafter hb
    obtain ⟨q, hq, hnl, hqn, hdecomp⟩ :=
      quoteLex_decomp l (renderRestLine ls ++ after)
        (hcl l (List.mem_cons_self l ls))
    cases fuel with
    | zero => exact absurd hb (Nat.not_lt_zero _)
    | succ f =>
      have hrest : renderRestLine (l :: ls) ++ after
          = ' ' :: (quoteLex l ++ (renderRestLine ls ++ after)) := by
        simp only [renderRestLine]
        simp [List.append_assoc]
      have hadv : Lexer.advance
          ⟨si, none, false, off, ' ' :: (quoteLex l ++ (renderRestLine ls ++ after)), sp⟩
          = (some (.ok ⟨.symbol, ⟨off + 1 + 1, off + 1 + 1 + utf8Len l⟩⟩),
             ⟨si, none, false, off + 1 + 1 + utf8Len l + 1,
               renderRestLine ls ++ after, sp⟩) := by
        rw [advance_space, hdecomp, advance_as_loop]
        exact advance_quoted si false sp (off + 1) q l
          (renderRestLine ls ++ after) hq hnl hqn
      simp only [symbolsLoopF]
      rw [hrest, peekTok_advance_ok rfl hadv]
      simp only []
      rw [if_pos trivial, advanceTok_of_ok rfl]
      simp only []
      rw [ih f (off + 1 + 1 + utf8Len l + 1)
        (acc ++ [Token.mk TokenKind.symbol
          (Span.mk (off + 1 + 1) (off + 1 + 1 + utf8Len l))]) after
        (fun x hx => hcl x (List.mem_cons_of_mem _ hx)) hafter
        (by
          have hlen := renderRestLine_length l ls
          simp only [List.length_append] at hb ⊢
          omega)]
      have harith : off + 1 + 1 + utf8Len l + 1 + utf8Len (renderRestLine ls)
          = off + utf8Len (renderRestLine (l :: ls)) := by
        rw [utf8Len_renderRestLine_cons]
        omega
      rw [harith]
      simp only [lineToks, List.append_assoc, List.singleton_append]

theorem tabs_succ (k : Nat) : tabs (k + 1) = '\t' :: tabs k := rfl

theorem tabs_length (k : Nat) : (tabs k).length = k := by
  simp [tabs]

/-- The `indentation()` loop from a line start: one `Indent` token per
written tab, stopping at (and buffering) the line's first quoted symbol;
the depth counter advances by the number of tabs. -/
theorem indentationLoopF_tabs (si : SourceIndex) (E : List ParseError) :
    ∀ (k fuel off j : Nat) (sp : IndentKind) (l0 lineRest2 : List Char),
      (sp = .unknown ∨ sp = .tab) → cleanLex l0 →
      2 * (tabs k ++ (quoteLex l0 ++ lineRest2)).length < fuel →
      ∃ sp', (sp' = .unknown ∨ sp' = .tab) ∧
        indentationLoopF fuel
          ⟨⟨si, none, true, off, tabs k ++ (quoteLex l0 ++ lineRest2), sp⟩, E, j⟩
          = some ⟨⟨si,
              some (.ok ⟨.symbol, ⟨off + k + 1, off + k + 1 + utf8Len l0⟩⟩),
              false, off + k + 1 + utf8Len l0 + 1, lineRest2, sp'⟩, E, j + k⟩ := by
  intro k
  induction k with
  | zero =>
    intro fuel off j sp l0 lineRest2 hsp hcl hb
    obtain ⟨q, hq, hnl, hqn, hdecomp⟩ := quoteLex_decomp l0 lineRest2 hcl
    cases fuel with
    | zero => exact absurd hb (Nat.not_lt_zero _)
    | succ f =>
      refine ⟨sp, hsp, ?_⟩
      have hrest : tabs 0 ++ (quoteLex l0 ++ lineRest2)
          = q :: (l0 ++ q :: lineRest2) := by
        rw [show tabs 0 = [] from rfl, List.nil_append, hdecomp]
      have hadv := advance_quoted si true sp off q l0 lineRest2 hq hnl hqn
      simp only [indentationLoopF]
      rw [hrest, peekTok_advance_ok rfl hadv]
      simp only []
      rfl
  | succ k ih =>
    intro fuel off j sp l0 lineRest2 hsp hcl hb
    cases fuel with
    | zero => exact absurd hb (Nat.not_lt_zero _)
    | succ f =>
      have hadv := advance_tab si sp off (tabs k ++ (quoteLex l0 ++ lineRest2)) hsp
      have hrest : tabs (k + 1) ++ (quoteLex l0 ++ lineRest2)
          = '\t' :: (tabs k ++ (quoteLex l0 ++ lineRest2)) := by
        rw [tabs_succ, List.cons_append]
      obtain ⟨sp', hsp', hres⟩ := ih f (off + 1) (j + 1) .tab l0 lineRest2
        (Or.inr rfl) hcl
        (by simp only [List.length_append, tabs_length] at hb ⊢; omega)
      refine ⟨sp', hsp', ?_⟩
      simp only [indentationLoopF]
      rw [hrest, peekTok_advance_ok rfl hadv]
      simp only []
      rw [advanceTok_of_ok rfl]
      simp only []
      rw [hres]
      have e1 : off + 1 + k + 1 = off + (k + 1) + 1 := by omega
      have e2 : j + 1 + k = j + (k + 1) := by omega
      rw [e1, e2]

/-- `indentation()` is the identity on a parser whose buffered token is a
`Symbol`. -/
theorem indentationLoop_buffered_symbol {p : Parser} {t : Token}
    (h : p.lexer.lookahead = some (.ok t)) (hk : t.kind = .symbol) :
    p.indentationLoop = p := by
  unfold Parser.indentationLoop
  have h1 : indentationLoopF (pMeasure p + 1) p = some p := by
    simp only [indentationLoopF]
    rw [peekTok_of_ok h]
    simp only []
    rw [hk]
  rw [h1]
  rfl

/-- `indentation()` is the identity on an exhausted parser state. -/
theorem indentationLoop_exhausted (si : SourceIndex) (E : List ParseError)
    (ind : Nat) (sp : IndentKind) (off : Nat) :
    (⟨⟨si, none, false, off, [], sp⟩, E, ind⟩ : Parser).indentationLoop
      = ⟨⟨si, none, false, off, [], sp⟩, E, ind⟩ := by
  unfold Parser.indentationLoop
  have h1 : indentationLoopF
      (pMeasure ⟨⟨si, none, false, off, [], sp⟩, E, ind⟩ + 1)
      ⟨⟨si, none, false, off, [], sp⟩, E, ind⟩
      = some ⟨⟨si, none, false, off, [], sp⟩, E, ind⟩ := by
    simp only [indentationLoopF]
    rw [peekTok_advance_none rfl (advance_exhausted si false sp off)]
  rw [h1]
  rfl

/-- `indentation()` across a buffered newline onto the next written line:
it resets the depth, counts the line's tabs and buffers its first symbol. -/
theorem indentationLoop_newline (si : SourceIndex) (E : List ParseError)
    (ind : Nat) (sp : IndentKind) (off m : Nat) (l0 r2 : List Char)
    (hsp : sp = .unknown ∨ sp = .tab) (hcl : cleanLex l0) :
    ∃ sp', (sp' = .unknown ∨ sp' = .tab) ∧
      (⟨⟨si, some (.ok ⟨.newline, ⟨off, off + 1⟩⟩), true, off + 1,
          tabs m ++ (quoteLex l0 ++ r2), sp⟩, E, ind⟩ : Parser).indentationLoop
        = ⟨⟨si, some (.ok ⟨.symbol,
              ⟨off + 1 + m + 1, off + 1 + m + 1 + utf8Len l0⟩⟩),
            false, off + 1 + m + 1 + utf8Len l0 + 1, r2, sp'⟩, E, m⟩ := by
  obtain ⟨sp', hsp', hres⟩ := indentationLoopF_tabs si E m
    (pMeasure ⟨⟨si, some (.ok ⟨.newline, ⟨off, off + 1⟩⟩), true, off + 1,
      tabs m ++ (quoteLex l0 ++ r2), sp⟩, E, ind⟩)
    (off + 1) 0 sp l0 r2 hsp hcl
    (by unfold pMeasure lexMeasure; simp only []; omega)
  refine ⟨sp', hsp', ?_⟩
  have hgen : ∀ (F : Nat),
      indentationLoopF F
        ⟨⟨si, none, true, off + 1, tabs m ++ (quoteLex l0 ++ r2), sp⟩, E, 0⟩
        = some ⟨⟨si, some (.ok ⟨.symbol,
            ⟨off + 1 + m + 1, off + 1 + m + 1 + utf8Len l0⟩⟩),
          false, off + 1 + m + 1 + utf8Len l0 + 1, r2, sp'⟩, E, 0 + m⟩ →
      indentationLoopF (F + 1)
        ⟨⟨si, some (.ok ⟨.newline, ⟨off, off + 1⟩⟩), true, off + 1,
          tabs m ++ (quoteLex l0 ++ r2), sp⟩, E, ind⟩
        = some ⟨⟨si, some (.ok ⟨.symbol,
            ⟨off + 1 + m + 1, off + 1 + m + 1 + utf8Len l0⟩⟩),
          false, off + 1 + m + 1 + utf8Len l0 + 1, r2, sp'⟩, E, m⟩ := by
    intro F hF
    simp only [indentationLoopF]
    rw [peekTok_of_ok rfl]
    simp only []
    rw [advanceTok_of_ok rfl]
    simp only []
    rw [hF, Nat.zero_add]
  unfold Parser.indentationLoop
  rw [hgen _ hres]
  rfl

/-- `node()`'s symbol loop on a measured line: collects the buffered
first symbol and one token per further lexeme, ending at the line end. -/
theorem symbolsRun_line (si : SourceIndex) (E : List ParseError) (ind : Nat)
    (sp : IndentKind) (off : Nat) (t0 : Token) (ls : List (List Char))
    (after : List Char) (ht0 : t0.kind = .symbol)
    (hcl : ∀ l ∈ ls, cleanLex l)
    (hafter : after = [] ∨ ∃ tl, after = '\n' :: tl) :
    (⟨⟨si, some (.ok t0), false, off, renderRestLine ls ++ after, sp⟩, E, ind⟩
        : Parser).symbolsRun
      = (t0 :: lineToks off ls,
         lineEnd si E ind sp (off + utf8Len (renderRestLine ls)) after) := by
  have hgen : ∀ (F : Nat), 2 * (renderRestLine ls ++ after).length < F →
      symbolsLoopF (F + 1)
        ⟨⟨si, some (.ok t0), false, off, renderRestLine ls ++ after, sp⟩, E, ind⟩ []
        = some (t0 :: lineToks off ls,
            lineEnd si E ind sp (off + utf8Len (renderRestLine ls)) after) := by
    intro F hF
    simp only [symbolsLoopF]
    rw [peekTok_of_ok rfl]
    simp only []
    rw [if_pos ht0, advanceTok_of_ok rfl]
    simp only []
    rw [symbolsLoopF_line si E ind sp ls F off ([] ++ [t0]) after hcl hafter hF]
    simp
  unfold Parser.symbolsRun
  rw [hgen (pMeasure ⟨⟨si, some (.ok t0), false, off,
      renderRestLine ls ++ after, sp⟩, E, ind⟩)
    (by unfold pMeasure lexMeasure; simp only []; omega)]
  rfl

/-! ### Data extension: nodes inserted while parsing never disturb
existing nodes or sources -/

/-- `d'` extends `d`: every resolvable node and source of `d` resolves
identically in `d'`. -/
def DataExt (d d' : Data) : Prop :=
  (∀ (n : NodeIndex) (v : Node), d.get_node n = some v → d'.get_node n = some v) ∧
  (∀ (s : SourceIndex) (v : List Char),
    d.get_source s = some v → d'.get_source s = some v)

theorem DataExt.rfl (d : Data) : DataExt d d :=
  ⟨fun _ _ h => h, fun _ _ h => h⟩

theorem DataExt.trans {a b c : Data} (h1 : DataExt a b) (h2 : DataExt b c) :
    DataExt a c :=
  ⟨fun n v h => h2.1 n v (h1.1 n v h),
   fun s v h => h2.2 s v (h1.2 s v h)⟩

theorem Data.get_source_insert_node (d : Data) (v : Node) (s : SourceIndex) :
    (d.insert_node v).1.get_source s = d.get_source s := rfl

theorem Data.insert_node_get {d : Data} (hInv : d.nodes.Inv) (v : Node) :
    (d.insert_node v).1.get_node (d.insert_node v).2 = some v := by
  unfold Data.insert_node Data.get_node
  simp only []
  exact Arena.insert_get hInv v

theorem Data.get_node_insert_of_get {d : Data} (hInv : d.nodes.Inv)
    {n : NodeIndex} {v : Node} (h : d.get_node n = some v) (w : Node) :
    (d.insert_node w).1.get_node n = some v := by
  unfold Data.get_node at h
  unfold Data.insert_node Data.get_node
  simp only []
  exact Arena.get_insert_of_get hInv h w

theorem Data.insert_node_inv {d : Data} (hInv : d.nodes.Inv) (v : Node) :
    (d.insert_node v).1.nodes.Inv := by
  unfold Data.insert_node
  simp only []
  exact Arena.Inv.insert_inv hInv v

theorem DataExt.insert_node {d : Data} (hInv : d.nodes.Inv) (v : Node) :
    DataExt d (d.insert_node v).1 :=
  ⟨fun _ _ h => Data.get_node_insert_of_get hInv h v,
   fun s _ h => by rw [Data.get_source_insert_node]; exact h⟩

theorem DataExt.push_root_node (d : Data) (si : SourceIndex) (n : NodeIndex) :
    DataExt d (d.push_root_node si n) :=
  ⟨fun _ _ h => h, fun _ _ h => h⟩

theorem Data.get_lexeme_mono {d d' : Data} (hext : DataExt d d')
    {si : SourceIndex} {t : Token} {l : List Char}
    (h : d.get_lexeme si t = some l) : d'.get_lexeme si t = some l := by
  unfold Data.get_lexeme at h ⊢
  cases hs : d.get_source si with
  | none => rw [hs] at h; cases h
  | some src =>
    rw [hs] at h
    simp only [Option.some_bind] at h
    rw [hext.2 si src hs]
    simp only [Option.some_bind]
    exact h

/-- `Represents` and `RepForest` are stable under data extension. -/
theorem rep_mono_all : ∀ N : Nat,
    (∀ (t : STree), sizeOf t ≤ N →
      ∀ (d d' : Data) (si : SourceIndex) (n : NodeIndex) (L : List NodeIndex),
        Represents d si n t L → DataExt d d' → Represents d' si n t L) ∧
    (∀ (ts : List STree), sizeOf ts ≤ N →
      ∀ (d d' : Data) (si : SourceIndex) (cs : List NodeIndex)
        (Ls : List (List NodeIndex)),
        RepForest d si cs ts Ls → DataExt d d' → RepForest d' si cs ts Ls) := by
  intro N
  induction N using Nat.strong_induction_on with
  | _ N ih =>
    constructor
    · intro t hsz d d' si n L h hext
      cases h with
      | leaf hn hlex =>
        exact Represents.leaf (hext.1 _ _ hn)
          (hlex.imp (fun a b hab => Data.get_lexeme_mono hext hab))
      | parent hn hlex hch =>
        rename_i toks cs lexs ts Ls
        have hns : sizeOf (STree.node lexs ts) = 1 + sizeOf lexs + sizeOf ts := by
          simp
        refine Represents.parent (hext.1 _ _ hn)
          (hlex.imp (fun a b hab => Data.get_lexeme_mono hext hab)) ?_
        exact (ih (sizeOf ts) (by omega)).2 ts (le_refl _) d d' si cs Ls hch hext
    · intro ts hsz d d' si cs Ls h hext
      cases h with
      | nil => exact RepForest.nil
      | cons h1 hs1 =>
        rename_i c1 t1 L1 cs1 ts1 Ls1
        have hns : sizeOf (t1 :: ts1) = 1 + sizeOf t1 + sizeOf ts1 := by
          simp
        exact RepForest.cons
          ((ih (sizeOf t1) (by omega)).1 t1 (le_refl _) d d' si c1 L1 h1 hext)
          ((ih (sizeOf ts1) (by omega)).2 ts1 (le_refl _) d d' si cs1 Ls1 hs1 hext)

theorem Represents.mono_ext {d d' : Data} {si : SourceIndex} {n : NodeIndex}
    {t : STree} {L : List NodeIndex}
    (h : Represents d si n t L) (hext : DataExt d d') :
    Represents d' si n t L :=
  (rep_mono_all (sizeOf t)).1 t (le_refl _) d d' si n L h hext

theorem RepForest.mono_forest {d d' : Data} {si : SourceIndex} {cs : List NodeIndex}
    {ts : List STree} {Ls : List (List NodeIndex)}
    (h : RepForest d si cs ts Ls) (hext : DataExt d d') :
    RepForest d' si cs ts Ls :=
  (rep_mono_all (sizeOf ts)).2 ts (le_refl _) d d' si cs Ls h hext

/-- Each token of a written rest-of-line slices back to its lexeme. -/
theorem lineToks_lexemes (src : List Char) :
    ∀ (ls : List (List Char)) (pre : List Char) (after : List Char),
      (∀ l ∈ ls, cleanLex l) →
      src = pre ++ (renderRestLine ls ++ after) →
      List.Forall₂ (fun tok lex =>
          sliceBytes src tok.span.start tok.span.stop = some lex)
        (lineToks (utf8Len pre) ls) ls := by
  intro ls
  induction ls with
  | nil => intro pre after _ _; exact List.Forall₂.nil
  | cons l ls ih =>
    intro pre after hcl hsrc
    obtain ⟨q, hq, hnl, hqn, hdecomp⟩ :=
      quoteLex_decomp l (renderRestLine ls ++ after)
        (hcl l (List.mem_cons_self l ls))
    have hq1 : lenUtf8 q = 1 := by
      rcases hq with rfl | rfl <;> decide
    have hsrc2 : src = (pre ++ (' ' :: [q])) ++ l ++ (q :: (renderRestLine ls ++ after)) := by
      rw [hsrc]
      simp only [renderRestLine]
      rw [show (' ' :: quoteLex l) ++ renderRestLine ls ++ after
          = ' ' :: (quoteLex l ++ (renderRestLine ls ++ after)) from by
        simp [List.append_assoc]]
      rw [hdecomp]
      simp [List.append_assoc]
    refine List.Forall₂.cons ?_ ?_
    · show sliceBytes src (utf8Len pre + 1 + 1) (utf8Len pre + 1 + 1 + utf8Len l)
        = some l
      have e1 : utf8Len pre + 1 + 1 = utf8Len (pre ++ (' ' :: [q])) := by
        rw [utf8Len_append, utf8Len_cons, utf8Len_cons, utf8Len_nil,
          (by decide : lenUtf8 ' ' = 1), hq1]
      rw [e1, hsrc2]
      exact sliceBytes_middle (pre ++ (' ' :: [q])) l (q :: (renderRestLine ls ++ after))
    · have e2 : utf8Len pre + 1 + 1 + utf8Len l + 1
          = utf8Len (pre ++ (' ' :: quoteLex l)) := by
        rw [utf8Len_append, utf8Len_cons, utf8Len_quoteLex,
          (by decide : lenUtf8 ' ' = 1)]
        omega
      rw [e2]
      refine ih (pre ++ (' ' :: quoteLex l)) after
        (fun x hx => hcl x (List.mem_cons_of_mem _ hx)) ?_
      rw [hsrc]
      simp only [renderRestLine]
      simp [List.append_assoc]

/-! ### Parser interface states on written text -/

/-- Indentation kinds that can occur while lexing tab-indented text. -/
def SpOK (sp : IndentKind) : Prop := sp = .unknown ∨ sp = .tab

/-- The parser has measured a line at depth `m` and buffered its first
symbol token, whose lexeme `l0` slices from `src`; `rest` is the text
after that token's closing quote. -/
def MeasuredAt (si : SourceIndex) (E : List ParseError) (src : List Char)
    (p : Parser) (m : Nat) (l0 : List Char) (rest : List Char) : Prop :=
  ∃ (a : Nat) (sp : IndentKind), SpOK sp ∧
    p = ⟨⟨si, some (.ok ⟨.symbol, ⟨a, a + utf8Len l0⟩⟩), false,
          a + utf8Len l0 + 1, rest, sp⟩, E, m⟩ ∧
    sliceBytes src a (a + utf8Len l0) = some l0 ∧
    ∃ pre, src = pre ++ rest ∧ utf8Len pre = a + utf8Len l0 + 1

/-- The parser has consumed the whole input. -/
def Exhausted (si : SourceIndex) (E : List ParseError) (p : Parser) : Prop :=
  ∃ (off j : Nat) (sp : IndentKind), SpOK sp ∧
    p = ⟨⟨si, none, false, off, [], sp⟩, E, j⟩

/-- What may follow a written subtree whose enclosing line is at depth
`j`: nothing, or a new line at depth `m ≤ j` starting with lexeme `l'`
and continuing as `r'`. -/
def AfterSpec (j : Nat) (after : List Char) (m : Nat) (l' r' : List Char) :
    Prop :=
  after = [] ∨
    (after = '\n' :: (tabs m ++ (quoteLex l' ++ r')) ∧ m ≤ j ∧ cleanLex l')

/-- The parser state after a subtree followed by `after` has been parsed:
exhausted, or measured at `after`'s line. -/
def PostSpec (si : SourceIndex) (E : List ParseError) (src : List Char)
    (p : Parser) (after : List Char) (m : Nat) (l' r' : List Char) : Prop :=
  (after = [] ∧ Exhausted si E p) ∨
  (after ≠ [] ∧ MeasuredAt si E src p m l' r')

/-- The parser state at the head of the written blocks of `ts` (children
at depth `k + 1`), with `after` following; when `ts` is empty this is the
state after the last child, facing `after`. -/
def AtBlock (si : SourceIndex) (E : List ParseError) (src : List Char)
    (p : Parser) (k : Nat) (ts : List STree) (after : List Char)
    (m : Nat) (l' r' : List Char) : Prop :=
  match ts with
  | [] => PostSpec si E src p after m l' r'
  | STree.node [] _ :: _ => False
  | STree.node (l1 :: ls1) ts1 :: ts' =>
      MeasuredAt si E src p (k + 1) l1
        (renderRestLine ls1 ++ (blockChildren (k + 1 + 1) ts1 ++
          (blockChildren (k + 1) ts' ++ after)))

/-- The block text of a nonempty forest, flattened to head-line form. -/
theorem blockChildren_cons (k : Nat) (l1 : List Char) (ls1 : List (List Char))
    (ts1 ts : List STree) (A : List Char) :
    blockChildren k (STree.node (l1 :: ls1) ts1 :: ts) ++ A
      = '\n' :: (tabs k ++ (quoteLex l1 ++ (renderRestLine ls1 ++
          (blockChildren (k + 1) ts1 ++ (blockChildren k ts ++ A))))) := by
  simp only [blockChildren, blockText, renderLine]
  simp [List.append_assoc]

theorem AfterSpec.mono {j j' : Nat} {after : List Char} {m : Nat}
    {l' r' : List Char} (hj : j ≤ j')
    (h : AfterSpec j after m l' r') : AfterSpec j' after m l' r' := by
  rcases h with h | ⟨h1, h2, h3⟩
  · exact Or.inl h
  · exact Or.inr ⟨h1, le_trans h2 hj, h3⟩

theorem utf8Len_tabs (m : Nat) : utf8Len (tabs m) = m := by
  induction m with
  | zero => rfl
  | succ m ih =>
    rw [tabs_succ, utf8Len_cons, ih, (by decide : lenUtf8 '\t' = 1)]
    omega

/-- `indentation()` is the identity on a measured state. -/
theorem MeasuredAt.indentationLoop_id {si : SourceIndex} {E : List ParseError}
    {src : List Char} {p : Parser} {m : Nat} {l0 rest : List Char}
    (h : MeasuredAt si E src p m l0 rest) : p.indentationLoop = p := by
  obtain ⟨a, sp, hsp, rfl, hsl, hpre⟩ := h
  exact indentationLoop_buffered_symbol rfl rfl

/-- `indentation()` is the identity on an exhausted state. -/
theorem Exhausted.indentationLoop_exh {si : SourceIndex} {E : List ParseError}
    {p : Parser} (h : Exhausted si E p) : p.indentationLoop = p := by
  obtain ⟨off, j, sp, hsp, rfl⟩ := h
  exact indentationLoop_exhausted si E j sp off

/-- Crossing a buffered newline onto a written line `tabs m ++ quoted …`
lands in a measured state whose buffered token slices from `src`. -/
theorem measured_of_newline (si : SourceIndex) (E : List ParseError)
    (src : List Char) (sp : IndentKind) (j M offE : Nat)
    (lam rho pre1 : List Char)
    (hsp : SpOK sp) (hcl : cleanLex lam)
    (hsrc : src = pre1 ++ ('\n' :: (tabs M ++ (quoteLex lam ++ rho))))
    (hpre : utf8Len pre1 = offE) :
    ∃ p' : Parser,
      (⟨⟨si, some (.ok ⟨.newline, ⟨offE, offE + 1⟩⟩), true, offE + 1,
          tabs M ++ (quoteLex lam ++ rho), sp⟩, E, j⟩ : Parser).indentationLoop
        = p' ∧
      MeasuredAt si E src p' M lam rho := by
  obtain ⟨sp', hsp', hloop⟩ :=
    indentationLoop_newline si E j sp offE M lam rho hsp hcl
  refine ⟨_, hloop, offE + 1 + M + 1, sp', hsp', rfl, ?_, ?_⟩
  · obtain ⟨q, hq, hnl, hqn, hdecomp⟩ := quoteLex_decomp lam rho hcl
    have hq1 : lenUtf8 q = 1 := by
      rcases hq with rfl | rfl <;> decide
    have hsrc2 : src = (pre1 ++ ('\n' :: (tabs M ++ [q]))) ++ lam
        ++ (q :: rho) := by
      rw [hsrc, hdecomp]
      simp [List.append_assoc]
    have e1 : offE + 1 + M + 1 = utf8Len (pre1 ++ ('\n' :: (tabs M ++ [q]))) := by
      rw [utf8Len_append, utf8Len_cons, utf8Len_append, utf8Len_tabs,
        utf8Len_cons, utf8Len_nil, (by decide : lenUtf8 '\n' = 1), hq1, hpre]
      omega
    rw [e1, hsrc2]
    exact sliceBytes_middle _ lam (q :: rho)
  · refine ⟨pre1 ++ ('\n' :: (tabs M ++ quoteLex lam)), ?_, ?_⟩
    · rw [hsrc]
      simp [List.append_assoc]
    · rw [utf8Len_append, utf8Len_cons, utf8Len_append, utf8Len_tabs,
        utf8Len_quoteLex, (by decide : lenUtf8 '\n' = 1), hpre]
      omega

/-- Joint reconstruction: `node()` parses one written subtree and the
children loop parses a written forest, rebuilding the abstract trees. -/
theorem node_rec_all : ∀ N : Nat,
    (∀ (t : STree), sizeOf t ≤ N →
      ∀ (fuel : Nat) (d : Data) (src : List Char) (si : SourceIndex)
        (E : List ParseError) (j k : Nat) (p : Parser)
        (l0 : List Char) (ls : List (List Char)) (ts : List STree)
        (after : List Char) (m2 : Nat) (l2 r2 : List Char),
        t = .node (l0 :: ls) ts →
        CleanT t → j ≤ k →
        d.nodes.Inv →
        d.get_source si = some src →
        MeasuredAt si E src p j l0
          (renderRestLine ls ++ (blockChildren (k + 1) ts ++ after)) →
        AfterSpec j after m2 l2 r2 →
        pMeasure p ≤ fuel →
        ∃ (n' : NodeIndex) (pOut : Parser) (d' : Data) (L : List NodeIndex),
          nodeF fuel p d = some (n', pOut, d') ∧
          Represents d' si n' t L ∧
          DataExt d d' ∧ d'.nodes.Inv ∧ d'.root_nodes = d.root_nodes ∧
          PostSpec si E src pOut after m2 l2 r2 ∧
          pMeasure pOut < pMeasure p) ∧
    (∀ (ts : List STree), sizeOf ts ≤ N →
      ∀ (g gofuel : Nat) (d : Data) (src : List Char) (si : SourceIndex)
        (E : List ParseError) (j k : Nat) (p : Parser)
        (after : List Char) (acc : List NodeIndex)
        (m2 : Nat) (l2 r2 : List Char),
        CleanF ts → j ≤ k →
        d.nodes.Inv →
        d.get_source si = some src →
        AtBlock si E src p k ts after m2 l2 r2 →
        AfterSpec j after m2 l2 r2 →
        pMeasure p < gofuel →
        pMeasure p ≤ g →
        ∃ (ns : List NodeIndex) (pOut : Parser) (d' : Data)
          (Ls : List (List NodeIndex)),
          childrenLoopGo (nodeF g) gofuel j p d acc = some (acc ++ ns, pOut, d') ∧
          RepForest d' si ns ts Ls ∧
          DataExt d d' ∧ d'.nodes.Inv ∧ d'.root_nodes = d.root_nodes ∧
          PostSpec si E src pOut after m2 l2 r2 ∧
          pMeasure pOut ≤ pMeasure p) := by
  intro N
  induction N using Nat.strong_induction_on with
  | _ N ih =>
    constructor
    · -- node part
      intro t hsz fuel d src si E j k p l0 ls ts after m2 l2 r2 ht hclean hjk
        hinv hsrc hmeas hAspec hfuel
      subst ht
      obtain ⟨a, sp, hsp, rfl, hsl0, pre, hsrceq, hprelen⟩ := hmeas
      have hclean' := hclean
      cases hclean' with
      | mk hne hcl hch =>
      have hmeas2 : MeasuredAt si E src
          ⟨⟨si, some (.ok ⟨.symbol, ⟨a, a + utf8Len l0⟩⟩), false,
            a + utf8Len l0 + 1,
            renderRestLine ls ++ (blockChildren (k + 1) ts ++ after), sp⟩, E, j⟩
          j l0 (renderRestLine ls ++ (blockChildren (k + 1) ts ++ after)) :=
        ⟨a, sp, hsp, rfl, hsl0, pre, hsrceq, hprelen⟩
      have hPm : pMeasure
          ⟨⟨si, some (.ok ⟨.symbol, ⟨a, a + utf8Len l0⟩⟩), false,
            a + utf8Len l0 + 1,
            renderRestLine ls ++ (blockChildren (k + 1) ts ++ after), sp⟩, E, j⟩
          = 2 * (renderRestLine ls ++ (blockChildren (k + 1) ts ++ after)).length
            + 1 := by
        unfold pMeasure lexMeasure
        simp only []
      cases fuel with
      | zero => exact absurd hfuel (by omega)
      | succ f =>
      have h1 := hmeas2.indentationLoop_id
      have hszts : sizeOf ts < N := by
        have hns : sizeOf (STree.node (l0 :: ls) ts)
            = 1 + sizeOf (l0 :: ls) + sizeOf ts := by simp
        omega
      cases ts with
      | cons t1 ts' =>
        -- children exist: the first child's line follows this one
        cases t1 with
        | node lexs1 ts1 =>
        cases hch with
        | cons hclT1 hclF' =>
        cases hclT1 with
        | mk hne1 hcl1 hch1 =>
        cases lexs1 with
        | nil => exact absurd rfl hne1
        | cons l1 ls1 =>
        have hBCC := blockChildren_cons (k + 1) l1 ls1 ts1 ts' after
        have h2 := symbolsRun_line si E j sp (a + utf8Len l0 + 1)
          ⟨.symbol, ⟨a, a + utf8Len l0⟩⟩ ls
          (blockChildren (k + 1) (STree.node (l1 :: ls1) ts1 :: ts') ++ after)
          rfl (fun x hx => hcl x (List.mem_cons_of_mem _ hx))
          (Or.inr ⟨_, hBCC⟩)
        obtain ⟨p3, hloop3, hmeas3⟩ := measured_of_newline si E src sp j (k + 1)
          (a + utf8Len l0 + 1 + utf8Len (renderRestLine ls)) l1
          (renderRestLine ls1 ++ (blockChildren (k + 1 + 1) ts1 ++
            (blockChildren (k + 1) ts' ++ after)))
          (pre ++ renderRestLine ls) hsp
          (hcl1 l1 (List.mem_cons_self l1 ls1))
          (by rw [hsrceq, hBCC]; simp [List.append_assoc])
          (by rw [utf8Len_append, hprelen])
        have hm3 := hmeas3
        obtain ⟨a3, sp3, hsp3, hp3eq, hsl3, pre3, hsrc3, hpre3⟩ := hm3
        have hp3m : pMeasure p3 = 2 * (renderRestLine ls1 ++
            (blockChildren (k + 1 + 1) ts1 ++
              (blockChildren (k + 1) ts' ++ after))).length + 1 := by
          rw [hp3eq]
          unfold pMeasure lexMeasure
          simp only []
        have hlenBCC := congrArg List.length hBCC
        simp only [List.length_append, List.length_cons, tabs_length,
          quoteLex_length] at hlenBCC
        rw [hPm] at hfuel
        obtain ⟨ns, pOut4, d4, Ls, hgo, hforest, hext4, hinv4, hroot4, hpost4, hm4⟩ :=
          (ih (sizeOf (STree.node (l1 :: ls1) ts1 :: ts')) hszts).2
            (STree.node (l1 :: ls1) ts1 :: ts') (le_refl _) f (f + 1) d src si
            E j k p3 after [] m2 l2 r2
            (CleanF.cons (CleanT.mk hne1 hcl1 hch1) hclF') hjk hinv hsrc
            (by
              simp only [AtBlock]
              exact hmeas3)
            hAspec
            (by
              rw [hp3m]
              simp only [List.length_append] at hfuel hlenBCC ⊢
              omega)
            (by
              rw [hp3m]
              simp only [List.length_append] at hfuel hlenBCC ⊢
              omega)
        cases hforest with
        | cons hrep1 hfor' =>
        rename_i c1 LF csF LsF
        have hnodeEq : nodeF (f + 1)
            ⟨⟨si, some (.ok ⟨.symbol, ⟨a, a + utf8Len l0⟩⟩), false,
              a + utf8Len l0 + 1,
              renderRestLine ls ++
                (blockChildren (k + 1) (STree.node (l1 :: ls1) ts1 :: ts') ++ after),
              sp⟩, E, j⟩ d
            = some ((d4.insert_node (.parent
                  (⟨.symbol, ⟨a, a + utf8Len l0⟩⟩ ::
                    lineToks (a + utf8Len l0 + 1) ls) ([] ++ c1 :: csF))).2,
                pOut4,
                (d4.insert_node (.parent
                  (⟨.symbol, ⟨a, a + utf8Len l0⟩⟩ ::
                    lineToks (a + utf8Len l0 + 1) ls) ([] ++ c1 :: csF))).1) := by
          rw [nodeF_succ, h1, h2]
          simp only []
          rw [hBCC]
          simp only [lineEnd]
          rw [hloop3, hgo]
          simp only []
          rw [if_pos (show ([] ++ c1 :: csF : List NodeIndex) ≠ [] by simp)]
        refine ⟨_, pOut4, _,
          (d4.insert_node (.parent
            (⟨.symbol, ⟨a, a + utf8Len l0⟩⟩ ::
              lineToks (a + utf8Len l0 + 1) ls) ([] ++ c1 :: csF))).2
            :: (LF :: LsF).join,
          hnodeEq, ?_, ?_, ?_, ?_, hpost4, ?_⟩
        · have hext5 := DataExt.insert_node hinv4 (.parent
            (⟨.symbol, ⟨a, a + utf8Len l0⟩⟩ ::
              lineToks (a + utf8Len l0 + 1) ls) ([] ++ c1 :: csF))
          have hsrc5 := hext5.2 _ _ (hext4.2 _ _ hsrc)
          refine Represents.parent (Data.insert_node_get hinv4 _) ?_
            (RepForest.mono_forest (RepForest.cons hrep1 hfor') hext5)
          refine List.Forall₂.cons ?_ ?_
          · unfold Data.get_lexeme
            rw [hsrc5]
            simp only [Option.some_bind]
            exact hsl0
          · have hlt := lineToks_lexemes src ls pre
              (blockChildren (k + 1) (STree.node (l1 :: ls1) ts1 :: ts') ++ after)
              (fun x hx => hcl x (List.mem_cons_of_mem _ hx)) hsrceq
            rw [hprelen] at hlt
            refine hlt.imp (fun tok lex hsl => ?_)
            unfold Data.get_lexeme
            rw [hsrc5]
            simp only [Option.some_bind]
            exact hsl
        · exact DataExt.trans hext4 (DataExt.insert_node hinv4 _)
        · exact Data.insert_node_inv hinv4 _
        · show d4.root_nodes = d.root_nodes
          exact hroot4
        · rw [hPm]
          simp only [List.length_append] at hPm hp3m ⊢
          omega
      | nil =>
        -- leaf: no children blocks; `after` follows the line directly
        have hAA : blockChildren (k + 1) ([] : List STree) ++ after = after := by
          simp only [blockChildren, List.nil_append]
        rcases hAspec with hA | ⟨hA, hm2j, hcl2⟩
        · -- end of input after this line
          subst hA
          have h2 := symbolsRun_line si E j sp (a + utf8Len l0 + 1)
            ⟨.symbol, ⟨a, a + utf8Len l0⟩⟩ ls
            (blockChildren (k + 1) ([] : List STree) ++ [])
            rfl (fun x hx => hcl x (List.mem_cons_of_mem _ hx))
            (Or.inl hAA)
          have hnodeEq : nodeF (f + 1)
              ⟨⟨si, some (.ok ⟨.symbol, ⟨a, a + utf8Len l0⟩⟩), false,
                a + utf8Len l0 + 1,
                renderRestLine ls ++ (blockChildren (k + 1) ([] : List STree) ++ []),
                sp⟩, E, j⟩ d
              = some ((d.insert_node (.some
                    (⟨.symbol, ⟨a, a + utf8Len l0⟩⟩ ::
                      lineToks (a + utf8Len l0 + 1) ls))).2,
                  ⟨⟨si, none, false,
                    a + utf8Len l0 + 1 + utf8Len (renderRestLine ls), [], sp⟩, E, j⟩,
                  (d.insert_node (.some
                    (⟨.symbol, ⟨a, a + utf8Len l0⟩⟩ ::
                      lineToks (a + utf8Len l0 + 1) ls))).1) := by
            rw [nodeF_succ, h1, h2]
            simp only []
            rw [hAA]
            simp only [lineEnd]
            rw [indentationLoop_exhausted]
            have hgoX : childrenLoopGo (nodeF f) (f + 1) j
                ⟨⟨si, none, false,
                  a + utf8Len l0 + 1 + utf8Len (renderRestLine ls), [], sp⟩, E, j⟩
                d []
                = some ([],
                    ⟨⟨si, none, false,
                      a + utf8Len l0 + 1 + utf8Len (renderRestLine ls), [], sp⟩,
                      E, j⟩, d) := by
              simp only [childrenLoopGo]
              rw [peekTok_advance_none rfl (advance_exhausted si false sp
                (a + utf8Len l0 + 1 + utf8Len (renderRestLine ls)))]
            rw [hgoX]
            simp only []
            rw [if_neg (by simp)]
          refine ⟨_, _, _,
            [(d.insert_node (.some (⟨.symbol, ⟨a, a + utf8Len l0⟩⟩ ::
              lineToks (a + utf8Len l0 + 1) ls))).2],
            hnodeEq, ?_, ?_, ?_, ?_, ?_, ?_⟩
          · have hext5 := DataExt.insert_node hinv (.some
              (⟨.symbol, ⟨a, a + utf8Len l0⟩⟩ ::
                lineToks (a + utf8Len l0 + 1) ls))
            have hsrc5 := hext5.2 _ _ hsrc
            refine Represents.leaf (Data.insert_node_get hinv _) ?_
            refine List.Forall₂.cons ?_ ?_
            · unfold Data.get_lexeme
              rw [hsrc5]
              simp only [Option.some_bind]
              exact hsl0
            · have hlt := lineToks_lexemes src ls pre
                (blockChildren (k + 1) ([] : List STree) ++ [])
                (fun x hx => hcl x (List.mem_cons_of_mem _ hx)) hsrceq
              rw [hprelen] at hlt
              refine hlt.imp (fun tok lex hsl => ?_)
              unfold Data.get_lexeme
              rw [hsrc5]
              simp only [Option.some_bind]
              exact hsl
          · exact DataExt.insert_node hinv _
          · exact Data.insert_node_inv hinv _
          · show d.root_nodes = d.root_nodes
            rfl
          · exact Or.inl ⟨rfl, _, _, _, hsp, rfl⟩
          · rw [hPm]
            unfold pMeasure lexMeasure
            simp only [List.length_nil]
            omega
        · -- a following line at depth `m2 ≤ j`
          have h2 := symbolsRun_line si E j sp (a + utf8Len l0 + 1)
            ⟨.symbol, ⟨a, a + utf8Len l0⟩⟩ ls
            (blockChildren (k + 1) ([] : List STree) ++ after)
            rfl (fun x hx => hcl x (List.mem_cons_of_mem _ hx))
            (Or.inr ⟨_, by rw [hAA, hA]⟩)
          obtain ⟨p3, hloop3, hmeas3⟩ := measured_of_newline si E src sp j m2
            (a + utf8Len l0 + 1 + utf8Len (renderRestLine ls)) l2 r2
            (pre ++ renderRestLine ls) hsp hcl2
            (by rw [hsrceq, hAA, hA]; simp [List.append_assoc])
            (by rw [utf8Len_append, hprelen])
          have hm3 := hmeas3
          obtain ⟨a3, sp3, hsp3, hp3eq, hsl3, pre3, hsrc3, hpre3⟩ := hm3
          have hnodeEq : nodeF (f + 1)
              ⟨⟨si, some (.ok ⟨.symbol, ⟨a, a + utf8Len l0⟩⟩), false,
                a + utf8Len l0 + 1,
                renderRestLine ls ++ (blockChildren (k + 1) ([] : List STree) ++ after),
                sp⟩, E, j⟩ d
              = some ((d.insert_node (.some
                    (⟨.symbol, ⟨a, a + utf8Len l0⟩⟩ ::
                      lineToks (a + utf8Len l0 + 1) ls))).2,
                  p3,
                  (d.insert_node (.some
                    (⟨.symbol, ⟨a, a + utf8Len l0⟩⟩ ::
                      lineToks (a + utf8Len l0 + 1) ls))).1) := by
            rw [nodeF_succ, h1, h2]
            simp only []
            rw [hAA, hA]
            simp only [lineEnd]
            rw [hloop3]
            have hgoX : childrenLoopGo (nodeF f) (f + 1) j p3 d []
                = some ([], p3, d) := by
              cases gofuelX : f + 1 with
              | zero => omega
              | succ gf =>
                simp only [childrenLoopGo]
                rw [hp3eq, peekTok_of_ok rfl]
                simp only []
                rw [if_neg (by omega)]
            rw [hgoX]
            simp only []
            rw [if_neg (by simp)]
          refine ⟨_, p3, _,
            [(d.insert_node (.some (⟨.symbol, ⟨a, a + utf8Len l0⟩⟩ ::
              lineToks (a + utf8Len l0 + 1) ls))).2],
            hnodeEq, ?_, ?_, ?_, ?_, ?_, ?_⟩
          · have hext5 := DataExt.insert_node hinv (.some
              (⟨.symbol, ⟨a, a + utf8Len l0⟩⟩ ::
                lineToks (a + utf8Len l0 + 1) ls))
            have hsrc5 := hext5.2 _ _ hsrc
            refine Represents.leaf (Data.insert_node_get hinv _) ?_
            refine List.Forall₂.cons ?_ ?_
            · unfold Data.get_lexeme
              rw [hsrc5]
              simp only [Option.some_bind]
              exact hsl0
            · have hlt := lineToks_lexemes src ls pre
                (blockChildren (k + 1) ([] : List STree) ++ after)
                (fun x hx => hcl x (List.mem_cons_of_mem _ hx)) hsrceq
              rw [hprelen] at hlt
              refine hlt.imp (fun tok lex hsl => ?_)
              unfold Data.get_lexeme
              rw [hsrc5]
              simp only [Option.some_bind]
              exact hsl
          · exact DataExt.insert_node hinv _
          · exact Data.insert_node_inv hinv _
          · show d.root_nodes = d.root_nodes
            rfl
          · exact Or.inr ⟨by rw [hA]; exact List.cons_ne_nil _ _, hmeas3⟩
          · rw [hPm, hp3eq]
            unfold pMeasure lexMeasure
            simp only []
            have hlenA := congrArg List.length hA
            simp only [List.length_append, List.length_cons, tabs_length,
              quoteLex_length] at hlenA
            simp only [List.length_append, hAA, hA, List.length_cons]
            omega
    · -- forest part
      intro ts hsz g gofuel d src si E j k p after acc m2 l2 r2 hclF hjk hinv
        hsrc hAt hAspec hlt1 hlt2
      cases ts with
      | nil =>
        simp only [AtBlock] at hAt
        cases gofuel with
        | zero => exact absurd hlt1 (Nat.not_lt_zero _)
        | succ gf =>
          rcases hAt with ⟨hA, hex⟩ | ⟨hA, hms⟩
          · obtain ⟨off, jx, sp, hsp, rfl⟩ := hex
            refine ⟨[], _, d, [], ?_, RepForest.nil, DataExt.rfl d, hinv, rfl,
              Or.inl ⟨hA, off, jx, sp, hsp, rfl⟩, le_refl _⟩
            rw [List.append_nil]
            simp only [childrenLoopGo]
            rw [peekTok_advance_none rfl (advance_exhausted si false sp off)]
          · have hm2j : m2 ≤ j := by
              rcases hAspec with h | ⟨_, h2', _⟩
              · exact absurd h hA
              · exact h2'
            have hms2 := hms
            obtain ⟨a1, sp1, hsp1, rfl, hsl1, pre1, hsrc1, hpre1⟩ := hms2
            refine ⟨[], _, d, [], ?_, RepForest.nil, DataExt.rfl d, hinv, rfl,
              Or.inr ⟨hA, hms⟩, le_refl _⟩
            rw [List.append_nil]
            simp only [childrenLoopGo]
            rw [peekTok_of_ok rfl]
            simp only []
            rw [if_neg (by omega)]
      | cons t1 ts' =>
        cases t1 with
        | node lexs1 ts1 =>
        cases lexs1 with
        | nil => simp only [AtBlock] at hAt
        | cons l1 ls1 =>
        simp only [AtBlock] at hAt
        cases hclF with
        | cons hclT1 hclF' =>
        have hszts' : sizeOf ts' < N := by
          have hns : sizeOf (STree.node (l1 :: ls1) ts1 :: ts')
              = 1 + sizeOf (STree.node (l1 :: ls1) ts1) + sizeOf ts' := by simp
          omega
        have hszt1 : sizeOf (STree.node (l1 :: ls1) ts1) < N := by
          have hns : sizeOf (STree.node (l1 :: ls1) ts1 :: ts')
              = 1 + sizeOf (STree.node (l1 :: ls1) ts1) + sizeOf ts' := by simp
          omega
        cases gofuel with
        | zero => exact absurd hlt1 (Nat.not_lt_zero _)
        | succ gf =>
        have hAt2 := hAt
        obtain ⟨a1, sp1, hsp1, hpeq, hsl1, pre1, hsrc1, hpre1⟩ := hAt2
        have hPm : pMeasure p = 2 * (renderRestLine ls1 ++
            (blockChildren (k + 1 + 1) ts1 ++
              (blockChildren (k + 1) ts' ++ after))).length + 1 := by
          rw [hpeq]
          unfold pMeasure lexMeasure
          simp only []
        cases ts' with
        | nil =>
          -- single/last child: what follows it is `after` itself
          rw [show blockChildren (k + 1) ([] : List STree) ++ after = after from
            by simp only [blockChildren, List.nil_append]] at hAt
          obtain ⟨n1, pOut1, d1, L1, hnode1, hrep1, hext1, hinv1, hroot1, hpost1, hm1⟩ :=
            (ih _ hszt1).1 (STree.node (l1 :: ls1) ts1) (le_refl _) g d src si
              E (k + 1) (k + 1) p l1 ls1 ts1 after m2 l2 r2 rfl hclT1
              (le_refl _) hinv hsrc hAt
              (hAspec.mono (by omega)) hlt2
          have hloop1 : pOut1.indentationLoop = pOut1 := by
            rcases hpost1 with ⟨_, hex⟩ | ⟨_, hms⟩
            · exact hex.indentationLoop_exh
            · exact hms.indentationLoop_id
          obtain ⟨ns', pOut2, d2, Ls', hgo2, hfor2, hext2, hinv2, hroot2, hpost2, hm2'⟩ :=
            (ih _ hszts').2 ([] : List STree) (le_refl _) g gf d1 src si E j k
              pOut1 after (acc ++ [n1]) m2 l2 r2 CleanF.nil hjk hinv1
              (hext1.2 _ _ hsrc)
              (by simp only [AtBlock]; exact hpost1)
              hAspec (by omega) (by omega)
          refine ⟨n1 :: ns', pOut2, d2, L1 :: Ls', ?_,
            RepForest.cons (hrep1.mono_ext hext2) hfor2,
            DataExt.trans hext1 hext2, hinv2, hroot2.trans hroot1, hpost2,
            by omega⟩
          rw [hpeq]
          simp only [childrenLoopGo]
          rw [peekTok_of_ok rfl]
          simp only []
          rw [if_pos (by omega)]
          rw [← hpeq, hnode1]
          simp only []
          rw [hloop1, hgo2]
          rw [List.append_assoc, List.singleton_append]
        | cons t2 ts'' =>
          cases t2 with
          | node lexs2 ts2 =>
          have hclT2 : CleanT (STree.node lexs2 ts2) := by
            cases hclF' with
            | cons h _ => exact h
          cases hclT2 with
          | mk hne2 hcl2 hch2 =>
          cases lexs2 with
          | nil => exact absurd rfl hne2
          | cons l2' ls2' =>
          have hBCC2 := blockChildren_cons (k + 1) l2' ls2' ts2 ts'' after
          obtain ⟨n1, pOut1, d1, L1, hnode1, hrep1, hext1, hinv1, hroot1, hpost1, hm1⟩ :=
            (ih _ hszt1).1 (STree.node (l1 :: ls1) ts1) (le_refl _) g d src si
              E (k + 1) (k + 1) p l1 ls1 ts1
              (blockChildren (k + 1) (STree.node (l2' :: ls2') ts2 :: ts'') ++ after)
              (k + 1) l2'
              (renderRestLine ls2' ++ (blockChildren (k + 1 + 1) ts2 ++
                (blockChildren (k + 1) ts'' ++ after)))
              rfl hclT1 (le_refl _) hinv hsrc hAt
              (Or.inr ⟨hBCC2, le_refl _,
                hcl2 l2' (List.mem_cons_self l2' ls2')⟩)
              hlt2
          have hloop1 : pOut1.indentationLoop = pOut1 := by
            rcases hpost1 with ⟨_, hex⟩ | ⟨_, hms⟩
            · exact hex.indentationLoop_exh
            · exact hms.indentationLoop_id
          have hmeasNext : MeasuredAt si E src pOut1 (k + 1) l2'
              (renderRestLine ls2' ++ (blockChildren (k + 1 + 1) ts2 ++
                (blockChildren (k + 1) ts'' ++ after))) := by
            rcases hpost1 with ⟨hA, _⟩ | ⟨_, hms⟩
            · exact absurd hA (by rw [hBCC2]; exact List.cons_ne_nil _ _)
            · exact hms
          obtain ⟨ns', pOut2, d2, Ls', hgo2, hfor2, hext2, hinv2, hroot2, hpost2, hm2'⟩ :=
            (ih _ hszts').2 (STree.node (l2' :: ls2') ts2 :: ts'') (le_refl _)
              g gf d1 src si E j k pOut1 after (acc ++ [n1]) m2 l2 r2 hclF'
              hjk hinv1 (hext1.2 _ _ hsrc)
              (by simp only [AtBlock]; exact hmeasNext)
              hAspec (by omega) (by omega)
          refine ⟨n1 :: ns', pOut2, d2, L1 :: Ls', ?_,
            RepForest.cons (hrep1.mono_ext hext2) hfor2,
            DataExt.trans hext1 hext2, hinv2, hroot2.trans hroot1, hpost2,
            by omega⟩
          rw [hpeq]
          simp only [childrenLoopGo]
          rw [peekTok_of_ok rfl]
          simp only []
          rw [if_pos (by omega)]
          rw [← hpeq, hnode1]
          simp only []
          rw [hloop1, hgo2]
          rw [List.append_assoc, List.singleton_append]

/-- Unfolding equation for `parseF` at positive fuel. -/
theorem parseF_succ (g : Nat) (p : Parser) (data : Data) :
    parseF (g + 1) p data
      = match p.peekTok with
        | (none, p') => some (p', data)
        | (some _, p') =>
            match nodeF g p' data with
            | none => none
            | some (n, p'', data') =>
                parseF g p'' (data'.push_root_node p''.source_index n) := rfl

/-- Parsing the written text of one clean tree (written at any
indentation) registers exactly one new root node, which represents the
tree. -/
theorem parse_written_tree (t : STree) (k0 : Nat) (d : Data)
    (src : List Char) (si : SourceIndex)
    (hclean : CleanT t) (hinv : d.nodes.Inv)
    (hsrc : d.get_source si = some src)
    (htext : src = blockText k0 t) :
    ∃ (n' : NodeIndex) (L : List NodeIndex) (pOut : Parser) (d' : Data),
      (Parser.init si src).parse d = (pOut, d') ∧
      Represents d' si n' t L ∧
      DataExt d d' ∧
      d'.root_nodes = d.root_nodes ++ [(si, n')] := by
  cases t with
  | node lexs ts =>
  have hclean' := hclean
  cases hclean' with
  | mk hne hcl hch =>
  cases lexs with
  | nil => exact absurd rfl hne
  | cons l0 ls =>
  have hsrc0 : src = quoteLex l0 ++
      (renderRestLine ls ++ (blockChildren (k0 + 1) ts ++ [])) := by
    rw [htext]
    simp only [blockText, renderLine, List.append_nil, List.append_assoc]
  obtain ⟨q, hq, hnl, hqn, hdecomp⟩ :=
    quoteLex_decomp l0 (renderRestLine ls ++ (blockChildren (k0 + 1) ts ++ []))
      (hcl l0 (List.mem_cons_self l0 ls))
  have hadv0 : Lexer.advance ⟨si, none, true, 0, src, .unknown⟩
      = (some (.ok ⟨.symbol, ⟨0 + 1, 0 + 1 + utf8Len l0⟩⟩),
         ⟨si, none, false, 0 + 1 + utf8Len l0 + 1,
           renderRestLine ls ++ (blockChildren (k0 + 1) ts ++ []), .unknown⟩) := by
    rw [hsrc0, hdecomp]
    exact advance_quoted si true .unknown 0 q l0 _ hq hnl hqn
  have hmeas1 : MeasuredAt si [] src
      ⟨⟨si, some (.ok ⟨.symbol, ⟨0 + 1, 0 + 1 + utf8Len l0⟩⟩), false,
        0 + 1 + utf8Len l0 + 1,
        renderRestLine ls ++ (blockChildren (k0 + 1) ts ++ []), .unknown⟩, [], 0⟩
      0 l0 (renderRestLine ls ++ (blockChildren (k0 + 1) ts ++ [])) := by
    refine ⟨0 + 1, .unknown, Or.inl rfl, rfl, ?_, quoteLex l0, ?_, ?_⟩
    · have e1 : (0 : Nat) + 1 = utf8Len [q] := by
        rw [utf8Len_cons, utf8Len_nil]
        rcases hq with rfl | rfl <;> decide
      rw [e1, hsrc0, hdecomp,
        show q :: (l0 ++ q :: (renderRestLine ls ++ (blockChildren (k0 + 1) ts ++ [])))
          = [q] ++ l0 ++ (q :: (renderRestLine ls ++ (blockChildren (k0 + 1) ts ++ [])))
          from by simp]
      exact sliceBytes_middle [q] l0 _
    · exact hsrc0
    · rw [utf8Len_quoteLex]
      omega
  obtain ⟨n1, pOut1, d1, L1, hnode1, hrep1, hext1, hinv1, hroot1, hpost1, hm1⟩ :=
    (node_rec_all (sizeOf (STree.node (l0 :: ls) ts))).1
      (STree.node (l0 :: ls) ts) (le_refl _)
      (pMeasure (Parser.init si src)) d src si [] 0 k0
      ⟨⟨si, some (.ok ⟨.symbol, ⟨0 + 1, 0 + 1 + utf8Len l0⟩⟩), false,
        0 + 1 + utf8Len l0 + 1,
        renderRestLine ls ++ (blockChildren (k0 + 1) ts ++ []), .unknown⟩, [], 0⟩
      l0 ls ts [] 0 [] [] rfl hclean (Nat.zero_le _) hinv hsrc hmeas1
      (Or.inl rfl)
      (by
        have hsl : src.length = l0.length + 2 +
            (renderRestLine ls ++ (blockChildren (k0 + 1) ts ++ [])).length := by
          rw [hsrc0]
          simp only [List.length_append, quoteLex_length]
        unfold Parser.init Lexer.init pMeasure lexMeasure
        simp only []
        omega)
  rcases hpost1 with ⟨_, hex1⟩ | ⟨hne1, _⟩
  · obtain ⟨offX, jX, spX, hspX, rfl⟩ := hex1
    have hpos : 1 ≤ pMeasure (Parser.init si src) := by
      unfold Parser.init Lexer.init pMeasure lexMeasure
      simp only []
      have hnn : src ≠ [] := by
        rw [hsrc0]
        unfold quoteLex
        split_ifs <;> simp
      cases hsv : src with
      | nil => exact absurd hsv hnn
      | cons c cs =>
        simp [hsv]
        omega
    obtain ⟨M, hM⟩ := Nat.exists_eq_add_of_le hpos
    have hparse : parseF (pMeasure (Parser.init si src) + 1)
        (Parser.init si src) d
        = some (⟨⟨si, none, false, offX, [], spX⟩, [], jX⟩,
            (d1.push_root_node si n1)) := by
      rw [parseF_succ]
      rw [show (Parser.init si src).peekTok
          = (some (⟨.symbol, ⟨0 + 1, 0 + 1 + utf8Len l0⟩⟩ : Token),
             ⟨⟨si, some (.ok ⟨.symbol, ⟨0 + 1, 0 + 1 + utf8Len l0⟩⟩), false,
               0 + 1 + utf8Len l0 + 1,
               renderRestLine ls ++ (blockChildren (k0 + 1) ts ++ []), .unknown⟩,
               [], 0⟩) from peekTok_advance_ok rfl hadv0]
      simp only []
      rw [hnode1]
      simp only []
      rw [hM, Nat.add_comm 1 M, parseF_succ,
        peekTok_advance_none rfl (advance_exhausted si false spX offX)]
      rfl
    refine ⟨n1, L1, ⟨⟨si, none, false, offX, [], spX⟩, [], jX⟩,
      d1.push_root_node si n1, ?_, ?_, ?_, ?_⟩
    · unfold Parser.parse
      rw [hparse]
      rfl
    · exact hrep1.mono_ext (DataExt.push_root_node d1 si n1)
    · exact DataExt.trans hext1 (DataExt.push_root_node d1 si n1)
    · unfold Data.push_root_node
      simp only []
      rw [hroot1]
  · exact absurd rfl hne1

/-! ### The writer reproduces the rendered text -/

/-- One resolving clean token writes as its quoted lexeme. -/
theorem writeOneTok_quote {src : List Char} {t : Token} {lex : List Char}
    (hsl : sliceBytes src t.span.start t.span.stop = some lex)
    (hcl : cleanLex lex) (is_last : Bool) :
    writeOneTok src t is_last
      = quoteLex lex ++ (if is_last = true then [] else [' ']) := by
  obtain ⟨hne, hnl, hqs⟩ := hcl
  unfold writeOneTok quoteLex
  rw [hsl]
  simp only []
  rw [if_neg hne]
  by_cases hd : '"' ∈ lex
  · have hb : '`' ∉ lex := by
      rcases hqs with h | h
      · exact absurd hd h
      · exact h
    rw [if_neg (fun h => h hd), if_pos hb, if_pos hd]
  · rw [if_pos hd, if_neg hd]

/-- The token loop writes a node's resolving clean tokens as the
rendered line. -/
theorem writeToks_renderLine {d : Data} {si : SourceIndex} {src : List Char}
    (hsrcg : d.get_source si = some src) :
    ∀ {toks : List Token} {lexs : List (List Char)},
      List.Forall₂ (fun tok lex => d.get_lexeme si tok = some lex) toks lexs →
      (∀ l ∈ lexs, cleanLex l) →
      writeToks src toks = renderLine lexs := by
  intro toks
  induction toks with
  | nil =>
    intro lexs h hcl
    cases h
    rfl
  | cons t toks' ih =>
    intro lexs h hcl
    cases h with
    | cons h1 h2 =>
    rename_i lex lexs'
    have hsl : sliceBytes src t.span.start t.span.stop = some lex := by
      unfold Data.get_lexeme at h1
      rw [hsrcg] at h1
      simp only [Option.some_bind] at h1
      exact h1
    cases toks' with
    | nil =>
      cases h2
      show writeOneTok src t true = renderLine [lex]
      rw [writeOneTok_quote hsl (hcl lex (by simp)) true]
      simp [renderLine, renderRestLine]
    | cons t2 ts2 =>
      cases h2 with
      | cons h21 h22 =>
      rename_i lex2 lexs2
      show writeOneTok src t false ++ writeToks src (t2 :: ts2)
        = renderLine (lex :: lex2 :: lexs2)
      rw [writeOneTok_quote hsl (hcl lex (by simp)) false,
        ih (List.Forall₂.cons h21 h22)
          (fun x hx => hcl x (List.mem_cons_of_mem _ hx))]
      simp only [renderLine, renderRestLine]
      simp [List.append_assoc]

/-- Distinct resolving arena indices occupy distinct slots. -/
theorem Arena.get_index_inj {a : Arena T} {i j : ArenaIndex} {v w : T}
    (hi : a.get i = some v) (hj : a.get j = some w)
    (hij : i.index = j.index) : i = j := by
  unfold Arena.get at hi hj
  cases hx : a.arena[i.index]? with
  | none => rw [hx] at hi; cases hi
  | some e =>
    rw [hx] at hi
    rw [hij] at hx
    rw [hx] at hj
    cases e with
    | free => cases hi
    | occupied g u =>
      simp only [] at hi hj
      by_cases hg : g = i.generation
      · by_cases hg' : g = j.generation
        · cases i; cases j
          simp only [] at hij hg hg'
          rw [hij, ← hg, hg']
        · rw [if_neg hg'] at hj; cases hj
      · rw [if_neg hg] at hi; cases hi

/-- Unfolding equation for `writeRecF` at positive fuel. -/
theorem writeRecF_succ (d : Data) (F : Nat) (si : SourceIndex) (n : NodeIndex)
    (ind : Nat) (out : List Char)
    (visited : List (SourceIndex × NodeIndex)) :
    writeRecF d (F + 1) si n ind out visited
      = if (si, n) ∈ visited then some (out, visited)
        else
          match d.get_node n with
          | some Node.error => some (out, visited ++ [(si, n)])
          | _ =>
              match d.get_tokens n with
              | none => some (out, visited ++ [(si, n)])
              | some tokens =>
                  match d.get_children n with
                  | some children =>
                      if children ≠ [] then
                        writeChildrenGo (writeRecF d F) si children (ind + 1)
                          (out ++ writeToks ((d.get_source si).getD []) tokens)
                          (visited ++ [(si, n)])
                      else some
                        (out ++ writeToks ((d.get_source si).getD []) tokens,
                          visited ++ [(si, n)])
                  | none => some
                      (out ++ writeToks ((d.get_source si).getD []) tokens,
                        visited ++ [(si, n)]) := rfl

/-- The writer emits exactly the rendered block text of a represented
clean tree with distinct, unvisited node indices; the visited set grows
by the tree's preorder list. -/
theorem write_rep_all : ∀ N : Nat,
    (∀ (t : STree), sizeOf t ≤ N →
      ∀ (d : Data) (si : SourceIndex) (src : List Char) (n : NodeIndex)
        (L : List NodeIndex) (ind : Nat) (out : List Char)
        (visited : List (SourceIndex × NodeIndex)) (fuel : Nat),
        Represents d si n t L → CleanT t →
        d.get_source si = some src →
        L.Nodup → (∀ x ∈ L, (si, x) ∉ visited) →
        L.length < fuel →
        writeRecF d fuel si n ind out visited
          = some (out ++ blockText ind t,
              visited ++ L.map (fun x => (si, x)))) ∧
    (∀ (ts : List STree), sizeOf ts ≤ N →
      ∀ (d : Data) (si : SourceIndex) (src : List Char) (cs : List NodeIndex)
        (Ls : List (List NodeIndex)) (ind : Nat) (out : List Char)
        (visited : List (SourceIndex × NodeIndex)) (fuel : Nat),
        RepForest d si cs ts Ls → CleanF ts →
        d.get_source si = some src →
        Ls.join.Nodup → (∀ x ∈ Ls.join, (si, x) ∉ visited) →
        Ls.join.length < fuel →
        writeChildrenGo (writeRecF d fuel) si cs ind out visited
          = some (out ++ blockChildren ind ts,
              visited ++ Ls.join.map (fun x => (si, x)))) := by
  intro N
  induction N using Nat.strong_induction_on with
  | _ N ih =>
    constructor
    · intro t hsz d si src n L ind out visited fuel hrep hclean hsrcg hnd
        hfresh hfuel
      cases fuel with
      | zero => exact absurd hfuel (Nat.not_lt_zero _)
      | succ F =>
      cases hrep with
      | leaf hn hlex =>
        rename_i toks lexs
        cases hclean with
        | mk hne hcl hchC =>
        rw [writeRecF_succ, if_neg (hfresh n (by simp)), hn]
        simp only []
        have htk : d.get_tokens n = some toks := by
          unfold Data.get_tokens
          rw [hn]
        rw [htk]
        simp only []
        have hgc : d.get_children n = none := by
          unfold Data.get_children
          rw [hn]
        rw [hgc, hsrcg]
        simp only [Option.getD]
        rw [writeToks_renderLine hsrcg hlex hcl]
        simp [blockText, blockChildren]
      | parent hn hlex hch =>
        rename_i toks cs lexs ts Ls
        cases hclean with
        | mk hne hcl hchC =>
        rw [writeRecF_succ, if_neg (hfresh n (by simp)), hn]
        simp only []
        have htk : d.get_tokens n = some toks := by
          unfold Data.get_tokens
          rw [hn]
        rw [htk]
        simp only []
        have hgc : d.get_children n = some cs := by
          unfold Data.get_children
          rw [hn]
        rw [hgc, hsrcg]
        simp only [Option.getD]
        rw [writeToks_renderLine hsrcg hlex hcl]
        cases hch with
        | nil =>
          rw [if_neg (by simp)]
          simp [blockText, blockChildren]
        | cons h1 hs1 =>
          rename_i c1 t1 L1 cs1 ts1 Ls1
          rw [if_pos (by simp)]
          have hns : sizeOf (STree.node lexs (t1 :: ts1))
              = 1 + sizeOf lexs + sizeOf (t1 :: ts1) := by simp
          simp only [List.join_cons] at hnd hfresh hfuel ⊢
          have hjoin : ((n :: (L1 ++ Ls1.join)) : List NodeIndex).Nodup := by
            simpa using hnd
          have hforest := (ih (sizeOf (t1 :: ts1)) (by omega)).2 (t1 :: ts1)
            (le_refl _) d si src (c1 :: cs1) (L1 :: Ls1) (ind + 1)
            (out ++ renderLine lexs) (visited ++ [(si, n)]) F
            (RepForest.cons h1 hs1) hchC hsrcg
            (by
              simp only [List.join_cons]
              rcases List.nodup_cons.mp hnd with ⟨_, h2⟩
              exact h2)
            (by
              intro x hx
              simp only [List.join_cons] at hx
              simp only [List.mem_append, List.mem_singleton]
              push_neg
              refine ⟨hfresh x (List.mem_cons_of_mem _ hx), ?_⟩
              intro hcontra
              have hxn : x = n := by
                cases hcontra
                rfl
              rcases List.nodup_cons.mp hnd with ⟨hnn, _⟩
              exact hnn (hxn ▸ hx)
            )
            (by
              simp only [List.join_cons, List.length_cons] at hfuel ⊢
              omega)
          rw [hforest]
          simp [blockText, List.append_assoc]
    · intro ts hsz d si src cs Ls ind out visited fuel hrf hclF hsrcg hnd
        hfresh hfuel
      cases hrf with
      | nil => simp [writeChildrenGo, blockChildren]
      | cons h1 hs1 =>
        rename_i c1 t1 L1 cs1 ts1 Ls1
        cases hclF with
        | cons hclT1 hclF1 =>
        have hns : sizeOf (t1 :: ts1) = 1 + sizeOf t1 + sizeOf ts1 := by simp
        simp only [List.join_cons] at hnd hfresh hfuel
        obtain ⟨hnd1, hnd2, hdisj⟩ := List.nodup_append.mp hnd
        have htree := (ih (sizeOf t1) (by omega)).1 t1 (le_refl _) d si src c1
          L1 ind (out ++ '\n' :: tabs ind) visited fuel h1 hclT1 hsrcg hnd1
          (fun x hx => hfresh x (List.mem_append_left _ hx))
          (by
            simp only [List.length_append] at hfuel
            omega)
        have hrest := (ih (sizeOf ts1) (by omega)).2 ts1 (le_refl _) d si src
          cs1 Ls1 ind
          ((out ++ '\n' :: tabs ind) ++ blockText ind t1)
          (visited ++ L1.map (fun x => (si, x))) fuel hs1 hclF1 hsrcg hnd2
          (by
            intro x hx
            simp only [List.mem_append, List.mem_map]
            push_neg
            refine ⟨hfresh x (List.mem_append_right _ hx), ?_⟩
            intro y hy hcontra
            have hxy : y = x := by
              have := congrArg Prod.snd hcontra
              simpa using this
            exact hdisj (hxy ▸ hy) hx
          )
          (by
            show Ls1.flatten.length < fuel
            simp only [List.length_append] at hfuel
            omega)
        simp only [writeChildrenGo]
        rw [htree]
        simp only []
        rw [hrest]
        simp only [List.join_cons, blockChildren]
        simp [List.append_assoc]

/-- Every node index visited by a representation resolves. -/
theorem rep_resolves_all : ∀ N : Nat,
    (∀ (t : STree), sizeOf t ≤ N →
      ∀ (d : Data) (si : SourceIndex) (n : NodeIndex) (L : List NodeIndex),
        Represents d si n t L → ∀ x ∈ L, ∃ v, d.get_node x = some v) ∧
    (∀ (ts : List STree), sizeOf ts ≤ N →
      ∀ (d : Data) (si : SourceIndex) (cs : List NodeIndex)
        (Ls : List (List NodeIndex)),
        RepForest d si cs ts Ls → ∀ x ∈ Ls.join, ∃ v, d.get_node x = some v) := by
  intro N
  induction N using Nat.strong_induction_on with
  | _ N ih =>
    constructor
    · intro t hsz d si n L hrep x hx
      cases hrep with
      | leaf hn hlex =>
        have hxn : x = n := by simpa using hx
        exact ⟨_, hxn ▸ hn⟩
      | parent hn hlex hch =>
        rename_i toks cs lexs ts Ls
        rcases List.mem_cons.mp hx with rfl | hx'
        · exact ⟨_, hn⟩
        · have hns : sizeOf (STree.node lexs ts)
              = 1 + sizeOf lexs + sizeOf ts := by simp
          exact (ih (sizeOf ts) (by omega)).2 ts (le_refl _) d si cs Ls hch x hx'
    · intro ts hsz d si cs Ls hrf x hx
      cases hrf with
      | nil => simp at hx
      | cons h1 hs1 =>
        rename_i c1 t1 L1 cs1 ts1 Ls1
        have hns : sizeOf (t1 :: ts1) = 1 + sizeOf t1 + sizeOf ts1 := by simp
        simp only [List.join_cons, List.mem_append] at hx
        rcases hx with hx1 | hx2
        · exact (ih (sizeOf t1) (by omega)).1 t1 (le_refl _) d si c1 L1 h1 x hx1
        · exact (ih (sizeOf ts1) (by omega)).2 ts1 (le_refl _) d si cs1 Ls1 hs1
            x (by simpa using hx2)

/-- A resolving arena index points into the backing list. -/
theorem Arena.get_some_lt {a : Arena T} {i : ArenaIndex} {v : T}
    (h : a.get i = some v) : i.index < a.arena.length := by
  unfold Arena.get at h
  cases hx : a.arena[i.index]? with
  | none => rw [hx] at h; cases h
  | some e => exact lt_of_getElem?_eq_some hx

/-- A list of natural numbers without duplicates, all below `n`, has at
most `n` elements. -/
theorem nodup_lt_length_le {l : List Nat} {n : Nat} (hnd : l.Nodup)
    (hlt : ∀ x ∈ l, x < n) : l.length ≤ n := by
  have h1 : l.toFinset.card = l.length := List.toFinset_card_of_nodup hnd
  have h2 : l.toFinset ⊆ Finset.range n := by
    intro x hx
    exact Finset.mem_range.mpr (hlt x (List.mem_toFinset.mp hx))
  have h3 := Finset.card_le_card h2
  rw [h1, Finset.card_range] at h3
  exact h3

/-- Distinct resolving node indices are no more numerous than the arena's
slots. -/
theorem nodup_resolving_le {d : Data} (L : List NodeIndex) (hnd : L.Nodup)
    (hres : ∀ x ∈ L, ∃ v, d.get_node x = some v) :
    L.length ≤ d.nodes.arena.length := by
  have hmapnd : (L.map (fun x => x.index.index)).Nodup := by
    refine List.Nodup.map_on ?_ hnd
    intro x hx y hy hxy
    obtain ⟨v, hv⟩ := hres x hx
    obtain ⟨w, hw⟩ := hres y hy
    unfold Data.get_node at hv hw
    have := Arena.get_index_inj hv hw hxy
    cases x; cases y
    simp only [] at this
    rw [this]
  have hmaplt : ∀ z ∈ L.map (fun x => x.index.index),
      z < d.nodes.arena.length := by
    intro z hz
    obtain ⟨x, hx, rfl⟩ := List.mem_map.mp hz
    obtain ⟨v, hv⟩ := hres x hx
    exact Arena.get_some_lt hv
  have := nodup_lt_length_le hmapnd hmaplt
  simpa using this

/-- `Data::write` with its canonical fuel on a represented clean tree
with distinct node indices yields the rendered block text. -/
theorem Data.write_rep {d : Data} {si : SourceIndex} {n : NodeIndex}
    {t : STree} {L : List NodeIndex} {src : List Char} (ind : Nat)
    (hrep : Represents d si n t L) (hclean : CleanT t)
    (hsrcg : d.get_source si = some src) (hnd : L.Nodup) :
    d.write si n ind = some (blockText ind t) := by
  unfold Data.write
  have hres := (rep_resolves_all (sizeOf t)).1 t (le_refl _) d si n L hrep
  have hlen := nodup_resolving_le L hnd hres
  have h := (write_rep_all (sizeOf t)).1 t (le_refl _) d si src n L ind [] []
    (d.nodes.arena.length + 2) hrep hclean hsrcg hnd (by simp) (by omega)
  rw [h]
  simp

/-- C5 (amended): for every acyclic tree over a single source — a data
node `n` with pairwise-distinct node indices `L` abstracting to `t`
(`Represents`), as built through `insert_node`, `push_child` and
`push_token` — in which every node carries at least one token and every
token's lexeme resolves to a nonempty text containing no newline and not
both a double quote and a backtick (`CleanT`), serializing with `write`
and then lexing and parsing the produced text into a fresh `Data`
registers exactly one root node, and that root represents the same
abstract tree `t`: the same parent/child shape with, node by node, the
same token lexeme texts (quoting style aside). -/
theorem data_write_parse_roundtrip
    (d : Data) (si : SourceIndex) (n : NodeIndex) (t : STree)
    (L : List NodeIndex) (src out : List Char) (ind : Nat)
    (hrep : Represents d si n t L)
    (hclean : CleanT t)
    (hnd : L.Nodup)
    (hsrcg : d.get_source si = some src)
    (hout : d.write si n ind = some out) :
    ∃ (n2 : NodeIndex) (L2 : List NodeIndex) (pOut : Parser) (d2 : Data),
      (Parser.init (Data.default.insert_source out).2 out).parse
          (Data.default.insert_source out).1 = (pOut, d2) ∧
      d2.root_nodes = [((Data.default.insert_source out).2, n2)] ∧
      Represents d2 (Data.default.insert_source out).2 n2 t L2 := by
  have hw := Data.write_rep ind hrep hclean hsrcg hnd
  rw [hw] at hout
  have hout2 : out = blockText ind t := (Option.some.inj hout).symm
  have hinv1 : (Data.default.insert_source out).1.nodes.Inv := by
    unfold Data.default Data.insert_source
    simp only []
    exact Arena.Inv.insert_inv (Arena.inv_default Node) Node.error
  have hsrc1 : (Data.default.insert_source out).1.get_source
      (Data.default.insert_source out).2 = some out := by
    unfold Data.insert_source Data.get_source
    simp only []
    exact Arena.insert_get (Arena.inv_default (List Char)) out
  obtain ⟨n2, L2, pOut, d2, hparse, hrep2, hext2, hroots⟩ :=
    parse_written_tree t ind (Data.default.insert_source out).1 out
      (Data.default.insert_source out).2 hclean hinv1 hsrc1 hout2
  refine ⟨n2, L2, pOut, d2, hparse, ?_, hrep2⟩
  rw [hroots]
  rfl


/-- A concrete two-lexeme source for the round-trip witness. -/
def rtData0 : Data × SourceIndex := Data.default.insert_source ['a', 'b']

/-- A leaf node whose single token's lexeme is `b`. -/
def rtChild : Data × NodeIndex :=
  rtData0.1.insert_node (Node.some [⟨TokenKind.symbol, ⟨1, 2⟩⟩])

/-- A parent node whose single token's lexeme is `a`, with `rtChild` as child. -/
def rtRoot : Data × NodeIndex :=
  rtChild.1.insert_node (Node.parent [⟨TokenKind.symbol, ⟨0, 1⟩⟩] [rtChild.2])

/-- The abstract tree of `rtRoot`. -/
def rtTree : STree := STree.node [['a']] [STree.node [['b']] []]

/-- The text `write` produces for `rtRoot`. -/
def rtOut : List Char := ['"', 'a', '"', '\n', '\t', '"', 'b', '"']

/-- Witness: a two-node tree (a parent with lexeme `a` and a leaf child
with lexeme `b`) over the source `ab`; its written text is
`"a"` newline tab `"b"`, and reparsing that text registers exactly one
root node representing the same abstract tree. -/
theorem data_write_parse_roundtrip_witness :
    (Represents rtRoot.1 rtData0.2 rtRoot.2 rtTree [rtRoot.2, rtChild.2] ∧
      CleanT rtTree ∧ ([rtRoot.2, rtChild.2] : List NodeIndex).Nodup ∧
      rtRoot.1.get_source rtData0.2 = some ['a', 'b'] ∧
      rtRoot.1.write rtData0.2 rtRoot.2 0 = some rtOut) ∧
    (∃ (n2 : NodeIndex) (L2 : List NodeIndex) (pOut : Parser) (d2 : Data),
      (Parser.init (Data.default.insert_source rtOut).2 rtOut).parse
          (Data.default.insert_source rtOut).1 = (pOut, d2) ∧
      d2.root_nodes = [((Data.default.insert_source rtOut).2, n2)] ∧
      Represents d2 (Data.default.insert_source rtOut).2 n2 rtTree L2) := by
  have hn1 : rtRoot.1.get_node rtRoot.2
      = some (Node.parent [⟨TokenKind.symbol, ⟨0, 1⟩⟩] [rtChild.2]) := by decide
  have hn2 : rtRoot.1.get_node rtChild.2
      = some (Node.some [⟨TokenKind.symbol, ⟨1, 2⟩⟩]) := by decide
  have hl1 : rtRoot.1.get_lexeme rtData0.2 ⟨TokenKind.symbol, ⟨0, 1⟩⟩
      = some ['a'] := by decide
  have hl2 : rtRoot.1.get_lexeme rtData0.2 ⟨TokenKind.symbol, ⟨1, 2⟩⟩
      = some ['b'] := by decide
  have hrep : Represents rtRoot.1 rtData0.2 rtRoot.2 rtTree
      [rtRoot.2, rtChild.2] :=
    Represents.parent hn1 (List.Forall₂.cons hl1 List.Forall₂.nil)
      (RepForest.cons
        (Represents.leaf hn2 (List.Forall₂.cons hl2 List.Forall₂.nil))
        RepForest.nil)
  have hca : cleanLex ['a'] := ⟨by decide, by decide, Or.inl (by decide)⟩
  have hcb : cleanLex ['b'] := ⟨by decide, by decide, Or.inl (by decide)⟩
  have hclean : CleanT rtTree :=
    CleanT.mk (by decide)
      (by intro l hl; rw [show l = ['a'] by simpa using hl]; exact hca)
      (CleanF.cons
        (CleanT.mk (by decide)
          (by intro l hl; rw [show l = ['b'] by simpa using hl]; exact hcb)
          CleanF.nil)
        CleanF.nil)
  have hout : rtRoot.1.write rtData0.2 rtRoot.2 0 = some rtOut := by decide
  exact ⟨⟨hrep, hclean, by decide, by decide, hout⟩,
    data_write_parse_roundtrip rtRoot.1 rtData0.2 rtRoot.2 rtTree
      [rtRoot.2, rtChild.2] ['a', 'b'] rtOut 0 hrep hclean (by decide)
      (by decide) hout⟩

end EndlessSkyRW
